import Mathlib

/-!
# Verification of the lighthouse dependency-graph core

Shallow embedding of `src/lighthouse-core/lib/dependency-graph/base-node.js` and
the Lantern first-contentful-paint pipeline in `src/stack-packs/pack.d.ts`.

Nodes live in an arena (`Graph.nodes`); a JS object reference is modelled as the
node's index into that arena, so object identity is index equality while a node's
`id` is a separate string field (the two are deliberately distinct, mirroring the
source, where `traverse` deduplicates by `id` but `hasCycle` deduplicates by
object reference). Mutating operations are heap transformers `Graph → Graph`.
Fallible code (`cloneWithRelationships`, which can throw) returns `Except`.
-/

namespace Lighthouse

/-- `BaseNode.TYPES` (base-node.js lines 304–307): the closed set of node types. -/
inductive NodeType where
  | network
  | cpu
deriving DecidableEq, Repr

/-- A node of the dependency graph.  The first four fields embed `BaseNode`'s own
state (base-node.js lines 30–37): `_id`, `_isMainDocument`, `_dependencies`,
`_dependents` (edge lists hold arena indices, i.e. object references).

The remaining fields are the node-capability contract of the subclasses.
Modelled from the spec: `cpu-node.js` and `network-node.js` are not part of this
slice; spec §4.2 lists exactly the capabilities consumed here — `type`,
`startTime`, `endTime`; for NETWORK nodes `record.url`,
`hasRenderBlockingPriority()`, `initiatorType`; for CPU nodes
`isEvaluateScriptFor(urlSet)` (carried as the set `evalUrls` of script URLs the
task evaluates), `didPerformLayout()`, and named `childEvents`. -/
structure NodeData where
  id : String
  isMainDocument : Bool
  dependencies : List Nat
  dependents : List Nat
  typ : NodeType
  startTime : Int
  endTime : Int
  url : String
  hasRenderBlockingPriority : Bool
  initiatorType : String
  evalUrls : List String
  didPerformLayout : Bool
  childEvents : List String
deriving DecidableEq, Repr

instance : Inhabited NodeData :=
  ⟨{ id := "", isMainDocument := false, dependencies := [], dependents := [],
     typ := NodeType.network, startTime := 0, endTime := 0, url := "",
     hasRenderBlockingPriority := false, initiatorType := "", evalUrls := [],
     didPerformLayout := false, childEvents := [] }⟩

/-- The heap/arena of nodes of one graph.  An index into `nodes` plays the role
of a JS object reference. -/
structure Graph where
  nodes : List NodeData
deriving DecidableEq

namespace Graph

def size (g : Graph) : Nat := g.nodes.length

/-- Dereference an object reference.  Out-of-range indices yield the default
node; well-formed runs never dereference such indices. -/
def nodeAt (g : Graph) (i : Nat) : NodeData := g.nodes.getD i default

/-- `node.id` (base-node.js line 43). -/
def idOf (g : Graph) (i : Nat) : String := (g.nodeAt i).id

def setNode (g : Graph) (i : Nat) (nd : NodeData) : Graph := ⟨g.nodes.set i nd⟩

/-- `getDependents` (line 85): a copy of the dependents list. -/
def dependentsOf (g : Graph) (i : Nat) : List Nat := (g.nodeAt i).dependents

/-- `getDependencies` (line 92): a copy of the dependencies list. -/
def dependenciesOf (g : Graph) (i : Nat) : List Nat := (g.nodeAt i).dependencies

/-- `addDependency` (lines 124–131): no-op when the edge already exists;
otherwise push `self` onto `node._dependents` and `node` onto
`self._dependencies`. -/
def addDependency (g : Graph) (self node : Nat) : Graph :=
  if (g.nodeAt self).dependencies.contains node then g
  else
    let g1 := g.setNode node
      { g.nodeAt node with dependents := (g.nodeAt node).dependents ++ [self] }
    g1.setNode self
      { g1.nodeAt self with dependencies := (g1.nodeAt self).dependencies ++ [node] }

/-- `addDependent` (lines 117–119): `node.addDependency(this)`. -/
def addDependent (g : Graph) (self node : Nat) : Graph := g.addDependency node self

/-- `removeDependency` (lines 143–151): no-op when the edge is absent; otherwise
`splice(indexOf, 1)` on both sides.  JS `indexOf` returns -1 when `self` is
missing from `node._dependents` (possible only in an asymmetric state), and
`splice(-1, 1)` then removes the *last* element — embedded faithfully. -/
def removeDependency (g : Graph) (self node : Nat) : Graph :=
  if (g.nodeAt self).dependencies.contains node then
    let dl := (g.nodeAt node).dependents
    let dl1 := if dl.contains self then dl.erase self else dl.dropLast
    let g1 := g.setNode node { g.nodeAt node with dependents := dl1 }
    g1.setNode self
      { g1.nodeAt self with dependencies := (g1.nodeAt self).dependencies.erase node }
  else g

/-- `removeDependent` (lines 136–138): `node.removeDependency(this)`. -/
def removeDependent (g : Graph) (self node : Nat) : Graph := g.removeDependency node self

/-- `removeAllDependencies` (lines 153–157): iterate over a snapshot
(`.slice()`) of the dependency list, removing each edge. -/
def removeAllDependencies (g : Graph) (self : Nat) : Graph :=
  ((g.nodeAt self).dependencies).foldl (fun h node => h.removeDependency self node) g

end Graph

/-- `cloneWithoutRelationships` (lines 163–167): a fresh node with the same id
and main-document flag and empty edge lists.  Modelled from the spec for the
variant payload: spec §4.1 says the clone is "a fresh node of the same variant"
(the subclass overrides live in cpu-node.js / network-node.js, outside this
slice), so the capability fields are carried over unchanged. -/
def NodeData.cloneWithoutRelationships (nd : NodeData) : NodeData :=
  { nd with dependencies := [], dependents := [] }

/-! ## Breadth-first traversal (`traverse`, lines 227–249) -/

/-- The enqueue loop of `traverse` (lines 242–247): for each next node, skip it
when its id is already visited; otherwise mark the id visited and append the
extended traversal path to the queue. -/
def pushNexts (g : Graph) (p : List Nat) :
    List Nat → List (List Nat) → List String → List (List Nat) × List String
  | [], queue, visited => (queue, visited)
  | nx :: rest, queue, visited =>
      if visited.contains (g.idOf nx) then pushNexts g p rest queue visited
      else pushNexts g p rest (queue ++ [nx :: p]) (visited ++ [g.idOf nx])

/-- The `while (queue.length)` loop of `traverse`, with explicit fuel.  Each
iteration shifts one traversal path off the queue, records it (the JS callback
invocation, with `node = traversalPath[0]`), and enqueues unvisited next nodes.
Fuel `g.size + 2` is always sufficient (see `traverseAux_complete`-style lemmas
below): every enqueue adds a fresh id to `visited`, which stays duplicate-free
inside the set of node ids plus the default id. -/
def traverseAux (g : Graph) (nextF : Nat → List Nat) :
    Nat → List (List Nat) → List String → List (List Nat)
  | 0, _, _ => []
  | _ + 1, [], _ => []
  | fuel + 1, p :: queue, visited =>
      let st := pushNexts g p (nextF (p.headD 0)) queue visited
      p :: traverseAux g nextF fuel st.1 st.2

/-- `traverse` (lines 227–249): BFS from `start`, deduplicating by node *id*;
returns the recorded traversal paths in callback order (each path has the
visited node first and `start` last). -/
def Graph.traverse (g : Graph) (start : Nat) (nextF : Nat → List Nat) :
    List (List Nat) :=
  traverseAux g nextF (g.size + 2) [[start]] [g.idOf start]

/-- The sequence of visited nodes (`traversalPath[0]` of each callback). -/
def Graph.traverseNodes (g : Graph) (start : Nat) (nextF : Nat → List Nat) :
    List Nat :=
  (g.traverse start nextF).map (fun p => p.headD 0)

/-! ## Cycle detection (`hasCycle`, lines 257–301) -/

/-- The `direction` argument of `hasCycle`. -/
inductive Direction where
  | dependents
  | dependencies
  | both
deriving DecidableEq, Repr

/-- The neighbor-push loop of `hasCycle` (lines 293–297): push each explored
neighbor that is not already on the `toVisit` stack (stack top is the list
head), recording `depthAdded = currentPath.length` for it.  JS `Map.set`
overwrites, embedded as a pointwise function update. -/
def pushUnqueued (d : Nat) :
    List Nat → List Nat → (Nat → Nat) → List Nat × (Nat → Nat)
  | [], stack, depth => (stack, depth)
  | nx :: rest, stack, depth =>
      if stack.contains nx then pushUnqueued d rest stack depth
      else pushUnqueued d rest (nx :: stack) (fun x => if x = nx then d else depth x)

/-- The `while (toVisit.length)` loop of `hasCycle` (lines 270–298), with
explicit fuel.  Pops the stack top; reports a cycle when the popped node is on
`currentPath`; skips already-visited nodes; otherwise trims `currentPath` back
to the node's recorded depth, pushes the node, and explores its neighbors.
Unlike `traverse`, all bookkeeping is by object reference (arena index), not id. -/
def hasCycleAux (expl : Nat → List Nat) :
    Nat → List Nat → List Nat → List Nat → (Nat → Nat) → Bool
  | 0, _, _, _, _ => false
  | _ + 1, [], _, _, _ => false
  | fuel + 1, cur :: rest, path, visited, depth =>
      if path.contains cur then true
      else if visited.contains cur then hasCycleAux expl fuel rest path visited depth
      else
        let path1 := path.take (depth cur) ++ [cur]
        let st := pushUnqueued path1.length (expl cur) rest depth
        hasCycleAux expl fuel st.1 path1 (visited ++ [cur]) st.2

/-- Fuel bound for `hasCycleAux`: one initial stack entry plus at most the total
degree of the graph many pushes. -/
def Graph.fuelBound (g : Graph) : Nat :=
  (g.nodes.map (fun nd => nd.dependencies.length + nd.dependents.length)).sum + g.size + 2

/-- One direction of `hasCycle` (lines 263–300).  The initial `depthAdded` map
is `[[node, 0]]`; entries are read only after being set, so the constantly-zero
function is a faithful initial value. -/
def Graph.hasCycleDir (g : Graph) (node : Nat) (dir : Direction) : Bool :=
  let expl := match dir with
    | Direction.dependents => g.dependentsOf
    | _ => g.dependenciesOf
  hasCycleAux expl g.fuelBound [node] [] [] (fun _ => 0)

/-- `BaseNode.hasCycle` (lines 257–301): `both` checks the dependents direction
or the dependencies direction. -/
def Graph.hasCycle (g : Graph) (node : Nat) (dir : Direction) : Bool :=
  match dir with
  | Direction.both =>
      g.hasCycleDir node Direction.dependents || g.hasCycleDir node Direction.dependencies
  | d => g.hasCycleDir node d

/-! ## `cloneWithRelationships` (lines 176–216) -/

/-- JS `Set.add`: append unless already present (insertion order preserved). -/
def insertElem {α : Type} [BEq α] (l : List α) (x : α) : List α :=
  if l.contains x then l else l ++ [x]

/-- `getRootNode` (lines 105–112): follow the first dependency until a node
without dependencies remains.  Fuel `g.size` suffices on acyclic graphs. -/
def getRootNodeAux (g : Graph) : Nat → Nat → Nat
  | 0, i => i
  | fuel + 1, i =>
      match (g.nodeAt i).dependencies with
      | [] => i
      | d :: _ => getRootNodeAux g fuel d

def Graph.getRootNode (g : Graph) (i : Nat) : Nat := getRootNodeAux g g.size i

/-- The `idsToInclude` set of `cloneWithRelationships` (lines 182–194): traverse
the graph from the root over dependents; for each node passing the predicate,
walk back up its dependencies, adding every visited node's id. -/
def idsToInclude (g : Graph) (pred : NodeData → Bool) (root : Nat) : List String :=
  (g.traverseNodes root g.dependentsOf).foldl
    (fun acc v =>
      if pred (g.nodeAt v) then
        (g.traverseNodes v g.dependenciesOf).foldl (fun a w => insertElem a (g.idOf w)) acc
      else acc) []

/-- `shouldIncludeNode` (lines 180–183): always true without a predicate,
otherwise membership of the node's id in `idsToInclude`. -/
def shouldIncludeNode (g : Graph) (pred : Option (NodeData → Bool)) (root i : Nat) : Bool :=
  match pred with
  | none => true
  | some p => (idsToInclude g p root).contains (g.idOf i)

/-- `idToNodeMap.set` (JS `Map.set`): overwrite the value in place for an
existing key, append otherwise. -/
def mapSet (m : List (String × Nat)) (k : String) (v : Nat) : List (String × Nat) :=
  if m.any (fun e => e.1 == k) then m.map (fun e => if e.1 == k then (k, v) else e)
  else m ++ [(k, v)]

/-- `idToNodeMap.get`. -/
def lookupId (m : List (String × Nat)) (k : String) : Option Nat :=
  (m.find? (fun e => e.1 == k)).map (fun e => e.2)

/-- The cloning pass of `cloneWithRelationships` (lines 197–202): traverse from
the root in order `order`; for each included node allocate a fresh clone
(appended to the heap, so clone references are indices `≥ g.size`) and record it
in the id-keyed map. -/
def clonePhase3 (g : Graph) (order : List Nat) (incl : Nat → Bool) :
    Graph × List (String × Nat) :=
  order.foldl
    (fun st i =>
      if incl i then
        let clone := (g.nodeAt i).cloneWithoutRelationships
        (⟨st.1.nodes ++ [clone]⟩, mapSet st.2 clone.id st.1.size)
      else st)
    (g, [])

/-- The inner dependency-wiring loop of `cloneWithRelationships` (lines
208–211): `clonedNode.addDependency(idToNodeMap.get(dependency.id))`.  When
either clone reference is `undefined` (id missing from the map) the JS property
access inside `addDependency` throws a `TypeError` before any mutation. -/
def wireDeps (g : Graph) (m : List (String × Nat)) (cn : Option Nat) :
    List Nat → Graph → Except String Graph
  | [], h => Except.ok h
  | d :: rest, h =>
      match cn, lookupId m (g.idOf d) with
      | some j, some jd => wireDeps g m cn rest (h.addDependency j jd)
      | _, _ => Except.error "TypeError"

/-- The re-wiring pass of `cloneWithRelationships` (lines 204–212): for every
included node of the traversal, wire its clone's dependency edges. -/
def clonePhase4 (g : Graph) (incl : Nat → Bool) (m : List (String × Nat)) :
    List Nat → Graph → Except String Graph
  | [], h => Except.ok h
  | i :: rest, h =>
      if incl i then
        match wireDeps g m (lookupId m (g.idOf i)) (g.nodeAt i).dependencies h with
        | Except.ok h1 => clonePhase4 g incl m rest h1
        | Except.error e => Except.error e
      else clonePhase4 g incl m rest h

/-- The result of a successful clone: the heap extended with the clones, the
id-keyed clone map (its entries are the nodes of the returned graph), and the
clone corresponding to the calling node. -/
structure CloneResult where
  heap : Graph
  map : List (String × Nat)
  entry : Nat
deriving DecidableEq

/-- `cloneWithRelationships` (lines 176–216): find the root, compute the
inclusion predicate, clone the included nodes, re-wire dependency edges among
the clones, and fail with `Cloned graph missing node` when the calling node's
id is absent from the map. -/
def Graph.cloneWithRelationships (g : Graph) (c : Nat)
    (pred : Option (NodeData → Bool)) : Except String CloneResult :=
  let root := g.getRootNode c
  let incl := fun i => shouldIncludeNode g pred root i
  let order := g.traverseNodes root g.dependentsOf
  let st := clonePhase3 g order incl
  match clonePhase4 g incl st.2 order st.1 with
  | Except.error e => Except.error e
  | Except.ok h =>
      match lookupId st.2 (g.idOf c) with
      | none => Except.error "Cloned graph missing node"
      | some j => Except.ok ⟨h, st.2, j⟩

/-! ## Render-blocking classification (pack.d.ts, `LanternFirstContentfulPaint`) -/

/-- An element of the JS `blockingCpuNodeIds` set.  The source inserts both CPU
node *objects* (pack.d.ts line 67: `blockingCpuNodeIds.add(cpuNode)`) and id
*strings* (lines 74, 76, 78, 80: `.add(node.id)`); a JS `Set` holds both side by
side, and an object never equals a string. -/
abbrev CpuSetElem := Nat ⊕ String

/-- The sum `BEq` (JS `Set` equality on the mixed set) agrees with propositional
equality, componentwise. -/
instance : LawfulBEq CpuSetElem where
  eq_of_beq := by
    intro a b h
    cases a with
    | inl x =>
        cases b with
        | inl y =>
            change (x == y) = true at h
            rw [eq_of_beq h]
        | inr y =>
            change false = true at h
            exact Bool.noConfusion h
    | inr x =>
        cases b with
        | inl y =>
            change false = true at h
            exact Bool.noConfusion h
        | inr y =>
            change (x == y) = true at h
            rw [eq_of_beq h]
  rfl := by
    intro a
    cases a with
    | inl x =>
        change (x == x) = true
        exact LawfulBEq.rfl
    | inr x =>
        change (x == x) = true
        exact LawfulBEq.rfl

/-- `isEvaluateScriptFor(urls)`.  Modelled from the spec: cpu-node.js is outside
this slice; §4.2 gives CPU nodes "a predicate: is this the EvaluateScript task
for a given URL set", carried here as intersection with the node's `evalUrls`. -/
def NodeData.isEvaluateScriptFor (nd : NodeData) (urls : List String) : Bool :=
  urls.any (fun u => nd.evalUrls.contains u)

/-- `LanternMetric.getScriptUrls(graph, filter)`.  Modelled from the spec:
lantern-metric.js is outside this slice; §4.3 step 2 defines the result as "the
set of URLs of NETWORK nodes where `endTime ≤ fcpTs` AND `networkFilter(node)`
holds" (the timing conjunct is supplied by the caller's filter), collected in
traversal order and deduplicated (a JS `Set`). -/
def getScriptUrls (g : Graph) (graphIdx : Nat) (filt : NodeData → Bool) : List String :=
  (g.traverseNodes graphIdx g.dependentsOf).foldl
    (fun acc i =>
      let nd := g.nodeAt i
      if nd.typ = NodeType.network ∧ filt nd then insertElem acc nd.url else acc) []

/-- The three sets returned by `getBlockingCpuData` (pack.d.ts line 82). -/
structure BlockingData where
  possiblyRenderBlockingScriptUrls : List String
  actuallyRenderBlockingScriptUrls : List String
  blockingCpuNodeIds : List CpuSetElem
deriving DecidableEq

/-- `getBlockingCpuData` (pack.d.ts lines 42–83).  Collect the CPU nodes with
`startTime ≤ fcpTs` in traversal order and stably sort them by start time
(`cpuNodes.sort((a, b) => a.startTime - b.startTime)`); compute the
possibly-render-blocking URLs; for each such URL take the *first* sorted CPU
node whose EvaluateScript task matches (`break` after the first hit), adding the
URL to the actually-blocking set and — exactly as the source does on line 67 —
the CPU node *object* (not its id) to `blockingCpuNodeIds`; then add the ids of
the first layout, first `Paint` and first `ParseHTML` CPU nodes, and the ids of
all nodes passing `cpuFilter` when supplied. -/
def getBlockingCpuData (g : Graph) (graphIdx : Nat) (fcpTs : Int)
    (networkFilter : NodeData → Bool) (cpuFilter : Option (NodeData → Bool)) :
    BlockingData :=
  let cpuNodes0 := (g.traverseNodes graphIdx g.dependentsOf).filter
    (fun i => decide ((g.nodeAt i).typ = NodeType.cpu ∧ (g.nodeAt i).startTime ≤ fcpTs))
  let cpuNodes := cpuNodes0.mergeSort
    (fun a b => (g.nodeAt a).startTime ≤ (g.nodeAt b).startTime)
  let possibly := getScriptUrls g graphIdx (fun nd => nd.endTime ≤ fcpTs && networkFilter nd)
  let y := possibly.foldl
    (fun (acc : List String × List CpuSetElem) url =>
      match cpuNodes.find? (fun i => (g.nodeAt i).isEvaluateScriptFor [url]) with
      | some cpuNode => (insertElem acc.1 url, insertElem acc.2 (Sum.inl cpuNode))
      | none => acc)
    ([], [])
  let b1 := match cpuNodes.find? (fun i => (g.nodeAt i).didPerformLayout) with
    | some j => insertElem y.2 (Sum.inr (g.idOf j))
    | none => y.2
  let b2 := match cpuNodes.find? (fun i => (g.nodeAt i).childEvents.contains "Paint") with
    | some j => insertElem b1 (Sum.inr (g.idOf j))
    | none => b1
  let b3 := match cpuNodes.find? (fun i => (g.nodeAt i).childEvents.contains "ParseHTML") with
    | some j => insertElem b2 (Sum.inr (g.idOf j))
    | none => b2
  let b4 := match cpuFilter with
    | some f => (cpuNodes.filter (fun i => f (g.nodeAt i))).foldl
        (fun acc i => insertElem acc (Sum.inr (g.idOf i))) b3
    | none => b3
  ⟨possibly, y.1, b4⟩

/-- The clone predicate of `getFirstPaintBasedGraph` (pack.d.ts lines 99–112):
a network node ending after FCP is excluded unless it is the main document; a
possibly-render-blocking URL is included iff it is actually render-blocking;
other network nodes are included iff they have render-blocking priority; a CPU
node is included iff its *id* is in `blockingCpuNodeIds` (line 110,
`blockingCpuNodeIds.has(node.id)` — an id string, which never matches a node
object inserted on line 67). -/
def fpPredicate (bd : BlockingData) (fcpTs : Int) (nd : NodeData) : Bool :=
  if nd.typ = NodeType.network then
    if nd.endTime > fcpTs ∧ nd.isMainDocument = false then false
    else if bd.possiblyRenderBlockingScriptUrls.contains nd.url then
      bd.actuallyRenderBlockingScriptUrls.contains nd.url
    else nd.hasRenderBlockingPriority
  else bd.blockingCpuNodeIds.contains (Sum.inr nd.id)

/-- `getFirstPaintBasedGraph` (pack.d.ts lines 92–113): classify, then clone the
graph under `fpPredicate`. -/
def getFirstPaintBasedGraph (g : Graph) (graphIdx : Nat) (fcpTs : Int)
    (blockingScriptFilter : NodeData → Bool) (cpuNodeFilter : Option (NodeData → Bool)) :
    Except String CloneResult :=
  let bd := getBlockingCpuData g graphIdx fcpTs blockingScriptFilter cpuNodeFilter
  g.cloneWithRelationships graphIdx (some (fpPredicate bd fcpTs))

/-- `getOptimisticGraph` (pack.d.ts lines 120–126): render-blocking priority and
not script-initiated. -/
def getOptimisticGraph (g : Graph) (graphIdx : Nat) (fcpTs : Int) :
    Except String CloneResult :=
  getFirstPaintBasedGraph g graphIdx fcpTs
    (fun nd => nd.hasRenderBlockingPriority && nd.initiatorType != "script") none

/-- `getPessimisticGraph` (pack.d.ts lines 133–137): render-blocking priority
regardless of initiator. -/
def getPessimisticGraph (g : Graph) (graphIdx : Nat) (fcpTs : Int) :
    Except String CloneResult :=
  getFirstPaintBasedGraph g graphIdx fcpTs (fun nd => nd.hasRenderBlockingPriority) none

/-! ## Graph-theoretic notions used in the statements -/

/-- A traversal path under a next-nodes function: the visited node first, the
start node last, with every adjacent pair an edge of `nextF` (this is the shape
of the `traversalPath` argument of the `traverse` callback). -/
inductive OkPath (nextF : Nat → List Nat) (start : Nat) : List Nat → Prop
  | single : OkPath nextF start [start]
  | cons (a b : Nat) (rest : List Nat) :
      a ∈ nextF b → OkPath nextF start (b :: rest) → OkPath nextF start (a :: b :: rest)

/-- `v` is reachable from `start` via `nextF`. -/
def Reaches (nextF : Nat → List Nat) (start v : Nat) : Prop :=
  ∃ p, OkPath nextF start p ∧ p.headD 0 = v

/-- No dependency edge sits on a dependency cycle (the graph is a DAG in the
dependency direction; by edge symmetry this covers the dependents direction). -/
def Graph.IsAcyclic (g : Graph) : Prop :=
  ∀ v w, w ∈ (g.nodeAt v).dependencies → Reaches g.dependenciesOf w v → False

/-- `R` is the root: it has no dependencies and every node reaches it by
following dependency edges (spec §3: "exactly one node with zero dependencies
reachable by repeatedly following any dependency chain from any node"). -/
def Graph.IsRoot (g : Graph) (R : Nat) : Prop :=
  R < g.size ∧ (g.nodeAt R).dependencies = [] ∧
    ∀ v, v < g.size → Reaches g.dependenciesOf v R

/-- The well-formedness bundle assumed of input graphs (spec §3 data-model
invariants): edges stay in the arena, edge lists are duplicate-free (edges are
built by the idempotent `addDependency`), edge symmetry, unique node ids,
acyclicity, and a single root. -/
structure Graph.WellFormed (g : Graph) : Prop where
  inRange : ∀ i, i < g.size → ∀ j ∈ (g.nodeAt i).dependencies ++ (g.nodeAt i).dependents,
    j < g.size
  nodupEdges : ∀ i, i < g.size →
    (g.nodeAt i).dependencies.Nodup ∧ (g.nodeAt i).dependents.Nodup
  symm : ∀ a, a < g.size → ∀ b, b < g.size →
    (b ∈ (g.nodeAt a).dependencies ↔ a ∈ (g.nodeAt b).dependents)
  uniqueIds : (g.nodes.map (fun nd => nd.id)).Nodup
  acyclic : g.IsAcyclic
  rooted : ∃ R, g.IsRoot R

/-- Membership edge symmetry (spec §3: "`A` appears in `B.dependents` iff `B`
appears in `A.dependencies`"). -/
def Graph.MemSymm (g : Graph) : Prop :=
  ∀ a, a < g.size → ∀ b, b < g.size →
    (b ∈ (g.nodeAt a).dependencies ↔ a ∈ (g.nodeAt b).dependents)

/-- Multiplicity edge symmetry: the number of occurrences of `B` in `A`'s
dependency list equals the number of occurrences of `A` in `B`'s dependents
list.  This is the strengthening of `MemSymm` that the edge operations actually
preserve (and it implies `MemSymm`). -/
def Graph.CountSymm (g : Graph) : Prop :=
  ∀ a, a < g.size → ∀ b, b < g.size →
    (g.nodeAt a).dependencies.count b = (g.nodeAt b).dependents.count a

instance (g : Graph) : Decidable g.MemSymm := by
  unfold Graph.MemSymm; exact inferInstance

instance (g : Graph) : Decidable g.CountSymm := by
  unfold Graph.CountSymm; exact inferInstance

/-- The pool of visitable ids during a traversal of `g`: the ids of the nodes
plus the id of the out-of-range default node.  Bounds the `visited` set. -/
def idPool (g : Graph) : Finset String :=
  insert "" (g.nodes.map (fun nd => nd.id)).toFinset

/-! ## Concrete graphs used as witnesses and counterexamples -/

/-- A network node (concrete-graph constructor). -/
def netNode (idv : String) (main : Bool) (deps depts : List Nat) (s e : Int)
    (u : String) (rbp : Bool) (init : String) : NodeData :=
  { id := idv, isMainDocument := main, dependencies := deps, dependents := depts,
    typ := NodeType.network, startTime := s, endTime := e, url := u,
    hasRenderBlockingPriority := rbp, initiatorType := init, evalUrls := [],
    didPerformLayout := false, childEvents := [] }

/-- A CPU node (concrete-graph constructor). -/
def cpuNode (idv : String) (deps depts : List Nat) (s e : Int)
    (evals : List String) (layout : Bool) (evts : List String) : NodeData :=
  { id := idv, isMainDocument := false, dependencies := deps, dependents := depts,
    typ := NodeType.cpu, startTime := s, endTime := e, url := "",
    hasRenderBlockingPriority := false, initiatorType := "", evalUrls := evals,
    didPerformLayout := layout, childEvents := evts }

/-- The spec §8 classifier scenario: a root document, one render-blocking script
(url `u`, `endTime = 100`), and one CPU node (`startTime = 90`) whose
EvaluateScript task matches that url; `fcpTs = 150`. -/
def fcpScenarioGraph : Graph := ⟨[
  netNode "root" true [] [1, 2] 0 10 "r" false "parser",
  netNode "script" false [0] [] 20 100 "u" true "parser",
  cpuNode "cpu1" [0] [] 90 110 ["u"] false []]⟩

/-- Counterexample graph for the optimistic-vs-pessimistic node-count claim:
the main document ends after FCP (kept for being render-blocking), and one
script-initiated render-blocking script finished before FCP whose url has no
EvaluateScript CPU task. -/
def scriptInitGraph : Graph := ⟨[
  netNode "root" true [] [1] 0 200 "r" true "parser",
  netNode "nscript" false [0] [] 10 50 "u" true "script"]⟩

/-- Witness graph for the amended node-count claim: as `scriptInitGraph` but
with a CPU node whose EvaluateScript task matches the script's url, so that
every possibly-render-blocking url is actually render-blocking. -/
def evalMatchGraph : Graph := ⟨[
  netNode "root" true [] [1] 0 200 "r" true "parser",
  netNode "nscript" false [0] [2] 10 50 "u" true "script",
  cpuNode "cpu1" [1] [] 60 70 ["u"] false []]⟩

/-- Two nodes depending on each other (with symmetric dependent edges). -/
def mutualPairGraph : Graph := ⟨[
  netNode "A" false [1] [1] 0 0 "" false "",
  netNode "B" false [0] [0] 0 0 "" false ""]⟩

/-- A single node with no edges. -/
def singleNodeGraph : Graph := ⟨[netNode "A" false [] [] 0 0 "" false ""]⟩

/-- Node `i` of the `n`-node linear dependency chain `0 ← 1 ← ⋯ ← n-1`
(each node depends on its predecessor). -/
def chainNode (n i : Nat) : NodeData :=
  netNode (toString i) (i = 0)
    (if i = 0 then [] else [i - 1])
    (if i + 1 = n then [] else [i + 1]) 0 0 "" false ""

/-- The `n`-node linear dependency chain with symmetric edge lists. -/
def chainGraph (n : Nat) : Graph := ⟨(List.range n).map (chainNode n)⟩

/-- Membership-symmetric state with a duplicated dependency edge:
`A._dependencies = [B, B]` while `B._dependents = [A]`. -/
def dupEdgeGraph : Graph := ⟨[
  netNode "A" false [1, 1] [] 0 0 "" false "",
  netNode "B" false [] [0] 0 0 "" false ""]⟩

/-- Two distinct node objects sharing the id `dup`, both dependents of the
root. -/
def dupIdGraph : Graph := ⟨[
  netNode "root" true [] [1, 2] 0 0 "" false "",
  netNode "dup" false [0] [] 0 0 "" false "",
  netNode "dup" false [0] [] 0 5 "" false ""]⟩

/-- A diamond: `a → b → d`, `a → c → d` (in the dependents direction). -/
def diamondGraph : Graph := ⟨[
  netNode "a" true [] [1, 2] 0 0 "" false "",
  netNode "b" false [0] [3] 0 0 "" false "",
  netNode "c" false [0] [3] 0 0 "" false "",
  netNode "d" false [1, 2] [] 0 0 "" false ""]⟩

/-! ## Basic heap lemmas -/

theorem size_setNode (g : Graph) (i : Nat) (nd : NodeData) :
    (g.setNode i nd).size = g.size := by
  simp [Graph.setNode, Graph.size]

theorem nodeAt_setNode_self (g : Graph) (i : Nat) (nd : NodeData) (h : i < g.size) :
    (g.setNode i nd).nodeAt i = nd := by
  simp [Graph.setNode, Graph.nodeAt, List.getD_eq_getElem?_getD,
    List.getElem?_set_self', Graph.size] at *
  simp [List.getElem?_eq_getElem h]

theorem nodeAt_setNode_ne (g : Graph) (i j : Nat) (nd : NodeData) (h : j ≠ i) :
    (g.setNode i nd).nodeAt j = g.nodeAt j := by
  simp [Graph.setNode, Graph.nodeAt, List.getD_eq_getElem?_getD,
    List.getElem?_set_ne (fun he => h he.symm)]

theorem nodeAt_setNode_oob (g : Graph) (i : Nat) (nd : NodeData) (h : ¬ i < g.size) :
    g.setNode i nd = g := by
  simp [Graph.setNode, Graph.size] at *
  exact congrArg Graph.mk (List.set_eq_of_length_le (by omega))

/-! ## `insertElem` fold lemmas (JS `Set` built by repeated `add`) -/

theorem mem_insertElem {α : Type} [BEq α] [LawfulBEq α] (l : List α) (x y : α) :
    y ∈ insertElem l x ↔ y ∈ l ∨ y = x := by
  simp only [insertElem]
  split
  · rename_i h
    rw [List.elem_iff] at h
    constructor
    · exact fun hy => Or.inl hy
    · rintro (hy | rfl)
      · exact hy
      · exact h
  · simp [List.mem_append]

theorem nodup_insertElem {α : Type} [BEq α] [LawfulBEq α] (l : List α) (x : α)
    (h : l.Nodup) : (insertElem l x).Nodup := by
  simp only [insertElem]
  split
  · exact h
  · rename_i hc
    rw [List.elem_iff] at hc
    simpa [List.nodup_append] using ⟨h, hc⟩

/-! ## Edge operations and count symmetry (for the edge-symmetry invariant) -/

theorem contains_iff_memList {α : Type} [BEq α] [LawfulBEq α] (l : List α) (x : α) :
    l.contains x = true ↔ x ∈ l := List.elem_iff

theorem count_append_single {α : Type} [DecidableEq α] (l : List α) (x b : α) :
    (l ++ [x]).count b = l.count b + (if x = b then 1 else 0) := by
  simp [List.count_append, List.count_singleton']

theorem count_single {α : Type} [DecidableEq α] (x b : α) :
    List.count b [x] = if x = b then 1 else 0 := by
  simp [List.count_singleton']

theorem addDependency_count_deps (g : Graph) (s t a b : Nat)
    (ha : a < g.size) (hb : b < g.size) :
    ((g.addDependency s t).nodeAt a).dependencies.count b
      = (g.nodeAt a).dependencies.count b
        + (if a = s ∧ b = t ∧ t ∉ (g.nodeAt s).dependencies then 1 else 0) := by
  unfold Graph.addDependency
  by_cases hm : (g.nodeAt s).dependencies.contains t
  · rw [if_pos hm]
    rw [contains_iff_memList] at hm
    simp [hm]
  · rw [if_neg hm]
    have hnm : t ∉ (g.nodeAt s).dependencies := by
      intro hc; exact hm ((contains_iff_memList _ _).mpr hc)
    simp only []
    by_cases hs : s < g.size
    · by_cases has : a = s
      · subst has
        rw [nodeAt_setNode_self _ _ _ (by rwa [size_setNode])]
        by_cases hat : a = t
        · subst hat
          rw [nodeAt_setNode_self _ _ _ (by exact hs)]
          by_cases hab : a = b
          · subst hab
            simp [count_append_single, count_single, hnm]
          · simp [count_append_single, count_single, hnm, hab, Ne.symm hab]
        · rw [nodeAt_setNode_ne _ _ _ _ hat]
          by_cases hbt : b = t
          · simp [count_append_single, count_single, hnm, hbt]
          · simp [count_append_single, count_single, hnm, hbt, Ne.symm hbt]
      · rw [nodeAt_setNode_ne _ _ _ _ has]
        by_cases hat : a = t
        · subst hat
          rw [nodeAt_setNode_self _ _ _ ha]
          simp [has]
        · rw [nodeAt_setNode_ne _ _ _ _ hat]
          simp [has]
    · rw [nodeAt_setNode_oob _ _ _ (by rwa [size_setNode])]
      have has : a ≠ s := fun h => hs (h ▸ ha)
      by_cases hat : a = t
      · subst hat
        rw [nodeAt_setNode_self _ _ _ ha]
        simp [has]
      · rw [nodeAt_setNode_ne _ _ _ _ hat]
        simp [has]

theorem addDependency_count_depts (g : Graph) (s t a b : Nat)
    (ha : a < g.size) (hb : b < g.size) :
    ((g.addDependency s t).nodeAt b).dependents.count a
      = (g.nodeAt b).dependents.count a
        + (if a = s ∧ b = t ∧ t ∉ (g.nodeAt s).dependencies then 1 else 0) := by
  unfold Graph.addDependency
  by_cases hm : (g.nodeAt s).dependencies.contains t
  · rw [if_pos hm]
    rw [contains_iff_memList] at hm
    simp [hm]
  · rw [if_neg hm]
    have hnm : t ∉ (g.nodeAt s).dependencies := by
      intro hc; exact hm ((contains_iff_memList _ _).mpr hc)
    simp only []
    by_cases hs : s < g.size
    · by_cases hbs : b = s
      · subst hbs
        rw [nodeAt_setNode_self _ _ _ (by rwa [size_setNode])]
        by_cases hbt : b = t
        · subst hbt
          rw [nodeAt_setNode_self _ _ _ hs]
          simp only [count_append_single, hnm, and_true]
          by_cases hab : a = b
          · simp [hab]
          · simp [hab, Ne.symm hab]
        · rw [nodeAt_setNode_ne _ _ _ _ hbt]
          simp [hbt, hnm]
      · rw [nodeAt_setNode_ne _ _ _ _ hbs]
        by_cases hbt : b = t
        · subst hbt
          rw [nodeAt_setNode_self _ _ _ hb]
          simp only [count_append_single, hnm, and_true]
          by_cases hab : a = s
          · simp [hab]
          · simp [hab, Ne.symm hab]
        · rw [nodeAt_setNode_ne _ _ _ _ hbt]
          simp [hbt]
    · rw [nodeAt_setNode_oob _ _ _ (by rwa [size_setNode])]
      have hbs : a ≠ s := fun h => hs (h ▸ ha)
      by_cases hbt : b = t
      · subst hbt
        rw [nodeAt_setNode_self _ _ _ hb]
        simp only [count_append_single, hnm, and_true]
        simp [hbs, Ne.symm hbs]
      · rw [nodeAt_setNode_ne _ _ _ _ hbt]
        simp [hbs]

theorem nodeAt_oob (g : Graph) (i : Nat) (h : ¬ i < g.size) : g.nodeAt i = default := by
  simp only [Graph.nodeAt, Graph.size] at *
  exact List.getD_eq_default _ _ (by omega)

theorem size_addDependency (g : Graph) (s t : Nat) :
    (g.addDependency s t).size = g.size := by
  unfold Graph.addDependency
  split
  · rfl
  · simp [size_setNode]

theorem size_removeDependency (g : Graph) (s t : Nat) :
    (g.removeDependency s t).size = g.size := by
  unfold Graph.removeDependency
  split
  · simp [size_setNode]
  · rfl

theorem mem_of_count_eq (l : List Nat) (x : Nat) (n : Nat) (h : l.count x = n)
    (hn : 1 ≤ n) : x ∈ l := by
  rw [← List.one_le_count_iff]
  omega

theorem removeDependency_count_deps (g : Graph) (hcs : g.CountSymm) (s t a b : Nat)
    (ha : a < g.size) (hb : b < g.size) :
    ((g.removeDependency s t).nodeAt a).dependencies.count b
      = (g.nodeAt a).dependencies.count b
        - (if a = s ∧ b = t ∧ t ∈ (g.nodeAt s).dependencies then 1 else 0) := by
  unfold Graph.removeDependency
  by_cases hm : (g.nodeAt s).dependencies.contains t
  · rw [if_pos hm]
    rw [contains_iff_memList] at hm
    have hs : s < g.size := by
      by_contra hns
      rw [nodeAt_oob g s hns] at hm
      simp [default] at hm
    simp only []
    by_cases ht : t < g.size
    · have hmT : s ∈ (g.nodeAt t).dependents := by
        have hc := hcs s hs t ht
        have h1 : 1 ≤ List.count t (g.nodeAt s).dependencies := List.one_le_count_iff.mpr hm
        rw [hc] at h1
        exact List.one_le_count_iff.mp h1
      rw [if_pos ((contains_iff_memList _ _).mpr hmT)]
      by_cases hst : s = t
      · subst hst
        by_cases has : a = s
        · subst has
          rw [nodeAt_setNode_self _ _ _ (by rwa [size_setNode]),
              nodeAt_setNode_self _ _ _ hs]
          by_cases hbt : b = a
          · subst hbt
            simp [hm, List.count_erase_self]
          · simp [hbt, List.count_erase_of_ne hbt]
        · rw [nodeAt_setNode_ne _ _ _ _ has, nodeAt_setNode_ne _ _ _ _ has]
          simp [has]
      · by_cases has : a = s
        · subst has
          rw [nodeAt_setNode_self _ _ _ (by rwa [size_setNode]),
              nodeAt_setNode_ne _ _ _ _ hst]
          by_cases hbt : b = t
          · subst hbt
            simp [hm, List.count_erase_self]
          · simp [hbt, List.count_erase_of_ne hbt]
        · rw [nodeAt_setNode_ne _ _ _ _ has]
          by_cases hat : a = t
          · subst hat
            rw [nodeAt_setNode_self _ _ _ ha]
            simp [has]
          · rw [nodeAt_setNode_ne _ _ _ _ hat]
            simp [has]
      -- end t < size
    · rw [nodeAt_setNode_oob _ _ _ ht]
      have hbt : b ≠ t := fun h => ht (h ▸ hb)
      by_cases has : a = s
      · subst has
        rw [nodeAt_setNode_self _ _ _ ha]
        simp [hbt, List.count_erase_of_ne hbt]
      · rw [nodeAt_setNode_ne _ _ _ _ has]
        simp [has]
  · rw [if_neg hm]
    have hnm : t ∉ (g.nodeAt s).dependencies := by
      intro hc; exact hm ((contains_iff_memList _ _).mpr hc)
    simp [hnm]

theorem removeDependency_count_depts (g : Graph) (hcs : g.CountSymm) (s t a b : Nat)
    (ha : a < g.size) (hb : b < g.size) :
    ((g.removeDependency s t).nodeAt b).dependents.count a
      = (g.nodeAt b).dependents.count a
        - (if a = s ∧ b = t ∧ t ∈ (g.nodeAt s).dependencies then 1 else 0) := by
  unfold Graph.removeDependency
  by_cases hm : (g.nodeAt s).dependencies.contains t
  · rw [if_pos hm]
    rw [contains_iff_memList] at hm
    have hs : s < g.size := by
      by_contra hns
      rw [nodeAt_oob g s hns] at hm
      simp [default] at hm
    simp only []
    by_cases ht : t < g.size
    · have hmT : s ∈ (g.nodeAt t).dependents := by
        have hc := hcs s hs t ht
        have h1 : 1 ≤ List.count t (g.nodeAt s).dependencies := List.one_le_count_iff.mpr hm
        rw [hc] at h1
        exact List.one_le_count_iff.mp h1
      rw [if_pos ((contains_iff_memList _ _).mpr hmT)]
      by_cases hst : s = t
      · subst hst
        by_cases hbs : b = s
        · subst hbs
          rw [nodeAt_setNode_self _ _ _ (by rwa [size_setNode]),
              nodeAt_setNode_self _ _ _ hs]
          by_cases hab : a = b
          · subst hab
            simp [hm, List.count_erase_self]
          · simp [hab, List.count_erase_of_ne hab]
        · rw [nodeAt_setNode_ne _ _ _ _ hbs, nodeAt_setNode_ne _ _ _ _ hbs]
          simp [fun h : b = s => hbs h]
      · by_cases hbs : b = s
        · subst hbs
          rw [nodeAt_setNode_self _ _ _ (by rwa [size_setNode]),
              nodeAt_setNode_ne _ _ _ _ hst]
          simp [hst]
        · rw [nodeAt_setNode_ne _ _ _ _ hbs]
          by_cases hbt : b = t
          · subst hbt
            rw [nodeAt_setNode_self _ _ _ hb]
            by_cases has : a = s
            · subst has
              simp [hm, List.count_erase_self]
            · simp [has, List.count_erase_of_ne has]
          · rw [nodeAt_setNode_ne _ _ _ _ hbt]
            simp [hbt]
    · rw [nodeAt_setNode_oob _ _ _ ht]
      have hbt : b ≠ t := fun h => ht (h ▸ hb)
      by_cases hbs : b = s
      · subst hbs
        rw [nodeAt_setNode_self _ _ _ hb]
        simp [hbt]
      · rw [nodeAt_setNode_ne _ _ _ _ hbs]
        simp [hbt]
  · rw [if_neg hm]
    have hnm : t ∉ (g.nodeAt s).dependencies := by
      intro hc; exact hm ((contains_iff_memList _ _).mpr hc)
    simp [hnm]

/-- `addDependency` preserves multiplicity edge symmetry. -/
theorem countSymm_addDependency (g : Graph) (h : g.CountSymm) (s t : Nat) :
    (g.addDependency s t).CountSymm := by
  intro a ha b hb
  rw [size_addDependency] at ha hb
  rw [addDependency_count_deps g s t a b ha hb,
      addDependency_count_depts g s t a b ha hb, h a ha b hb]

/-- `addDependent` preserves multiplicity edge symmetry. -/
theorem countSymm_addDependent (g : Graph) (h : g.CountSymm) (s t : Nat) :
    (g.addDependent s t).CountSymm :=
  countSymm_addDependency g h t s

/-- `removeDependency` preserves multiplicity edge symmetry. -/
theorem countSymm_removeDependency (g : Graph) (h : g.CountSymm) (s t : Nat) :
    (g.removeDependency s t).CountSymm := by
  intro a ha b hb
  rw [size_removeDependency] at ha hb
  rw [removeDependency_count_deps g h s t a b ha hb,
      removeDependency_count_depts g h s t a b ha hb, h a ha b hb]

/-- `removeDependent` preserves multiplicity edge symmetry. -/
theorem countSymm_removeDependent (g : Graph) (h : g.CountSymm) (s t : Nat) :
    (g.removeDependent s t).CountSymm :=
  countSymm_removeDependency g h t s

theorem countSymm_removeFold (s : Nat) :
    ∀ (l : List Nat) (g : Graph), g.CountSymm →
      (l.foldl (fun h node => h.removeDependency s node) g).CountSymm := by
  intro l
  induction l with
  | nil => intro g hg; exact hg
  | cons x xs ih =>
      intro g hg
      exact ih _ (countSymm_removeDependency g hg s x)

/-- `removeAllDependencies` preserves multiplicity edge symmetry. -/
theorem countSymm_removeAllDependencies (g : Graph) (h : g.CountSymm) (s : Nat) :
    (g.removeAllDependencies s).CountSymm :=
  countSymm_removeFold s _ g h

/-- Multiplicity symmetry implies membership symmetry. -/
theorem memSymm_of_countSymm (g : Graph) (h : g.CountSymm) : g.MemSymm := by
  intro a ha b hb
  rw [← List.one_le_count_iff, ← List.one_le_count_iff, h a ha b hb]

/-- `addDependency` is a no-op when the edge is already present
(base-node.js lines 125–127). -/
theorem addDependency_mem_noop (g : Graph) (s t : Nat)
    (h : t ∈ (g.nodeAt s).dependencies) : g.addDependency s t = g := by
  unfold Graph.addDependency
  rw [if_pos ((contains_iff_memList _ _).mpr h)]

/-- `removeDependency` is a no-op when the edge is absent
(base-node.js lines 144–146). -/
theorem removeDependency_notMem_noop (g : Graph) (s t : Nat)
    (h : t ∉ (g.nodeAt s).dependencies) : g.removeDependency s t = g := by
  unfold Graph.removeDependency
  rw [if_neg (fun hc => h ((contains_iff_memList _ _).mp hc))]

/-- C9 counterexample: starting from the membership-symmetric state
`A._dependencies = [B, B]`, `B._dependents = [A]` (`A` appears in `B`'s
dependents exactly when `B` appears in `A`'s dependencies), `removeDependency`
removes only one of the duplicated occurrences from `A._dependencies` but the
sole occurrence of `A` from `B._dependents`, so membership symmetry is broken:
afterwards `B ∈ A.dependencies` while `A ∉ B.dependents`. -/
theorem claim_C9_counterexample :
    dupEdgeGraph.MemSymm ∧ ¬ (dupEdgeGraph.removeDependency 0 1).MemSymm := by
  constructor
  · decide
  · decide

/-- C9 (amended): starting from any state in which the *number of occurrences*
of `A` in `B`'s dependents equals the number of occurrences of `B` in `A`'s
dependencies (in particular any duplicate-free membership-symmetric state —
multiplicity symmetry implies the spec's membership symmetry, included as a
conjunct), each of `addDependency`, `addDependent`, `removeDependency`,
`removeDependent` and `removeAllDependencies` preserves that property, and
`addDependency` / `removeDependency` are no-ops when the edge is already
present / absent respectively. -/
theorem claim_C9_amended (g : Graph) (h : g.CountSymm) (a b : Nat) :
    (g.addDependency a b).CountSymm ∧ (g.addDependent a b).CountSymm ∧
    (g.removeDependency a b).CountSymm ∧ (g.removeDependent a b).CountSymm ∧
    (g.removeAllDependencies a).CountSymm ∧ g.MemSymm ∧
    (b ∈ (g.nodeAt a).dependencies → g.addDependency a b = g) ∧
    (b ∉ (g.nodeAt a).dependencies → g.removeDependency a b = g) :=
  ⟨countSymm_addDependency g h a b, countSymm_addDependent g h a b,
   countSymm_removeDependency g h a b, countSymm_removeDependent g h a b,
   countSymm_removeAllDependencies g h a, memSymm_of_countSymm g h,
   addDependency_mem_noop g a b, removeDependency_notMem_noop g a b⟩

/-- Witness for the amended C9 theorem at the concrete mutual-pair graph. -/
theorem claim_C9_witness :
    mutualPairGraph.CountSymm ∧
    ((mutualPairGraph.addDependency 0 1).CountSymm ∧
     (mutualPairGraph.addDependent 0 1).CountSymm ∧
     (mutualPairGraph.removeDependency 0 1).CountSymm ∧
     (mutualPairGraph.removeDependent 0 1).CountSymm ∧
     (mutualPairGraph.removeAllDependencies 0).CountSymm ∧ mutualPairGraph.MemSymm ∧
     (1 ∈ (mutualPairGraph.nodeAt 0).dependencies → mutualPairGraph.addDependency 0 1 = mutualPairGraph) ∧
     (1 ∉ (mutualPairGraph.nodeAt 0).dependencies → mutualPairGraph.removeDependency 0 1 = mutualPairGraph)) :=
  ⟨by decide, claim_C9_amended mutualPairGraph (by decide) 0 1⟩

unseal List.merge List.mergeSort

/-- C1: evaluation of `getBlockingCpuData` at the spec §8 classifier scenario
(`fcpScenarioGraph`, `fcpTs = 150`, network filter = render-blocking priority).
The URL `u` is both possibly- and actually-render-blocking and the scan stops at
the first matching CPU node, but — contrary to the claim and to the function's
own declared return type `Set<string>` — line 67 (`blockingCpuNodeIds.add(cpuNode)`)
inserts the CPU node *object* (here `Sum.inl 2`), not its id: the id string
`cpu1` of that CPU node (node 2) is absent from `blockingCpuNodeIds`. -/
theorem claim_C1_code_eval :
    (getBlockingCpuData fcpScenarioGraph 0 150
        (fun nd => nd.hasRenderBlockingPriority) none).possiblyRenderBlockingScriptUrls = ["u"] ∧
    (getBlockingCpuData fcpScenarioGraph 0 150
        (fun nd => nd.hasRenderBlockingPriority) none).actuallyRenderBlockingScriptUrls = ["u"] ∧
    (getBlockingCpuData fcpScenarioGraph 0 150
        (fun nd => nd.hasRenderBlockingPriority) none).blockingCpuNodeIds = [Sum.inl 2] ∧
    fcpScenarioGraph.idOf 2 = "cpu1" ∧
    Sum.inr "cpu1" ∉ (getBlockingCpuData fcpScenarioGraph 0 150
        (fun nd => nd.hasRenderBlockingPriority) none).blockingCpuNodeIds := by
  have h3 : (getBlockingCpuData fcpScenarioGraph 0 150
      (fun nd => nd.hasRenderBlockingPriority) none).blockingCpuNodeIds = [Sum.inl 2] := by
    decide
  refine ⟨by decide, by decide, h3, by decide, ?_⟩
  rw [h3]
  intro h
  simp at h

/-! ## `hasCycle` on concrete graph families -/

theorem contains_eq_false_iff {α : Type} [BEq α] [LawfulBEq α] (l : List α) (x : α) :
    l.contains x = false ↔ x ∉ l := by
  constructor
  · intro h hm
    rw [← contains_iff_memList] at hm
    rw [h] at hm
    cases hm
  · intro h
    by_contra hc
    have : l.contains x = true := by
      cases hcc : l.contains x
      · exact absurd hcc hc
      · rfl
    exact h ((contains_iff_memList _ _).mp this)

theorem hasCycleAux_nil (expl : Nat → List Nat) (fuel : Nat) (p v : List Nat)
    (d : Nat → Nat) : hasCycleAux expl fuel [] p v d = false := by
  cases fuel <;> rfl

theorem chain_size (n : Nat) : (chainGraph n).size = n := by
  simp [chainGraph, Graph.size]

theorem chain_nodeAt (n j : Nat) (h : j < n) :
    (chainGraph n).nodeAt j = chainNode n j := by
  simp [chainGraph, Graph.nodeAt, List.getD_eq_getElem?_getD, List.getElem?_map,
    List.getElem?_range, h]

theorem pushUnqueued_nil (d : Nat) (st : List Nat) (dp : Nat → Nat) :
    pushUnqueued d [] st dp = (st, dp) := rfl

theorem pushUnqueued_single_new (d nx : Nat) (dp : Nat → Nat) :
    pushUnqueued d [nx] [] dp = ([nx], fun x => if x = nx then d else dp x) := rfl

theorem chain_up (n k : Nat) (hk : k < n) :
    ∀ fuel j (vis : List Nat) (dp : Nat → Nat), k ≤ j → j < n →
      (∀ m, j ≤ m → m ∉ vis) → dp j = j - k →
      hasCycleAux (chainGraph n).dependentsOf fuel [j] (List.range' k (j - k)) vis dp
        = false := by
  intro fuel
  induction fuel with
  | zero => intro j vis dp _ _ _ _; rfl
  | succ fuel ih =>
      intro j vis dp hkj hjn hvis hdp
      have hnotpath : (List.range' k (j - k)).contains j = false := by
        rw [contains_eq_false_iff]
        rw [List.mem_range'_1]
        omega
      have hnotvis : vis.contains j = false := by
        rw [contains_eq_false_iff]
        exact hvis j le_rfl
      have hlen : (List.range' k (j - k)).length = j - k := List.length_range' _ _ _
      have htake : (List.range' k (j - k)).take (dp j) = List.range' k (j - k) := by
        rw [hdp]
        apply List.take_of_length_le
        rw [hlen]
      have hexp : (chainGraph n).dependentsOf j = if j + 1 = n then [] else [j + 1] := by
        rw [Graph.dependentsOf, chain_nodeAt n j hjn]
        rfl
      simp only [hasCycleAux, hnotpath, Bool.false_eq_true, if_false, hnotvis, htake, hexp]
      by_cases hlast : j + 1 = n
      · rw [if_pos hlast]
        rw [pushUnqueued_nil]
        exact hasCycleAux_nil _ _ _ _ _
      · rw [if_neg hlast]
        rw [pushUnqueued_single_new]
        have hconcat : List.range' k (j - k) ++ [j] = List.range' k (j + 1 - k) := by
          have harith : j + 1 - k = j - k + 1 := by omega
          have harith2 : k + (j - k) = j := by omega
          rw [harith, List.range'_1_concat, harith2]
        simp only [hconcat]
        apply ih (j + 1) (vis ++ [j])
        · omega
        · omega
        · intro m hm
          rw [List.mem_append]
          rintro (hv | hv)
          · exact hvis m (by omega) hv
          · simp at hv
            omega
        · simp only [eq_self_iff_true, if_true]
          rw [List.length_range']

theorem chain_down (n k : Nat) (hk : k < n) :
    ∀ fuel j (vis : List Nat) (dp : Nat → Nat), j ≤ k →
      (∀ m, m ≤ j → m ∉ vis) → dp j = k - j →
      hasCycleAux (chainGraph n).dependenciesOf fuel [j]
        ((List.range' (j + 1) (k - j)).reverse) vis dp = false := by
  intro fuel
  induction fuel with
  | zero => intro j vis dp _ _ _; rfl
  | succ fuel ih =>
      intro j vis dp hjk hvis hdp
      have hjn : j < n := by omega
      have hnotpath : ((List.range' (j + 1) (k - j)).reverse).contains j = false := by
        rw [contains_eq_false_iff]
        rw [List.mem_reverse, List.mem_range'_1]
        omega
      have hnotvis : vis.contains j = false := by
        rw [contains_eq_false_iff]
        exact hvis j le_rfl
      have hlen : ((List.range' (j + 1) (k - j)).reverse).length = k - j := by
        rw [List.length_reverse, List.length_range']
      have htake : ((List.range' (j + 1) (k - j)).reverse).take (dp j)
          = (List.range' (j + 1) (k - j)).reverse := by
        rw [hdp]
        apply List.take_of_length_le
        rw [hlen]
      have hexp : (chainGraph n).dependenciesOf j = if j = 0 then [] else [j - 1] := by
        rw [Graph.dependenciesOf, chain_nodeAt n j hjn]
        rfl
      simp only [hasCycleAux, hnotpath, Bool.false_eq_true, if_false, hnotvis, htake, hexp]
      by_cases hfirst : j = 0
      · rw [if_pos hfirst]
        rw [pushUnqueued_nil]
        exact hasCycleAux_nil _ _ _ _ _
      · rw [if_neg hfirst]
        rw [pushUnqueued_single_new]
        have hconcat : (List.range' (j + 1) (k - j)).reverse ++ [j]
            = (List.range' (j - 1 + 1) (k - (j - 1))).reverse := by
          have hs : List.range' (j - 1 + 1) (k - (j - 1)) = j :: List.range' (j + 1) (k - j) := by
            have h2 : k - (j - 1) = (k - j) + 1 := by omega
            have h3 : j - 1 + 1 = j := by omega
            rw [h2, h3]
            have := List.range'_succ j (k - j) 1
            simpa using this
          rw [hs, List.reverse_cons]
        simp only [hconcat]
        apply ih (j - 1) (vis ++ [j])
        · omega
        · intro m hm
          rw [List.mem_append]
          rintro (hv | hv)
          · exact hvis m (by omega) hv
          · simp at hv
            omega
        · simp only [eq_self_iff_true, if_true]
          rw [List.length_reverse, List.length_range']

/-- C8: `hasCycle` returns true on the 2-node mutual dependency (for both nodes
and every direction argument), false on every `n`-node linear dependency chain
(from every start node and for every direction argument), and false on a single
node with no edges (every direction argument). -/
theorem claim_C8 :
    (∀ dir, mutualPairGraph.hasCycle 0 dir = true ∧ mutualPairGraph.hasCycle 1 dir = true) ∧
    (∀ n k dir, k < n → (chainGraph n).hasCycle k dir = false) ∧
    (∀ dir, singleNodeGraph.hasCycle 0 dir = false) := by
  refine ⟨?_, ?_, ?_⟩
  · intro dir
    cases dir <;> exact ⟨by decide, by decide⟩
  · intro n k dir hk
    have hup : (chainGraph n).hasCycleDir k Direction.dependents = false := by
      unfold Graph.hasCycleDir
      have h := chain_up n k hk (chainGraph n).fuelBound k [] (fun _ => 0)
        le_rfl hk (by intro m _ hm; cases hm) (by simp)
      simpa using h
    have hdown : (chainGraph n).hasCycleDir k Direction.dependencies = false := by
      unfold Graph.hasCycleDir
      have h := chain_down n k hk (chainGraph n).fuelBound k [] (fun _ => 0)
        le_rfl (by intro m _ hm; cases hm) (by simp)
      simpa using h
    cases dir with
    | dependents => exact hup
    | dependencies => exact hdown
    | both =>
        show ((chainGraph n).hasCycleDir k Direction.dependents ||
          (chainGraph n).hasCycleDir k Direction.dependencies) = false
        rw [hup, hdown]
        rfl
  · intro dir
    cases dir <;> decide

/-- Witness for C8 at concrete instances: the mutual pair, the 5-node chain from
node 2, and the single isolated node. -/
theorem claim_C8_witness :
    (mutualPairGraph.hasCycle 0 Direction.both = true ∧
     mutualPairGraph.hasCycle 1 Direction.both = true) ∧
    (2 < 5 ∧ (chainGraph 5).hasCycle 2 Direction.both = false) ∧
    singleNodeGraph.hasCycle 0 Direction.both = false :=
  ⟨claim_C8.1 Direction.both,
   ⟨by decide, claim_C8.2.1 5 2 Direction.both (by decide)⟩,
   claim_C8.2.2 Direction.both⟩

/-! ## Path and reachability basics -/

theorem okPath_ne_nil {f : Nat → List Nat} {s : Nat} {p : List Nat}
    (h : OkPath f s p) : p ≠ [] := by
  cases h <;> simp

theorem okPath_extend {f : Nat → List Nat} {s : Nat} {p : List Nat}
    (h : OkPath f s p) {a : Nat} (ha : a ∈ f (p.headD 0)) : OkPath f s (a :: p) := by
  cases h with
  | single => exact OkPath.cons a s [] (by simpa using ha) OkPath.single
  | cons b c rest hm hp =>
      exact OkPath.cons a b (c :: rest) (by simpa using ha) (OkPath.cons b c rest hm hp)

theorem reaches_self (f : Nat → List Nat) (s : Nat) : Reaches f s s :=
  ⟨[s], OkPath.single, rfl⟩

theorem reaches_head {f : Nat → List Nat} {s : Nat} {p : List Nat}
    (h : OkPath f s p) : Reaches f s (p.headD 0) := ⟨p, h, rfl⟩

theorem reaches_step {f : Nat → List Nat} {s v w : Nat}
    (h : Reaches f s v) (hw : w ∈ f v) : Reaches f s w := by
  obtain ⟨p, hp, hh⟩ := h
  exact ⟨w :: p, okPath_extend hp (by rwa [hh]), rfl⟩

theorem okPath_getLast {f : Nat → List Nat} {s : Nat} {p : List Nat}
    (h : OkPath f s p) : p.getLast? = some s := by
  induction h with
  | single => rfl
  | cons a b rest _ _ ih => rw [List.getLast?_cons_cons]; exact ih

theorem okPath_of_no_exit {f : Nat → List Nat} {s : Nat} {p : List Nat}
    (h : OkPath f s p) (hs : f s = []) : p = [s] := by
  induction h with
  | single => rfl
  | cons a b rest hm hp ih =>
      obtain ⟨rfl, hr⟩ := List.cons_eq_cons.mp ih
      rw [hs] at hm
      cases hm

/-! ## The enqueue loop: characterization of `pushNexts` -/

theorem pushNexts_spec (g : Graph) (p : List Nat) :
    ∀ (nexts : List Nat) (queue : List (List Nat)) (visited : List String),
      ∃ eq ev,
        pushNexts g p nexts queue visited = (queue ++ eq, visited ++ ev) ∧
        eq.map (fun q => g.idOf (q.headD 0)) = ev ∧
        ev.Nodup ∧
        (∀ s ∈ ev, s ∉ visited) ∧
        (∀ q ∈ eq, ∃ nx, nx ∈ nexts ∧ q = nx :: p ∧ g.idOf nx ∉ visited) ∧
        (∀ nx ∈ nexts, g.idOf nx ∈ visited ++ ev) := by
  intro nexts
  induction nexts with
  | nil =>
      intro queue visited
      exact ⟨[], [], by simp [pushNexts], by simp, by simp, by simp, by simp, by simp⟩
  | cons nx rest ih =>
      intro queue visited
      by_cases hv : visited.contains (g.idOf nx)
      · obtain ⟨eq, ev, h1, h2, h3, h4, h5, h6⟩ := ih queue visited
        refine ⟨eq, ev, ?_, h2, h3, h4, ?_, ?_⟩
        · rw [pushNexts, if_pos hv]
          exact h1
        · intro q hq
          obtain ⟨y, hy1, hy2, hy3⟩ := h5 q hq
          exact ⟨y, List.mem_cons_of_mem _ hy1, hy2, hy3⟩
        · intro y hy
          rcases List.mem_cons.mp hy with rfl | hy'
          · exact List.mem_append_left _ ((contains_iff_memList _ _).mp hv)
          · exact h6 y hy'
      · obtain ⟨eq, ev, h1, h2, h3, h4, h5, h6⟩ :=
          ih (queue ++ [nx :: p]) (visited ++ [g.idOf nx])
        have hnv : g.idOf nx ∉ visited := by
          intro hc; exact hv ((contains_iff_memList _ _).mpr hc)
        refine ⟨(nx :: p) :: eq, g.idOf nx :: ev, ?_, ?_, ?_, ?_, ?_, ?_⟩
        · rw [pushNexts, if_neg hv, h1]
          simp
        · simp only [List.map_cons, List.headD_cons]
          rw [h2]
        · refine List.nodup_cons.mpr ⟨?_, h3⟩
          intro hc
          have := h4 _ hc
          simp at this
        · intro s hs
          rcases List.mem_cons.mp hs with rfl | hs'
          · exact hnv
          · intro hc
            exact h4 s hs' (List.mem_append_left _ hc)
        · intro q hq
          rcases List.mem_cons.mp hq with rfl | hq'
          · exact ⟨nx, List.mem_cons_self _ _, rfl, hnv⟩
          · obtain ⟨y, hy1, hy2, hy3⟩ := h5 q hq'
            refine ⟨y, List.mem_cons_of_mem _ hy1, hy2, ?_⟩
            intro hc
            exact hy3 (List.mem_append_left _ hc)
        · intro y hy
          rcases List.mem_cons.mp hy with rfl | hy'
          · simp
          · have := h6 y hy'
            simp only [List.mem_append] at this ⊢
            rcases this with (h | h) | h
            · exact Or.inl h
            · simp at h
              exact Or.inr (by simp [h])
            · exact Or.inr (by simp [h])

/-! ## Fuel accounting for `traverseAux` -/

theorem idOf_mem_pool (g : Graph) (x : Nat) : g.idOf x ∈ idPool g := by
  by_cases hx : x < g.size
  · have : g.nodeAt x = g.nodes.getD x default := rfl
    rw [idPool, Finset.mem_insert]
    right
    rw [List.mem_toFinset, List.mem_map]
    refine ⟨g.nodeAt x, ?_, rfl⟩
    rw [this, List.getD_eq_getElem?_getD, List.getElem?_eq_getElem hx]
    exact List.getElem_mem hx
  · rw [Graph.idOf, nodeAt_oob g x hx]
    simp [idPool, default]

theorem vis_length_le (g : Graph) (vis : List String) (h1 : vis.Nodup)
    (h2 : ∀ s ∈ vis, s ∈ idPool g) : vis.length ≤ g.size + 1 := by
  calc vis.length = vis.toFinset.card := (List.toFinset_card_of_nodup h1).symm
    _ ≤ (idPool g).card := Finset.card_le_card (fun x hx => h2 x (List.mem_toFinset.mp hx))
    _ ≤ (g.nodes.map (fun nd => nd.id)).toFinset.card + 1 := Finset.card_insert_le _ _
    _ ≤ (g.nodes.map (fun nd => nd.id)).length + 1 :=
        Nat.add_le_add_right (List.toFinset_card_le _) 1
    _ = g.size + 1 := by rw [List.length_map]; rfl

/-- Every element of the queue is produced by the traversal loop, provided the
fuel dominates the measure `|queue| + (size + 1 - |visited|)`. -/
theorem traverseAux_mem_output (g : Graph) (nextF : Nat → List Nat) :
    ∀ fuel (queue : List (List Nat)) (visited : List String),
      visited.Nodup → (∀ s ∈ visited, s ∈ idPool g) →
      queue.length + (g.size + 1 - visited.length) ≤ fuel →
      ∀ q ∈ queue, q ∈ traverseAux g nextF fuel queue visited := by
  intro fuel
  induction fuel with
  | zero =>
      intro queue visited _ _ hμ q hq
      rw [List.eq_nil_of_length_eq_zero (by omega : queue.length = 0)] at hq
      cases hq
  | succ fuel ih =>
      intro queue visited hnd hpool hμ q hq
      match queue, hq with
      | p :: rest, hq =>
        obtain ⟨eq, ev, h1, h2, h3, h4, h5, h6⟩ :=
          pushNexts_spec g p (nextF (p.headD 0)) rest visited
        rw [traverseAux]
        simp only [h1]
        rcases List.mem_cons.mp hq with rfl | hq'
        · exact List.mem_cons_self _ _
        · refine List.mem_cons_of_mem _ ?_
          have hlenev : ev.length = eq.length := by rw [← h2, List.length_map]
          have hnd' : (visited ++ ev).Nodup := by
            rw [List.nodup_append]
            exact ⟨hnd, h3, fun s hs hs' => h4 s hs' hs⟩
          have hpool' : ∀ s ∈ visited ++ ev, s ∈ idPool g := by
            intro s hs
            rcases List.mem_append.mp hs with hs' | hs'
            · exact hpool s hs'
            · rw [← h2] at hs'
              obtain ⟨qq, _, rfl⟩ := List.mem_map.mp hs'
              exact idOf_mem_pool g _
          have hvb : (visited ++ ev).length ≤ g.size + 1 := vis_length_le g _ hnd' hpool'
          have hμ' : (rest ++ eq).length + (g.size + 1 - (visited ++ ev).length) ≤ fuel := by
            rw [List.length_append, List.length_append] at *
            simp only [List.length_cons] at hμ
            omega
          exact ih (rest ++ eq) (visited ++ ev) hnd' hpool' hμ'
            q (List.mem_append_left _ hq')

/-- Every recorded traversal path is a valid path from `start` (visited node
first, `start` last). -/
theorem traverseAux_okPath (g : Graph) (nextF : Nat → List Nat) (start : Nat) :
    ∀ fuel (queue : List (List Nat)) (visited : List String),
      (∀ q ∈ queue, OkPath nextF start q) →
      ∀ q ∈ traverseAux g nextF fuel queue visited, OkPath nextF start q := by
  intro fuel
  induction fuel with
  | zero => intro queue visited _ q hq; cases hq
  | succ fuel ih =>
      intro queue visited hok q hq
      match queue, hq with
      | [], hq => cases hq
      | p :: rest, hq =>
        rw [traverseAux] at hq
        obtain ⟨eq, ev, h1, h2, h3, h4, h5, h6⟩ :=
          pushNexts_spec g p (nextF (p.headD 0)) rest visited
        simp only [h1] at hq
        rcases List.mem_cons.mp hq with rfl | hq'
        · exact hok q (List.mem_cons_self _ _)
        · refine ih (rest ++ eq) (visited ++ ev) ?_ q hq'
          intro q2 hq2
          rcases List.mem_append.mp hq2 with hq2' | hq2'
          · exact hok q2 (List.mem_cons_of_mem _ hq2')
          · obtain ⟨nx, hnx1, rfl, _⟩ := h5 q2 hq2'
            exact okPath_extend (hok p (List.mem_cons_self _ _)) hnx1

/-- The visited ids of the traversal output are duplicate-free: the callback
fires at most once per id (the `visited` set of `traverse` is keyed by id). -/
theorem traverseAux_ids_nodup (g : Graph) (nextF : Nat → List Nat) :
    ∀ fuel (queue : List (List Nat)) (visited : List String),
      ((queue.map (fun q => g.idOf (q.headD 0))).Nodup) →
      (∀ q ∈ queue, g.idOf (q.headD 0) ∈ visited) →
      ((traverseAux g nextF fuel queue visited).map (fun q => g.idOf (q.headD 0))).Nodup ∧
      (∀ s ∈ (traverseAux g nextF fuel queue visited).map (fun q => g.idOf (q.headD 0)),
        s ∈ visited → s ∈ queue.map (fun q => g.idOf (q.headD 0))) := by
  intro fuel
  induction fuel with
  | zero =>
      intro queue visited _ _
      exact ⟨List.nodup_nil, by intro s hs; cases hs⟩
  | succ fuel ih =>
      intro queue visited hnd hvis
      match queue with
      | [] => exact ⟨List.nodup_nil, by intro s hs; cases hs⟩
      | p :: rest =>
        obtain ⟨eq, ev, h1, h2, h3, h4, h5, h6⟩ :=
          pushNexts_spec g p (nextF (p.headD 0)) rest visited
        rw [traverseAux]
        simp only [h1]
        have hidsr : ((rest ++ eq).map (fun q => g.idOf (q.headD 0)))
            = rest.map (fun q => g.idOf (q.headD 0)) ++ ev := by
          rw [List.map_append, h2]
        have hnd1 : (rest.map (fun q => g.idOf (q.headD 0))).Nodup :=
          (List.nodup_cons.mp hnd).2
        have hpmem : g.idOf (p.headD 0) ∈ visited := hvis p (List.mem_cons_self _ _)
        have hnd' : ((rest ++ eq).map (fun q => g.idOf (q.headD 0))).Nodup := by
          rw [hidsr, List.nodup_append]
          refine ⟨hnd1, h3, ?_⟩
          intro s hs hs'
          obtain ⟨q2, hq2, rfl⟩ := List.mem_map.mp hs
          exact h4 _ hs' (hvis q2 (List.mem_cons_of_mem _ hq2))
        have hvis' : ∀ q ∈ rest ++ eq, g.idOf (q.headD 0) ∈ visited ++ ev := by
          intro q hq
          rcases List.mem_append.mp hq with hq' | hq'
          · exact List.mem_append_left _ (hvis q (List.mem_cons_of_mem _ hq'))
          · refine List.mem_append_right _ ?_
            rw [← h2]
            exact List.mem_map_of_mem _ hq'
        obtain ⟨ihnd, ihmem⟩ := ih (rest ++ eq) (visited ++ ev) hnd' hvis'
        constructor
        · simp only [List.map_cons]
          refine List.nodup_cons.mpr ⟨?_, ihnd⟩
          intro hc
          have := ihmem _ hc (List.mem_append_left _ hpmem)
          rw [hidsr] at this
          rcases List.mem_append.mp this with hm | hm
          · exact (List.nodup_cons.mp hnd).1 hm
          · exact h4 _ hm hpmem
        · intro s hs hsv
          simp only [List.map_cons, List.mem_cons] at hs ⊢
          rcases hs with rfl | hs'
          · exact Or.inl rfl
          · right
            have := ihmem s hs' (List.mem_append_left _ hsv)
            rw [hidsr] at this
            rcases List.mem_append.mp this with hm | hm
            · exact hm
            · exact absurd hsv (h4 s hm)

/-- Neighbor-closure of the traversal output: for every visited node and each
of its next nodes, that next node's id was either already visited initially or
belongs to some visited node of the output. -/
theorem traverseAux_closure (g : Graph) (nextF : Nat → List Nat) :
    ∀ fuel (queue : List (List Nat)) (visited : List String),
      visited.Nodup → (∀ s ∈ visited, s ∈ idPool g) →
      queue.length + (g.size + 1 - visited.length) ≤ fuel →
      ∀ q ∈ traverseAux g nextF fuel queue visited,
        ∀ y ∈ nextF (q.headD 0),
          g.idOf y ∈ visited ∨
          ∃ q2, q2 ∈ traverseAux g nextF fuel queue visited ∧
            g.idOf (q2.headD 0) = g.idOf y := by
  intro fuel
  induction fuel with
  | zero => intro queue visited _ _ _ q hq; cases hq
  | succ fuel ih =>
      intro queue visited hnd hpool hμ q hq
      match queue, hq with
      | p :: rest, hq =>
        obtain ⟨eq, ev, h1, h2, h3, h4, h5, h6⟩ :=
          pushNexts_spec g p (nextF (p.headD 0)) rest visited
        rw [traverseAux] at hq ⊢
        simp only [h1] at hq ⊢
        have hlenev : ev.length = eq.length := by rw [← h2, List.length_map]
        have hnd' : (visited ++ ev).Nodup := by
          rw [List.nodup_append]
          exact ⟨hnd, h3, fun s hs hs' => h4 s hs' hs⟩
        have hpool' : ∀ s ∈ visited ++ ev, s ∈ idPool g := by
          intro s hs
          rcases List.mem_append.mp hs with hs' | hs'
          · exact hpool s hs'
          · rw [← h2] at hs'
            obtain ⟨qq, _, rfl⟩ := List.mem_map.mp hs'
            exact idOf_mem_pool g _
        have hvb : (visited ++ ev).length ≤ g.size + 1 := vis_length_le g _ hnd' hpool'
        have hμ' : (rest ++ eq).length + (g.size + 1 - (visited ++ ev).length) ≤ fuel := by
          rw [List.length_append, List.length_append] at *
          simp only [List.length_cons] at hμ
          omega
        have hfromEq : ∀ s ∈ ev, ∃ q2, q2 ∈ traverseAux g nextF fuel (rest ++ eq)
            (visited ++ ev) ∧ g.idOf (q2.headD 0) = s := by
          intro s hs
          rw [← h2] at hs
          obtain ⟨q2, hq2, rfl⟩ := List.mem_map.mp hs
          exact ⟨q2, traverseAux_mem_output g nextF fuel (rest ++ eq) (visited ++ ev)
            hnd' hpool' hμ' q2 (List.mem_append_right _ hq2), rfl⟩
        rcases List.mem_cons.mp hq with rfl | hq'
        · intro y hy
          have := h6 y hy
          rcases List.mem_append.mp this with hm | hm
          · exact Or.inl hm
          · obtain ⟨q2, hq2, hq2id⟩ := hfromEq _ hm
            exact Or.inr ⟨q2, List.mem_cons_of_mem _ hq2, hq2id⟩
        · intro y hy
          have := ih (rest ++ eq) (visited ++ ev) hnd' hpool' hμ' q hq' y hy
          rcases this with hm | ⟨q2, hq2, hq2id⟩
          · rcases List.mem_append.mp hm with hm' | hm'
            · exact Or.inl hm'
            · obtain ⟨q2, hq2, hq2id⟩ := hfromEq _ hm'
              exact Or.inr ⟨q2, List.mem_cons_of_mem _ hq2, hq2id⟩
          · exact Or.inr ⟨q2, List.mem_cons_of_mem _ hq2, hq2id⟩

/-! ## Top-level properties of `traverse` -/

theorem traverse_okPath (g : Graph) (nextF : Nat → List Nat) (start : Nat) :
    ∀ q ∈ g.traverse start nextF, OkPath nextF start q := by
  apply traverseAux_okPath
  intro q hq
  rcases List.mem_cons.mp hq with rfl | hq'
  · exact OkPath.single
  · cases hq'

theorem traverse_start_mem (g : Graph) (nextF : Nat → List Nat) (start : Nat) :
    [start] ∈ g.traverse start nextF := by
  apply traverseAux_mem_output g nextF (g.size + 2) [[start]] [g.idOf start]
  · exact List.nodup_singleton _
  · intro s hs
    rcases List.mem_singleton.mp hs with rfl
    exact idOf_mem_pool g start
  · simp only [List.length_cons, List.length_nil, List.length_singleton]
    omega
  · exact List.mem_singleton_self _

theorem traverse_sound (g : Graph) (nextF : Nat → List Nat) (start : Nat) :
    ∀ v ∈ g.traverseNodes start nextF, Reaches nextF start v := by
  intro v hv
  obtain ⟨q, hq, rfl⟩ := List.mem_map.mp hv
  exact reaches_head (traverse_okPath g nextF start q hq)

/-- The ids of the visited nodes of a full `traverse` are pairwise distinct
(no hypotheses: the visited set is keyed by id). -/
theorem traverse_ids_nodup (g : Graph) (start : Nat) (nextF : Nat → List Nat) :
    ((g.traverseNodes start nextF).map g.idOf).Nodup := by
  rw [Graph.traverseNodes, List.map_map]
  have h := traverseAux_ids_nodup g nextF (g.size + 2) [[start]] [g.idOf start]
    (List.nodup_singleton _)
    (by intro q hq; rcases List.mem_cons.mp hq with rfl | hq'
        · exact List.mem_singleton_self _
        · cases hq')
  exact h.1

theorem traverse_closure (g : Graph) (nextF : Nat → List Nat) (start : Nat) :
    ∀ q ∈ g.traverse start nextF, ∀ y ∈ nextF (q.headD 0),
      g.idOf y = g.idOf start ∨
      ∃ q2, q2 ∈ g.traverse start nextF ∧ g.idOf (q2.headD 0) = g.idOf y := by
  intro q hq y hy
  have h := traverseAux_closure g nextF (g.size + 2) [[start]] [g.idOf start]
    (List.nodup_singleton _)
    (by intro s hs; rcases List.mem_singleton.mp hs with rfl; exact idOf_mem_pool g start)
    (by simp only [List.length_cons, List.length_nil, List.length_singleton]; omega)
    q hq y hy
  rcases h with hm | hm
  · exact Or.inl (List.mem_singleton.mp hm)
  · exact Or.inr hm

/-- Completeness of `traverse`: when reachable nodes have pairwise-distinct ids,
every node reachable from `start` via `nextF` is visited. -/
theorem traverse_complete (g : Graph) (nextF : Nat → List Nat) (start : Nat)
    (hdist : ∀ u w, Reaches nextF start u → Reaches nextF start w →
      g.idOf u = g.idOf w → u = w) :
    ∀ v, Reaches nextF start v → v ∈ g.traverseNodes start nextF := by
  have hstart : start ∈ g.traverseNodes start nextF :=
    List.mem_map.mpr ⟨[start], traverse_start_mem g nextF start, rfl⟩
  rintro v ⟨p, hp, hh⟩
  subst hh
  induction hp with
  | single => exact hstart
  | cons a b rest hm hp ih =>
      obtain ⟨pb, hpb, hpbh⟩ := List.mem_map.mp ih
      have hreachA : Reaches nextF start a :=
        ⟨a :: b :: rest, OkPath.cons a b rest hm hp, rfl⟩
      have hclose := traverse_closure g nextF start pb hpb a (by rw [hpbh]; exact hm)
      rcases hclose with heq | ⟨q2, hq2, hq2id⟩
      · have : a = start := hdist a start hreachA (reaches_self nextF start) heq
        rw [List.headD_cons, this]
        exact hstart
      · have hreachQ : Reaches nextF start (q2.headD 0) :=
          reaches_head (traverse_okPath g nextF start q2 hq2)
      -- identify q2's head with a
        have : q2.headD 0 = a := hdist _ _ hreachQ hreachA hq2id
        rw [List.headD_cons, ← this]
        exact List.mem_map.mpr ⟨q2, hq2, rfl⟩

/-! ## The id-keyed clone map (`Map.set` semantics) -/

theorem any_beq_iff (m : List (String × Nat)) (k : String) :
    m.any (fun e => e.1 == k) = true ↔ k ∈ m.map Prod.fst := by
  rw [List.any_eq_true]
  constructor
  · rintro ⟨e, he, heq⟩
    rw [beq_iff_eq] at heq
    exact List.mem_map.mpr ⟨e, he, heq⟩
  · intro hk
    obtain ⟨e, he, rfl⟩ := List.mem_map.mp hk
    exact ⟨e, he, beq_self_eq_true _⟩

theorem mapSet_keys (m : List (String × Nat)) (k : String) (v : Nat) :
    (mapSet m k v).map Prod.fst =
      if k ∈ m.map Prod.fst then m.map Prod.fst else m.map Prod.fst ++ [k] := by
  unfold mapSet
  by_cases hk : k ∈ m.map Prod.fst
  · rw [if_pos ((any_beq_iff m k).mpr hk), if_pos hk, List.map_map]
    apply List.map_congr_left
    intro e _
    by_cases he : e.1 = k
    · simp [he]
    · simp [he]
  · rw [if_neg (fun hc => hk ((any_beq_iff m k).mp hc)), if_neg hk, List.map_append]
    rfl

theorem mapSet_fresh (m : List (String × Nat)) (k : String) (v : Nat)
    (hk : k ∉ m.map Prod.fst) : mapSet m k v = m ++ [(k, v)] := by
  unfold mapSet
  rw [if_neg (fun hc => hk ((any_beq_iff m k).mp hc))]

theorem lookupId_eq_none_iff (m : List (String × Nat)) (k : String) :
    lookupId m k = none ↔ k ∉ m.map Prod.fst := by
  unfold lookupId
  rw [Option.map_eq_none', List.find?_eq_none]
  constructor
  · intro h hk
    obtain ⟨e, he, rfl⟩ := List.mem_map.mp hk
    exact h e he (by simp)
  · intro hk e he heq
    rw [beq_iff_eq] at heq
    exact hk (List.mem_map.mpr ⟨e, he, heq⟩)

theorem lookupId_mem (m : List (String × Nat)) (k : String) (v : Nat)
    (h : lookupId m k = some v) : (k, v) ∈ m ∧ k ∈ m.map Prod.fst := by
  unfold lookupId at h
  rw [Option.map_eq_some'] at h
  obtain ⟨e, he, rfl⟩ := h
  have hm := List.mem_of_find?_eq_some he
  have hp := List.find?_some he
  rw [beq_iff_eq] at hp
  subst hp
  exact ⟨hm, List.mem_map.mpr ⟨e, hm, rfl⟩⟩

theorem lookupId_isSome (m : List (String × Nat)) (k : String)
    (h : k ∈ m.map Prod.fst) : ∃ v, lookupId m k = some v := by
  cases hc : lookupId m k with
  | some v => exact ⟨v, rfl⟩
  | none => exact absurd h (lookupId_eq_none_iff m k |>.mp hc)

theorem nodeAt_append (g : Graph) (cl : List NodeData) (j : Nat) (h : j < g.size) :
    (Graph.mk (g.nodes ++ cl)).nodeAt j = g.nodeAt j := by
  simp only [Graph.nodeAt, Graph.size] at *
  rw [List.getD_eq_getElem?_getD, List.getD_eq_getElem?_getD,
    List.getElem?_append_left h]

theorem nodeAt_append_self (g : Graph) (nd : NodeData) :
    (Graph.mk (g.nodes ++ [nd])).nodeAt g.size = nd := by
  simp only [Graph.nodeAt, Graph.size]
  rw [List.getD_eq_getElem?_getD, List.getElem?_append_right le_rfl]
  simp

/-- The clone map built by the cloning pass has duplicate-free keys: one clone
per id, for any graph (duplicate-id originals are silently merged). -/
theorem clonePhase3_keys_nodup (g : Graph) (incl : Nat → Bool) :
    ∀ (order : List Nat) (h0 : Graph) (m0 : List (String × Nat)),
      (m0.map Prod.fst).Nodup →
      (((order.foldl (fun st i =>
        if incl i then
          (Graph.mk (st.1.nodes ++ [(g.nodeAt i).cloneWithoutRelationships]),
            mapSet st.2 ((g.nodeAt i).cloneWithoutRelationships).id st.1.size)
        else st) (h0, m0)).2.map Prod.fst)).Nodup := by
  intro order
  induction order with
  | nil => intro h0 m0 h; exact h
  | cons i rest ih =>
      intro h0 m0 h
      rw [List.foldl_cons]
      by_cases hi : incl i
      · simp only [hi, if_true]
        apply ih
        rw [mapSet_keys]
        by_cases hk : ((g.nodeAt i).cloneWithoutRelationships).id ∈ m0.map Prod.fst
        · rw [if_pos hk]; exact h
        · rw [if_neg hk]
          rw [List.nodup_append]
          refine ⟨h, List.nodup_singleton _, ?_⟩
          intro s hs hs'
          rw [List.mem_singleton] at hs'
          subst hs'
          exact hk hs
      · simp only [hi, if_false]
        exact ih h0 m0 h

/-- C10: `traverse` and `cloneWithRelationships` identify nodes by string id,
not object identity: the visited nodes of any traversal have pairwise-distinct
ids (so of two distinct node objects sharing an id, at most one receives the
callback), and the id-keyed clone map of any successful clone has
duplicate-free keys (a single clone per id, merging duplicate-id originals). -/
theorem claim_C10 :
    (∀ (g : Graph) (start : Nat) (nextF : Nat → List Nat),
      ((g.traverseNodes start nextF).map g.idOf).Nodup) ∧
    (∀ (g : Graph) (c : Nat) (pred : Option (NodeData → Bool)) (r : CloneResult),
      g.cloneWithRelationships c pred = Except.ok r → (r.map.map Prod.fst).Nodup) := by
  constructor
  · exact fun g start nextF => traverse_ids_nodup g start nextF
  · intro g c pred r h
    unfold Graph.cloneWithRelationships at h
    simp only [] at h
    set order := g.traverseNodes (g.getRootNode c) g.dependentsOf with horder
    set incl := fun i => shouldIncludeNode g pred (g.getRootNode c) i with hincl
    have hkeys := clonePhase3_keys_nodup g incl order g [] List.nodup_nil
    cases hph4 : clonePhase4 g incl (clonePhase3 g order incl).2 order
        (clonePhase3 g order incl).1 with
    | error e => rw [hph4] at h; cases h
    | ok hp =>
        rw [hph4] at h
        cases hlk : lookupId (clonePhase3 g order incl).2 (g.idOf c) with
        | none => rw [hlk] at h; cases h
        | some j =>
            rw [hlk] at h
            cases h
            exact hkeys

/-- Witness for C10 on `dupIdGraph`, where two distinct node objects share the
id `dup`: the traversal's visited ids are duplicate-free (only one of the two
duplicate-id objects is visited) and the clone map of a successful clone has a
single entry per id. -/
theorem claim_C10_witness :
    ((dupIdGraph.traverseNodes 0 dupIdGraph.dependentsOf).map dupIdGraph.idOf).Nodup ∧
    ∃ r, dupIdGraph.cloneWithRelationships 0 none = Except.ok r ∧
      (r.map.map Prod.fst).Nodup := by
  refine ⟨claim_C10.1 dupIdGraph 0 dupIdGraph.dependentsOf, ?_⟩
  cases hc : dupIdGraph.cloneWithRelationships 0 none with
  | error e =>
      have hok : (dupIdGraph.cloneWithRelationships 0 none).isOk = true := by decide
      rw [hc] at hok
      cases hok
  | ok r => exact ⟨r, rfl, claim_C10.2 dupIdGraph 0 none r hc⟩

/-- Full characterization of the cloning pass when the ids of the traversal
order are duplicate-free (always the case for `traverse` output): clones are
appended to the heap at fresh indices `≥ g.size`, the map gains exactly one
entry per included node, and each entry points at the edge-free clone of its
original. -/
theorem clonePhase3_spec (g : Graph) (incl : Nat → Bool) :
    ∀ (order : List Nat) (h0 : Graph) (m0 : List (String × Nat)),
      g.size ≤ h0.size →
      ((order.map g.idOf).Nodup) →
      (∀ e ∈ m0, g.size ≤ e.2 ∧ e.2 < h0.size) →
      ((m0.map Prod.snd).Nodup) →
      (∀ i ∈ order, incl i = true → g.idOf i ∉ m0.map Prod.fst) →
      (let st := order.foldl (fun st i =>
        if incl i then
          (Graph.mk (st.1.nodes ++ [(g.nodeAt i).cloneWithoutRelationships]),
            mapSet st.2 ((g.nodeAt i).cloneWithoutRelationships).id st.1.size)
        else st) (h0, m0)
      (∃ cl, st.1.nodes = h0.nodes ++ cl) ∧
      (∀ e ∈ st.2, g.size ≤ e.2 ∧ e.2 < st.1.size) ∧
      ((st.2.map Prod.snd).Nodup) ∧
      (∀ s, s ∈ st.2.map Prod.fst ↔ s ∈ m0.map Prod.fst ∨
        ∃ i, i ∈ order ∧ incl i = true ∧ g.idOf i = s) ∧
      (∀ e ∈ st.2, e ∈ m0 ∨ ∃ i, i ∈ order ∧ incl i = true ∧ g.idOf i = e.1 ∧
        st.1.nodeAt e.2 = (g.nodeAt i).cloneWithoutRelationships) ∧
      st.2.length = m0.length + (order.filter incl).length) := by
  intro order
  induction order with
  | nil =>
      intro h0 m0 hsz hnd hm0 hv0 hfresh
      refine ⟨⟨[], by simp⟩, hm0, hv0, ?_, ?_, by simp⟩
      · intro s
        simp
      · intro e he
        exact Or.inl he
  | cons i rest ih =>
      intro h0 m0 hsz hnd hm0 hv0 hfresh
      simp only [List.foldl_cons]
      by_cases hi : incl i
      · simp only [hi, if_true]
        have hidclone : ((g.nodeAt i).cloneWithoutRelationships).id = g.idOf i := rfl
        have hkfresh : g.idOf i ∉ m0.map Prod.fst :=
          hfresh i (List.mem_cons_self _ _) hi
        have hmapset : mapSet m0 ((g.nodeAt i).cloneWithoutRelationships).id h0.size
            = m0 ++ [(g.idOf i, h0.size)] := by
          rw [hidclone, mapSet_fresh _ _ _ hkfresh]
        rw [hmapset]
        set h1 : Graph := Graph.mk (h0.nodes ++ [(g.nodeAt i).cloneWithoutRelationships])
          with hh1
        have hsz1 : h1.size = h0.size + 1 := by
          simp [hh1, Graph.size]
        have hndrest : ((rest.map g.idOf)).Nodup := (List.nodup_cons.mp hnd).2
        have hinotrest : g.idOf i ∉ rest.map g.idOf := (List.nodup_cons.mp hnd).1
        have hm1 : ∀ e ∈ m0 ++ [(g.idOf i, h0.size)], g.size ≤ e.2 ∧ e.2 < h1.size := by
          intro e he
          rcases List.mem_append.mp he with he' | he'
          · have := hm0 e he'
            omega
          · rw [List.mem_singleton] at he'
            rw [he']
            refine ⟨hsz, ?_⟩
            show h0.size < h1.size
            omega
        have hv1 : (((m0 ++ [(g.idOf i, h0.size)]).map Prod.snd)).Nodup := by
          rw [List.map_append, List.nodup_append]
          refine ⟨hv0, List.nodup_singleton _, ?_⟩
          intro v hv hv'
          simp only [List.map_cons, List.map_nil, List.mem_singleton] at hv'
          rw [hv'] at hv
          obtain ⟨e, he, heq⟩ := List.mem_map.mp hv
          have h2 : e.2 = h0.size := heq
          have h3 := (hm0 e he).2
          omega
        have hfresh1 : ∀ i2 ∈ rest, incl i2 = true →
            g.idOf i2 ∉ (m0 ++ [(g.idOf i, h0.size)]).map Prod.fst := by
          intro i2 hi2 hinc hc
          rw [List.map_append] at hc
          rcases List.mem_append.mp hc with hc' | hc'
          · exact hfresh i2 (List.mem_cons_of_mem _ hi2) hinc hc'
          · simp only [List.map_cons, List.map_nil, List.mem_singleton] at hc'
            exact hinotrest (hc' ▸ List.mem_map_of_mem g.idOf hi2)
        obtain ⟨⟨cl, hcl⟩, hb, hvn, hkiff, hcontents, hlen⟩ :=
          ih h1 (m0 ++ [(g.idOf i, h0.size)]) (by omega) hndrest hm1 hv1 hfresh1
        refine ⟨⟨(g.nodeAt i).cloneWithoutRelationships :: cl, by
          rw [hcl]; simp [hh1]⟩, hb, hvn, ?_, ?_, ?_⟩
        · intro s
          constructor
          · intro hs
            rcases (hkiff s).mp hs with hm | ⟨i2, hi2, hinc, hid⟩
            · rw [List.map_append] at hm
              rcases List.mem_append.mp hm with h | h
              · exact Or.inl h
              · simp only [List.map_cons, List.map_nil, List.mem_singleton] at h
                exact Or.inr ⟨i, List.mem_cons_self _ _, hi, h.symm⟩
            · exact Or.inr ⟨i2, List.mem_cons_of_mem _ hi2, hinc, hid⟩
          · intro hs
            apply (hkiff s).mpr
            rcases hs with h | ⟨i2, hi2, hinc, hid⟩
            · exact Or.inl (by rw [List.map_append]; exact List.mem_append_left _ h)
            · rcases List.mem_cons.mp hi2 with rfl | hi2'
              · refine Or.inl ?_
                rw [List.map_append]
                refine List.mem_append_right _ ?_
                simp only [List.map_cons, List.map_nil, List.mem_singleton]
                exact hid.symm
              · exact Or.inr ⟨i2, hi2', hinc, hid⟩
        · intro e he
          rcases hcontents e he with hm | ⟨i2, hi2, hinc, hid, hnode⟩
          · rcases List.mem_append.mp hm with hm' | hm'
            · exact Or.inl hm'
            · rw [List.mem_singleton] at hm'
              subst hm'
              refine Or.inr ⟨i, List.mem_cons_self _ _, hi, rfl, ?_⟩
              have hfold : (rest.foldl (fun st i2 =>
                  if incl i2 then
                    (Graph.mk (st.1.nodes ++ [(g.nodeAt i2).cloneWithoutRelationships]),
                      mapSet st.2 ((g.nodeAt i2).cloneWithoutRelationships).id st.1.size)
                  else st) (h1, m0 ++ [(g.idOf i, h0.size)])).1.nodeAt h0.size
                  = h1.nodeAt h0.size := by
                have : h0.size < h1.size := by omega
                conv =>
                  lhs
                  rw [show (rest.foldl (fun st i2 =>
                    if incl i2 then
                      (Graph.mk (st.1.nodes ++ [(g.nodeAt i2).cloneWithoutRelationships]),
                        mapSet st.2 ((g.nodeAt i2).cloneWithoutRelationships).id st.1.size)
                    else st) (h1, m0 ++ [(g.idOf i, h0.size)])).1 = Graph.mk (h1.nodes ++ cl)
                    from by rw [← hcl]]
                exact nodeAt_append h1 cl h0.size this
              simp only []
              rw [hfold, hh1]
              exact nodeAt_append_self h0 _
          · exact Or.inr ⟨i2, List.mem_cons_of_mem _ hi2, hinc, hid, hnode⟩
        · refine Eq.trans hlen ?_
          rw [List.filter_cons]
          simp only [hi, if_true]
          simp [List.length_append]
          omega
      · simp only [hi, if_false]
        have hndrest : ((rest.map g.idOf)).Nodup := (List.nodup_cons.mp hnd).2
        obtain ⟨hcl, hb, hvn, hkiff, hcontents, hlen⟩ :=
          ih h0 m0 hsz hndrest hm0 hv0
            (fun i2 hi2 hinc => hfresh i2 (List.mem_cons_of_mem _ hi2) hinc)
        refine ⟨hcl, hb, hvn, ?_, ?_, ?_⟩
        · intro s
          constructor
          · intro hs
            rcases (hkiff s).mp hs with h | ⟨i2, hi2, hinc, hid⟩
            · exact Or.inl h
            · exact Or.inr ⟨i2, List.mem_cons_of_mem _ hi2, hinc, hid⟩
          · intro hs
            apply (hkiff s).mpr
            rcases hs with h | ⟨i2, hi2, hinc, hid⟩
            · exact Or.inl h
            · rcases List.mem_cons.mp hi2 with rfl | hi2'
              · rw [hinc] at hi; cases hi rfl
              · exact Or.inr ⟨i2, hi2', hinc, hid⟩
        · intro e he
          rcases hcontents e he with hm | ⟨i2, hi2, hinc, hid, hnode⟩
          · exact Or.inl hm
          · exact Or.inr ⟨i2, List.mem_cons_of_mem _ hi2, hinc, hid, hnode⟩
        · refine Eq.trans hlen ?_
          rw [List.filter_cons]
          simp [hi]

/-! ## The re-wiring pass: frame properties -/

theorem addDependency_nodeAt_other (g : Graph) (a b i : Nat)
    (hia : i ≠ a) (hib : i ≠ b) :
    (g.addDependency a b).nodeAt i = g.nodeAt i := by
  unfold Graph.addDependency
  split
  · rfl
  · rw [nodeAt_setNode_ne _ _ _ _ hia, nodeAt_setNode_ne _ _ _ _ hib]

theorem wireDeps_nil_eq (g : Graph) (m : List (String × Nat)) (cn : Option Nat)
    (h : Graph) : wireDeps g m cn [] h = Except.ok h := rfl

theorem wireDeps_cons_eq (g : Graph) (m : List (String × Nat)) (cn : Option Nat)
    (d : Nat) (rest : List Nat) (h : Graph) :
    wireDeps g m cn (d :: rest) h =
      match cn, lookupId m (g.idOf d) with
      | some j, some jd => wireDeps g m cn rest (h.addDependency j jd)
      | _, _ => Except.error "TypeError" := rfl

theorem clonePhase4_nil_eq (g : Graph) (incl : Nat → Bool) (m : List (String × Nat))
    (h : Graph) : clonePhase4 g incl m [] h = Except.ok h := rfl

theorem clonePhase4_cons_eq (g : Graph) (incl : Nat → Bool) (m : List (String × Nat))
    (i : Nat) (rest : List Nat) (h : Graph) :
    clonePhase4 g incl m (i :: rest) h =
      if incl i then
        match wireDeps g m (lookupId m (g.idOf i)) (g.nodeAt i).dependencies h with
        | Except.ok h1 => clonePhase4 g incl m rest h1
        | Except.error e => Except.error e
      else clonePhase4 g incl m rest h := rfl

theorem wireDeps_frame (g : Graph) (m : List (String × Nat)) :
    ∀ (deps : List Nat) (cn : Option Nat) (h h' : Graph),
      wireDeps g m cn deps h = Except.ok h' →
      h'.size = h.size ∧
      ∀ i2, (∀ e ∈ m, e.2 ≠ i2) → (∀ j, cn = some j → i2 ≠ j) →
        h'.nodeAt i2 = h.nodeAt i2 := by
  intro deps
  induction deps with
  | nil =>
      intro cn h h' hw
      rw [wireDeps_nil_eq] at hw
      cases hw
      exact ⟨rfl, fun _ _ _ => rfl⟩
  | cons d rest ih =>
      intro cn h h' hw
      rw [wireDeps_cons_eq] at hw
      cases hcn : cn with
      | none =>
          rw [hcn] at hw
          have hw2 : Except.error "TypeError" = Except.ok h' := by
            refine Eq.trans ?_ hw
            cases lookupId m (g.idOf d) <;> rfl
          cases hw2
      | some j =>
          rw [hcn] at hw
          cases hlk : lookupId m (g.idOf d) with
          | none =>
              rw [hlk] at hw
              have hw2 : Except.error "TypeError" = Except.ok h' := hw
              cases hw2
          | some jd =>
              rw [hlk] at hw
              have hw2 : wireDeps g m (some j) rest (h.addDependency j jd)
                  = Except.ok h' := hw
              obtain ⟨hsz, hframe⟩ := ih (some j) _ _ hw2
              constructor
              · rw [hsz, size_addDependency]
              · intro i2 hv hj
                have hij : i2 ≠ j := hj j rfl
                have hijd : i2 ≠ jd := by
                  obtain ⟨hm, _⟩ := lookupId_mem m (g.idOf d) jd hlk
                  exact fun hc => (hv _ hm) hc.symm
                rw [hframe i2 hv (by intro j2 hj2; cases hj2; exact hij),
                  addDependency_nodeAt_other h j jd i2 hij hijd]

theorem clonePhase4_frame (g : Graph) (incl : Nat → Bool) (m : List (String × Nat)) :
    ∀ (order : List Nat) (h h' : Graph),
      clonePhase4 g incl m order h = Except.ok h' →
      h'.size = h.size ∧
      ∀ i2, (∀ e ∈ m, e.2 ≠ i2) → h'.nodeAt i2 = h.nodeAt i2 := by
  intro order
  induction order with
  | nil =>
      intro h h' hw
      rw [clonePhase4_nil_eq] at hw
      cases hw
      exact ⟨rfl, fun _ _ => rfl⟩
  | cons i rest ih =>
      intro h h' hw
      rw [clonePhase4_cons_eq] at hw
      by_cases hi : incl i
      · rw [if_pos hi] at hw
        cases hwd : wireDeps g m (lookupId m (g.idOf i)) (g.nodeAt i).dependencies h with
        | ok h1 =>
            rw [hwd] at hw
            have hw2 : clonePhase4 g incl m rest h1 = Except.ok h' := hw
            obtain ⟨hsz1, hf1⟩ := wireDeps_frame g m _ _ _ _ hwd
            obtain ⟨hsz2, hf2⟩ := ih _ _ hw2
            constructor
            · rw [hsz2, hsz1]
            · intro i2 hv
              rw [hf2 i2 hv, hf1 i2 hv]
              intro j hj
              obtain ⟨hm, _⟩ := lookupId_mem m (g.idOf i) j hj
              exact fun hc => (hv _ hm) hc.symm
        | error e =>
            rw [hwd] at hw
            have hw2 : (Except.error e : Except String Graph) = Except.ok h' := hw
            cases hw2
      · rw [if_neg hi] at hw
        exact ih _ _ hw

theorem wireDeps_error_str (g : Graph) (m : List (String × Nat)) :
    ∀ (deps : List Nat) (cn : Option Nat) (h : Graph) (e : String),
      wireDeps g m cn deps h = Except.error e → e = "TypeError" := by
  intro deps
  induction deps with
  | nil =>
      intro cn h e hw
      rw [wireDeps_nil_eq] at hw
      cases hw
  | cons d rest ih =>
      intro cn h e hw
      rw [wireDeps_cons_eq] at hw
      cases hcn : cn with
      | none =>
          rw [hcn] at hw
          have hw2 : (Except.error "TypeError" : Except String Graph)
              = Except.error e := by
            refine Eq.trans ?_ hw
            cases lookupId m (g.idOf d) <;> rfl
          cases hw2
          rfl
      | some j =>
          rw [hcn] at hw
          cases hlk : lookupId m (g.idOf d) with
          | none =>
              rw [hlk] at hw
              have hw2 : (Except.error "TypeError" : Except String Graph)
                  = Except.error e := hw
              cases hw2
              rfl
          | some jd =>
              rw [hlk] at hw
              exact ih (some j) _ _ hw

theorem clonePhase4_error_str (g : Graph) (incl : Nat → Bool) (m : List (String × Nat)) :
    ∀ (order : List Nat) (h : Graph) (e : String),
      clonePhase4 g incl m order h = Except.error e → e = "TypeError" := by
  intro order
  induction order with
  | nil =>
      intro h e hw
      rw [clonePhase4_nil_eq] at hw
      cases hw
  | cons i rest ih =>
      intro h e hw
      rw [clonePhase4_cons_eq] at hw
      by_cases hi : incl i
      · rw [if_pos hi] at hw
        cases hwd : wireDeps g m (lookupId m (g.idOf i)) (g.nodeAt i).dependencies h with
        | ok h1 =>
            rw [hwd] at hw
            exact ih _ _ hw
        | error e2 =>
            rw [hwd] at hw
            have hw2 : (Except.error e2 : Except String Graph) = Except.error e := hw
            cases hw2
            exact wireDeps_error_str g m _ _ _ _ hwd
      · rw [if_neg hi] at hw
        exact ih _ _ hw

/-- `clonePhase3` at its actual call site (fresh heap suffix, one entry per
included node of the traversal order). -/
theorem clonePhase3_main (g : Graph) (root : Nat) (incl : Nat → Bool) :
    (∃ cl, (clonePhase3 g (g.traverseNodes root g.dependentsOf) incl).1.nodes
        = g.nodes ++ cl) ∧
    (∀ e ∈ (clonePhase3 g (g.traverseNodes root g.dependentsOf) incl).2,
      g.size ≤ e.2 ∧ e.2 < (clonePhase3 g (g.traverseNodes root g.dependentsOf) incl).1.size) ∧
    (((clonePhase3 g (g.traverseNodes root g.dependentsOf) incl).2.map Prod.snd).Nodup) ∧
    (∀ s, s ∈ (clonePhase3 g (g.traverseNodes root g.dependentsOf) incl).2.map Prod.fst ↔
      ∃ i, i ∈ g.traverseNodes root g.dependentsOf ∧ incl i = true ∧ g.idOf i = s) ∧
    (∀ e ∈ (clonePhase3 g (g.traverseNodes root g.dependentsOf) incl).2,
      ∃ i, i ∈ g.traverseNodes root g.dependentsOf ∧ incl i = true ∧ g.idOf i = e.1 ∧
        (clonePhase3 g (g.traverseNodes root g.dependentsOf) incl).1.nodeAt e.2
          = (g.nodeAt i).cloneWithoutRelationships) ∧
    (clonePhase3 g (g.traverseNodes root g.dependentsOf) incl).2.length
      = ((g.traverseNodes root g.dependentsOf).filter incl).length := by
  have hspec := clonePhase3_spec g incl (g.traverseNodes root g.dependentsOf) g []
    le_rfl (traverse_ids_nodup g root g.dependentsOf)
    (by intro e he; cases he) List.nodup_nil
    (by intro i _ _ hc; cases hc)
  obtain ⟨h1, h2, h3, h4, h5, h6⟩ := hspec
  refine ⟨h1, h2, h3, ?_, ?_, by simpa using h6⟩
  · intro s
    constructor
    · intro hs
      rcases (h4 s).mp hs with hm | hm
      · cases hm
      · exact hm
    · intro hs
      exact (h4 s).mpr (Or.inr hs)
  · intro e he
    rcases h5 e he with hm | hm
    · cases hm
    · exact hm

/-- Decomposition of a successful `cloneWithRelationships` into its passes. -/
theorem cloneWithRelationships_ok_parts (g : Graph) (c : Nat)
    (pred : Option (NodeData → Bool)) (r : CloneResult)
    (h : g.cloneWithRelationships c pred = Except.ok r) :
    r.map = (clonePhase3 g (g.traverseNodes (g.getRootNode c) g.dependentsOf)
      (fun i => shouldIncludeNode g pred (g.getRootNode c) i)).2 ∧
    clonePhase4 g (fun i => shouldIncludeNode g pred (g.getRootNode c) i)
      (clonePhase3 g (g.traverseNodes (g.getRootNode c) g.dependentsOf)
        (fun i => shouldIncludeNode g pred (g.getRootNode c) i)).2
      (g.traverseNodes (g.getRootNode c) g.dependentsOf)
      (clonePhase3 g (g.traverseNodes (g.getRootNode c) g.dependentsOf)
        (fun i => shouldIncludeNode g pred (g.getRootNode c) i)).1
      = Except.ok r.heap ∧
    lookupId (clonePhase3 g (g.traverseNodes (g.getRootNode c) g.dependentsOf)
      (fun i => shouldIncludeNode g pred (g.getRootNode c) i)).2 (g.idOf c)
      = some r.entry := by
  unfold Graph.cloneWithRelationships at h
  simp only [] at h
  cases hph4 : clonePhase4 g (fun i => shouldIncludeNode g pred (g.getRootNode c) i)
      (clonePhase3 g (g.traverseNodes (g.getRootNode c) g.dependentsOf)
        (fun i => shouldIncludeNode g pred (g.getRootNode c) i)).2
      (g.traverseNodes (g.getRootNode c) g.dependentsOf)
      (clonePhase3 g (g.traverseNodes (g.getRootNode c) g.dependentsOf)
        (fun i => shouldIncludeNode g pred (g.getRootNode c) i)).1 with
  | error e =>
      rw [hph4] at h
      cases h
  | ok hp =>
      rw [hph4] at h
      cases hlk : lookupId (clonePhase3 g (g.traverseNodes (g.getRootNode c) g.dependentsOf)
          (fun i => shouldIncludeNode g pred (g.getRootNode c) i)).2 (g.idOf c) with
      | none =>
          rw [hlk] at h
          cases h
      | some j =>
          rw [hlk] at h
          cases h
          exact ⟨rfl, rfl, rfl⟩

/-- C3: the graph-shaping pipeline never mutates the input graph.  `traverse`,
`hasCycle` and `getBlockingCpuData` are pure readers in this embedding (their
types return no graph); `cloneWithRelationships` — and therefore
`getFirstPaintBasedGraph`, which is classification followed by cloning — writes
only to the freshly-allocated clone cells: every original heap cell
(`i < g.size`) of a successful clone's heap is unchanged, and every node of the
returned graph (every clone-map entry, including the returned entry node) lives
at a fresh index `≥ g.size`, so the clone shares no node object with the
original. -/
theorem claim_C3 (g : Graph) (c : Nat) (pred : Option (NodeData → Bool))
    (fcpTs : Int) (bsf : NodeData → Bool) (cpuF : Option (NodeData → Bool))
    (r r2 : CloneResult) :
    (g.cloneWithRelationships c pred = Except.ok r →
      (∀ i, i < g.size → r.heap.nodeAt i = g.nodeAt i) ∧
      (∀ e ∈ r.map, g.size ≤ e.2) ∧ g.size ≤ r.entry) ∧
    (getFirstPaintBasedGraph g c fcpTs bsf cpuF = Except.ok r2 →
      (∀ i, i < g.size → r2.heap.nodeAt i = g.nodeAt i) ∧
      (∀ e ∈ r2.map, g.size ≤ e.2) ∧ g.size ≤ r2.entry) := by
  have main : ∀ (pr : Option (NodeData → Bool)) (rr : CloneResult),
      g.cloneWithRelationships c pr = Except.ok rr →
      (∀ i, i < g.size → rr.heap.nodeAt i = g.nodeAt i) ∧
      (∀ e ∈ rr.map, g.size ≤ e.2) ∧ g.size ≤ rr.entry := by
    intro pr rr hok
    obtain ⟨hmap, hph4, hlk⟩ := cloneWithRelationships_ok_parts g c pr rr hok
    obtain ⟨⟨cl, hcl⟩, hbounds, _, _, _, _⟩ :=
      clonePhase3_main g (g.getRootNode c) (fun i => shouldIncludeNode g pr (g.getRootNode c) i)
    obtain ⟨_, hframe⟩ := clonePhase4_frame g _ _ _ _ _ hph4
    refine ⟨?_, ?_, ?_⟩
    · intro i hi
      rw [hframe i (fun e he hc => by
        have := (hbounds e he).1
        omega)]
      rw [show (clonePhase3 g (g.traverseNodes (g.getRootNode c) g.dependentsOf)
        (fun i => shouldIncludeNode g pr (g.getRootNode c) i)).1
          = Graph.mk (g.nodes ++ cl) from by
        cases hst : (clonePhase3 g (g.traverseNodes (g.getRootNode c) g.dependentsOf)
          (fun i => shouldIncludeNode g pr (g.getRootNode c) i)).1
        rw [hst] at hcl
        simp only [] at hcl
        rw [hcl]]
      exact nodeAt_append g cl i hi
    · intro e he
      rw [hmap] at he
      exact (hbounds e he).1
    · obtain ⟨hm, _⟩ := lookupId_mem _ _ _ hlk
      exact (hbounds _ hm).1
  constructor
  · exact main pred r
  · intro hok
    exact main _ r2 hok

/-- Witness for C3 at concrete inputs: a plain clone of the 3-node chain and a
first-paint-based build on `scriptInitGraph`. -/
theorem claim_C3_witness :
    (∃ r, (chainGraph 3).cloneWithRelationships 0 none = Except.ok r ∧
      ((∀ i, i < (chainGraph 3).size → r.heap.nodeAt i = (chainGraph 3).nodeAt i) ∧
       (∀ e ∈ r.map, (chainGraph 3).size ≤ e.2) ∧ (chainGraph 3).size ≤ r.entry)) ∧
    (∃ r2, getFirstPaintBasedGraph scriptInitGraph 0 100
        (fun nd => nd.hasRenderBlockingPriority && nd.initiatorType != "script") none
        = Except.ok r2 ∧
      ((∀ i, i < scriptInitGraph.size → r2.heap.nodeAt i = scriptInitGraph.nodeAt i) ∧
       (∀ e ∈ r2.map, scriptInitGraph.size ≤ e.2) ∧ scriptInitGraph.size ≤ r2.entry)) := by
  constructor
  · cases hc : (chainGraph 3).cloneWithRelationships 0 none with
    | error e =>
        have hok : ((chainGraph 3).cloneWithRelationships 0 none).isOk = true := by decide
        rw [hc] at hok
        cases hok
    | ok r =>
        exact ⟨r, rfl,
          (claim_C3 (chainGraph 3) 0 none 0 (fun _ => true) none r r).1 hc⟩
  · cases hc : getFirstPaintBasedGraph scriptInitGraph 0 100
        (fun nd => nd.hasRenderBlockingPriority && nd.initiatorType != "script") none with
    | error e =>
        have hok : (getFirstPaintBasedGraph scriptInitGraph 0 100
            (fun nd => nd.hasRenderBlockingPriority && nd.initiatorType != "script")
            none).isOk = true := by decide
        rw [hc] at hok
        cases hok
    | ok r2 =>
        exact ⟨r2, rfl,
          (claim_C3 scriptInitGraph 0 none 100
            (fun nd => nd.hasRenderBlockingPriority && nd.initiatorType != "script")
            none r2 r2).2 hc⟩

/-! ## Reachability under well-formedness -/

theorem reaches_trans {f : Nat → List Nat} {a b c : Nat}
    (hab : Reaches f a b) (hbc : Reaches f b c) : Reaches f a c := by
  obtain ⟨p, hp, hh⟩ := hbc
  subst hh
  induction hp with
  | single => exact hab
  | cons x y rest hxy hp ih => exact reaches_step ih hxy

theorem okPath_mem_lt (g : Graph) {f : Nat → List Nat}
    (hrange : ∀ b, b < g.size → ∀ a ∈ f b, a < g.size) {s : Nat} (hs : s < g.size) :
    ∀ {p : List Nat}, OkPath f s p → ∀ x ∈ p, x < g.size := by
  intro p hp
  induction hp with
  | single =>
      intro x hx
      rw [List.mem_singleton] at hx
      subst hx
      exact hs
  | cons a b rest hm hp ih =>
      intro x hx
      rcases List.mem_cons.mp hx with rfl | hx'
      · exact hrange b (ih b (List.mem_cons_self _ _)) x hm
      · exact ih x hx'

theorem reaches_lt (g : Graph) {f : Nat → List Nat}
    (hrange : ∀ b, b < g.size → ∀ a ∈ f b, a < g.size) {s v : Nat} (hs : s < g.size)
    (h : Reaches f s v) : v < g.size := by
  obtain ⟨p, hp, hh⟩ := h
  subst hh
  exact okPath_mem_lt g hrange hs hp _ (by
    cases hp <;> exact List.mem_cons_self _ _)

/-- From a node on the tail of a traversal path, the head is reachable. -/
theorem okPath_tail_reaches {f : Nat → List Nat} {s : Nat} :
    ∀ {x : Nat} {rest : List Nat}, OkPath f s (x :: rest) → ∀ a ∈ rest, Reaches f a x := by
  intro x rest
  induction rest generalizing x with
  | nil => intro _ a ha; cases ha
  | cons y rest' ih =>
      intro hp a ha
      have hxy : x ∈ f y := by cases hp; assumption
      have hp' : OkPath f s (y :: rest') := by cases hp; assumption
      rcases List.mem_cons.mp ha with rfl | ha'
      · exact reaches_step (reaches_self f a) hxy
      · exact reaches_trans (ih hp' a ha') (reaches_step (reaches_self f y) hxy)

/-- On an acyclic graph, dependency paths never repeat a node. -/
theorem okPath_nodup_of_acyclic (g : Graph) (hac : g.IsAcyclic) {s : Nat} :
    ∀ {p : List Nat}, OkPath g.dependenciesOf s p → p.Nodup := by
  intro p hp
  induction hp with
  | single => exact List.nodup_singleton _
  | cons a b rest hm hp ih =>
      refine List.nodup_cons.mpr ⟨?_, ih⟩
      intro hmem
      rcases List.mem_cons.mp hmem with rfl | hmem'
      · exact hac a a hm (reaches_self _ _)
      · exact hac b a hm (okPath_tail_reaches hp a hmem')

theorem okPath_append_start {f : Nat → List Nat} {s : Nat} :
    ∀ {p : List Nat}, OkPath f s p → ∀ {t : Nat}, s ∈ f t → OkPath f t (p ++ [t]) := by
  intro p hp
  induction hp with
  | single =>
      intro t ht
      exact OkPath.cons s t [] ht OkPath.single
  | cons a b rest hm hp ih =>
      intro t ht
      have := ih ht
      simpa using OkPath.cons a b (rest ++ [t]) hm (by simpa using this)

theorem getRootNodeAux_reaches (g : Graph) :
    ∀ fuel i, Reaches g.dependenciesOf i (getRootNodeAux g fuel i) := by
  intro fuel
  induction fuel with
  | zero => intro i; exact reaches_self _ _
  | succ fuel ih =>
      intro i
      rw [getRootNodeAux]
      cases hd : (g.nodeAt i).dependencies with
      | nil => exact reaches_self _ _
      | cons d rest =>
          refine reaches_trans ?_ (ih d)
          refine reaches_step (reaches_self _ _) ?_
          rw [Graph.dependenciesOf, hd]
          exact List.mem_cons_self _ _

theorem getRootNodeAux_path (g : Graph) :
    ∀ fuel i, (g.nodeAt (getRootNodeAux g fuel i)).dependencies = [] ∨
      ∃ p, OkPath g.dependenciesOf i p ∧ p.headD 0 = getRootNodeAux g fuel i ∧
        p.length = fuel + 1 := by
  intro fuel
  induction fuel with
  | zero =>
      intro i
      exact Or.inr ⟨[i], OkPath.single, rfl, rfl⟩
  | succ fuel ih =>
      intro i
      rw [getRootNodeAux]
      cases hd : (g.nodeAt i).dependencies with
      | nil => exact Or.inl hd
      | cons d rest =>
          rcases ih d with h | ⟨p, hp, hh, hl⟩
          · exact Or.inl h
          · refine Or.inr ⟨p ++ [i], okPath_append_start hp ?_, ?_, ?_⟩
            · rw [Graph.dependenciesOf, hd]
              exact List.mem_cons_self _ _
            · show (p ++ [i]).headD 0 = getRootNodeAux g fuel d
              rw [← hh]
              cases p with
              | nil => cases okPath_ne_nil hp rfl
              | cons x r => rfl
            · show (p ++ [i]).length = fuel + 1 + 1
              rw [List.length_append, hl]
              rfl

/-- Under well-formedness, `getRootNode` lands on the unique root. -/
theorem getRootNode_eq_root (g : Graph) (hwf : g.WellFormed) (c : Nat)
    (hc : c < g.size) (R : Nat) (hR : g.IsRoot R) : g.getRootNode c = R := by
  have hrange : ∀ b, b < g.size → ∀ a ∈ g.dependenciesOf b, a < g.size := by
    intro b hb a ha
    exact hwf.inRange b hb a (List.mem_append_left _ ha)
  have hnodep : (g.nodeAt (g.getRootNode c)).dependencies = [] := by
    rcases getRootNodeAux_path g g.size c with h | ⟨p, hp, hh, hl⟩
    · exact h
    · exfalso
      have hnd : p.Nodup := okPath_nodup_of_acyclic g hwf.acyclic hp
      have hlt : ∀ x ∈ p, x < g.size := okPath_mem_lt g hrange hc hp
      have : p.length ≤ g.size := by
        calc p.length = p.toFinset.card := (List.toFinset_card_of_nodup hnd).symm
          _ ≤ (Finset.range g.size).card := Finset.card_le_card (fun x hx => by
              rw [Finset.mem_range]
              exact hlt x (List.mem_toFinset.mp hx))
          _ = g.size := Finset.card_range _
      omega
  have hreach : Reaches g.dependenciesOf c (g.getRootNode c) :=
    getRootNodeAux_reaches g g.size c
  have hrootlt : g.getRootNode c < g.size := reaches_lt g hrange hc hreach
  have hRr : Reaches g.dependenciesOf (g.getRootNode c) R := hR.2.2 _ hrootlt
  obtain ⟨p, hp, hh⟩ := hRr
  have : p = [g.getRootNode c] := okPath_of_no_exit hp (by
    rw [Graph.dependenciesOf, hnodep])
  rw [this] at hh
  simpa using hh

/-- Edge symmetry turns a dependency path into a dependents path in reverse. -/
theorem reaches_reverse (g : Graph) (hwf : g.WellFormed) {s : Nat} (hs : s < g.size) :
    ∀ {p : List Nat}, OkPath g.dependenciesOf s p →
      Reaches g.dependentsOf (p.headD 0) s := by
  have hrange : ∀ b, b < g.size → ∀ a ∈ g.dependenciesOf b, a < g.size := by
    intro b hb a ha
    exact hwf.inRange b hb a (List.mem_append_left _ ha)
  intro p hp
  induction hp with
  | single => exact reaches_self _ _
  | cons a b rest hm hp ih =>
      have hblt : b < g.size := okPath_mem_lt g hrange hs hp b (List.mem_cons_self _ _)
      have halt : a < g.size := hrange b hblt a hm
      have hsymm : b ∈ g.dependentsOf a := by
        rw [Graph.dependentsOf]
        exact ((hwf.symm b hblt a halt).mp hm)
      exact reaches_trans (reaches_step (reaches_self _ _) hsymm) ih

/-- Under well-formedness every node is dependents-reachable from the root. -/
theorem root_reaches_all (g : Graph) (hwf : g.WellFormed) (R : Nat) (hR : g.IsRoot R) :
    ∀ v, v < g.size → Reaches g.dependentsOf R v := by
  intro v hv
  obtain ⟨p, hp, hh⟩ := hR.2.2 v hv
  have := reaches_reverse g hwf hv hp
  rwa [hh] at this

theorem nodeAt_eq_getElem (g : Graph) (i : Nat) (h : i < g.size) :
    g.nodeAt i = g.nodes.get ⟨i, h⟩ := by
  simp [Graph.nodeAt, List.getD_eq_getElem?_getD, List.getElem?_eq_getElem h]

/-- Unique ids make `idOf` injective on the arena. -/
theorem idOf_inj (g : Graph) (hids : (g.nodes.map (fun nd => nd.id)).Nodup)
    {u w : Nat} (hu : u < g.size) (hw : w < g.size) (h : g.idOf u = g.idOf w) :
    u = w := by
  have hlen : (g.nodes.map (fun nd => nd.id)).length = g.size := by
    rw [List.length_map]; rfl
  have h1 : (g.nodes.map (fun nd => nd.id)).get ⟨u, by omega⟩
      = (g.nodes.map (fun nd => nd.id)).get ⟨w, by omega⟩ := by
    rw [List.get_map, List.get_map]
    rw [Graph.idOf, Graph.idOf, nodeAt_eq_getElem g u hu, nodeAt_eq_getElem g w hw] at h
    exact h
  have := List.Nodup.get_inj_iff hids |>.mp h1
  simpa using this

/-- Unique ids give the distinct-ids hypothesis of `traverse_complete` for any
in-range next-nodes function. -/
theorem wf_hdist (g : Graph) (hids : (g.nodes.map (fun nd => nd.id)).Nodup)
    {f : Nat → List Nat} (hrange : ∀ b, b < g.size → ∀ a ∈ f b, a < g.size)
    {start : Nat} (hstart : start < g.size) :
    ∀ u w, Reaches f start u → Reaches f start w → g.idOf u = g.idOf w → u = w := by
  intro u w hu hw h
  exact idOf_inj g hids (reaches_lt g hrange hstart hu) (reaches_lt g hrange hstart hw) h

/-! ## `idsToInclude` characterization -/

theorem mem_foldl_insertElem_map {α β : Type} [BEq β] [LawfulBEq β] (f : α → β) :
    ∀ (l : List α) (acc : List β) (x : β),
      x ∈ l.foldl (fun a w => insertElem a (f w)) acc ↔
        x ∈ acc ∨ ∃ w, w ∈ l ∧ f w = x := by
  intro l
  induction l with
  | nil => intro acc x; simp
  | cons a rest ih =>
      intro acc x
      rw [List.foldl_cons, ih, mem_insertElem]
      constructor
      · rintro ((h | h) | ⟨w, hw, rfl⟩)
        · exact Or.inl h
        · exact Or.inr ⟨a, List.mem_cons_self _ _, h.symm⟩
        · exact Or.inr ⟨w, List.mem_cons_of_mem _ hw, rfl⟩
      · rintro (h | ⟨w, hw, rfl⟩)
        · exact Or.inl (Or.inl h)
        · rcases List.mem_cons.mp hw with rfl | hw'
          · exact Or.inl (Or.inr rfl)
          · exact Or.inr ⟨w, hw', rfl⟩

theorem mem_idsToInclude (g : Graph) (pred : NodeData → Bool) (root : Nat) (s : String) :
    s ∈ idsToInclude g pred root ↔
      ∃ v, v ∈ g.traverseNodes root g.dependentsOf ∧ pred (g.nodeAt v) = true ∧
        ∃ w, w ∈ g.traverseNodes v g.dependenciesOf ∧ g.idOf w = s := by
  unfold idsToInclude
  have main : ∀ (outer : List Nat) (acc : List String),
      s ∈ outer.foldl (fun acc v =>
        if pred (g.nodeAt v) then
          (g.traverseNodes v g.dependenciesOf).foldl (fun a w => insertElem a (g.idOf w)) acc
        else acc) acc ↔
      s ∈ acc ∨ ∃ v, v ∈ outer ∧ pred (g.nodeAt v) = true ∧
        ∃ w, w ∈ g.traverseNodes v g.dependenciesOf ∧ g.idOf w = s := by
    intro outer
    induction outer with
    | nil => intro acc; simp
    | cons v rest ih =>
        intro acc
        rw [List.foldl_cons]
        by_cases hv : pred (g.nodeAt v)
        · rw [if_pos hv, ih, mem_foldl_insertElem_map]
          constructor
          · rintro ((h | ⟨w, hw, rfl⟩) | ⟨v2, hv2, hp2, w, hw, rfl⟩)
            · exact Or.inl h
            · exact Or.inr ⟨v, List.mem_cons_self _ _, hv, w, hw, rfl⟩
            · exact Or.inr ⟨v2, List.mem_cons_of_mem _ hv2, hp2, w, hw, rfl⟩
          · rintro (h | ⟨v2, hv2, hp2, w, hw, rfl⟩)
            · exact Or.inl (Or.inl h)
            · rcases List.mem_cons.mp hv2 with rfl | hv2'
              · exact Or.inl (Or.inr ⟨w, hw, rfl⟩)
              · exact Or.inr ⟨v2, hv2', hp2, w, hw, rfl⟩
        · rw [if_neg hv, ih]
          constructor
          · rintro (h | ⟨v2, hv2, hp2, w, hw, rfl⟩)
            · exact Or.inl h
            · exact Or.inr ⟨v2, List.mem_cons_of_mem _ hv2, hp2, w, hw, rfl⟩
          · rintro (h | ⟨v2, hv2, hp2, w, hw, rfl⟩)
            · exact Or.inl h
            · rcases List.mem_cons.mp hv2 with rfl | hv2'
              · rw [hp2] at hv; cases hv rfl
              · exact Or.inr ⟨v2, hv2', hp2, w, hw, rfl⟩
  rw [main]
  simp

/-! ## Rank-based discharge of acyclicity and rootedness for concrete graphs -/

theorem rank_le_of_reaches {f : Nat → List Nat} (rank : Nat → Nat)
    (hrank : ∀ b a, a ∈ f b → rank a < rank b) {s v : Nat}
    (h : Reaches f s v) : rank v ≤ rank s := by
  obtain ⟨p, hp, hh⟩ := h
  subst hh
  induction hp with
  | single => exact le_rfl
  | cons a b rest hm _ ih =>
      have := hrank b a hm
      simp only [List.headD_cons] at ih ⊢
      omega

theorem acyclic_of_rank (g : Graph) (rank : Nat → Nat)
    (hrank : ∀ b, ∀ a ∈ (g.nodeAt b).dependencies, rank a < rank b) : g.IsAcyclic := by
  intro v w hw hr
  have h1 : rank v ≤ rank w := rank_le_of_reaches rank
    (fun b a ha => hrank b a ha) hr
  have h2 : rank w < rank v := hrank v w hw
  omega

theorem isRoot_of_rank (g : Graph) (R : Nat) (rank : Nat → Nat)
    (hR : R < g.size) (hdep : (g.nodeAt R).dependencies = [])
    (hrange : ∀ v, v < g.size → ∀ w ∈ (g.nodeAt v).dependencies, w < g.size)
    (hrank : ∀ v, ∀ w ∈ (g.nodeAt v).dependencies, rank w < rank v)
    (hne : ∀ v, v < g.size → v ≠ R → (g.nodeAt v).dependencies ≠ []) :
    g.IsRoot R := by
  refine ⟨hR, hdep, ?_⟩
  have main : ∀ r v, v < g.size → rank v ≤ r → Reaches g.dependenciesOf v R := by
    intro r
    induction r with
    | zero =>
        intro v hv hr
        by_cases hvR : v = R
        · subst hvR
          exact reaches_self _ _
        · cases hd : (g.nodeAt v).dependencies with
          | nil => exact absurd hd (hne v hv hvR)
          | cons w ws =>
              have hwlt : rank w < rank v := hrank v w (by
                rw [hd]; exact List.mem_cons_self _ _)
              omega
    | succ r ih =>
        intro v hv hr
        by_cases hvR : v = R
        · subst hvR
          exact reaches_self _ _
        · cases hd : (g.nodeAt v).dependencies with
          | nil => exact absurd hd (hne v hv hvR)
          | cons w ws =>
              have hwmem : w ∈ (g.nodeAt v).dependencies := by
                rw [hd]; exact List.mem_cons_self _ _
              have hwlt : rank w < rank v := hrank v w hwmem
              have hwsz : w < g.size := hrange v hv w hwmem
              have hstep : Reaches g.dependenciesOf v w :=
                reaches_step (reaches_self _ _) (by
                  rw [Graph.dependenciesOf]; exact hwmem)
              exact reaches_trans hstep (ih w hwsz (by omega))
  intro v hv
  exact main (rank v) v hv le_rfl

/-! ## Successful cloning on well-formed graphs -/

theorem wireDeps_ok (g : Graph) (m : List (String × Nat)) :
    ∀ (deps : List Nat) (j : Nat) (h : Graph),
      (∀ d ∈ deps, g.idOf d ∈ m.map Prod.fst) →
      ∃ h', wireDeps g m (some j) deps h = Except.ok h' := by
  intro deps
  induction deps with
  | nil => intro j h _; exact ⟨h, rfl⟩
  | cons d rest ih =>
      intro j h hmem
      obtain ⟨jd, hlk⟩ := lookupId_isSome m (g.idOf d) (hmem d (List.mem_cons_self _ _))
      rw [wireDeps_cons_eq, hlk]
      exact ih j (h.addDependency j jd) (fun d2 hd2 => hmem d2 (List.mem_cons_of_mem _ hd2))

theorem clonePhase4_ok (g : Graph) (incl : Nat → Bool) (m : List (String × Nat)) :
    ∀ (order : List Nat) (h : Graph),
      (∀ i ∈ order, incl i = true →
        g.idOf i ∈ m.map Prod.fst ∧
        ∀ d ∈ (g.nodeAt i).dependencies, g.idOf d ∈ m.map Prod.fst) →
      ∃ h', clonePhase4 g incl m order h = Except.ok h' := by
  intro order
  induction order with
  | nil => intro h _; exact ⟨h, rfl⟩
  | cons i rest ih =>
      intro h hmem
      rw [clonePhase4_cons_eq]
      by_cases hi : incl i
      · rw [if_pos hi]
        obtain ⟨hk, hd⟩ := hmem i (List.mem_cons_self _ _) hi
        obtain ⟨j, hlk⟩ := lookupId_isSome m (g.idOf i) hk
        rw [hlk]
        obtain ⟨h1, hwd⟩ := wireDeps_ok g m (g.nodeAt i).dependencies j h hd
        rw [hwd]
        exact ih h1 (fun i2 hi2 hinc => hmem i2 (List.mem_cons_of_mem _ hi2) hinc)
      · rw [if_neg hi]
        exact ih h (fun i2 hi2 hinc => hmem i2 (List.mem_cons_of_mem _ hi2) hinc)

theorem wf_depts_range (g : Graph) (hwf : g.WellFormed) :
    ∀ b, b < g.size → ∀ a ∈ g.dependentsOf b, a < g.size := by
  intro b hb a ha
  exact hwf.inRange b hb a (List.mem_append_right _ ha)

theorem wf_deps_range (g : Graph) (hwf : g.WellFormed) :
    ∀ b, b < g.size → ∀ a ∈ g.dependenciesOf b, a < g.size := by
  intro b hb a ha
  exact hwf.inRange b hb a (List.mem_append_left _ ha)

/-- On a well-formed graph, the clone's traversal order is exactly the arena. -/
theorem wf_order_mem (g : Graph) (hwf : g.WellFormed) (c : Nat) (hc : c < g.size) :
    ∀ v, v ∈ g.traverseNodes (g.getRootNode c) g.dependentsOf ↔ v < g.size := by
  obtain ⟨R, hR⟩ := hwf.rooted
  have hroot : g.getRootNode c = R := getRootNode_eq_root g hwf c hc R hR
  intro v
  constructor
  · intro hv
    have := traverse_sound g g.dependentsOf _ v hv
    rw [hroot] at this
    exact reaches_lt g (wf_depts_range g hwf) hR.1 this
  · intro hv
    rw [hroot]
    apply traverse_complete g g.dependentsOf R
      (wf_hdist g hwf.uniqueIds (wf_depts_range g hwf) hR.1)
    exact root_reaches_all g hwf R hR v hv

/-- On a well-formed graph the inclusion predicate is closed under taking
dependencies (the inner dependency walks of `idsToInclude` visit complete
dependency-reachable sets). -/
theorem wf_incl_closure (g : Graph) (hwf : g.WellFormed) (c : Nat) (hc : c < g.size)
    (pred : Option (NodeData → Bool)) :
    ∀ i, i < g.size → shouldIncludeNode g pred (g.getRootNode c) i = true →
      ∀ d ∈ (g.nodeAt i).dependencies, shouldIncludeNode g pred (g.getRootNode c) d = true := by
  intro i hi hinc d hd
  cases pred with
  | none => rfl
  | some p =>
      rw [shouldIncludeNode, contains_iff_memList] at hinc ⊢
      rw [mem_idsToInclude] at hinc ⊢
      obtain ⟨v, hvord, hpv, w, hw, hwid⟩ := hinc
      have hvlt : v < g.size := (wf_order_mem g hwf c hc v).mp hvord
      have hreachw : Reaches g.dependenciesOf v w :=
        traverse_sound g g.dependenciesOf v w hw
      have hwlt : w < g.size := reaches_lt g (wf_deps_range g hwf) hvlt hreachw
      have hwi : w = i := idOf_inj g hwf.uniqueIds hwlt hi hwid
      subst hwi
      have hreachd : Reaches g.dependenciesOf v d :=
        reaches_step hreachw (by rw [Graph.dependenciesOf]; exact hd)
      have hdmem : d ∈ g.traverseNodes v g.dependenciesOf :=
        traverse_complete g g.dependenciesOf v
          (wf_hdist g hwf.uniqueIds (wf_deps_range g hwf) hvlt) d hreachd
      exact ⟨v, hvord, hpv, d, hdmem, rfl⟩

/-- On a well-formed graph, a node's id is a key of the clone map exactly when
the node is included. -/
theorem wf_key_iff (g : Graph) (hwf : g.WellFormed) (c : Nat) (hc : c < g.size)
    (pred : Option (NodeData → Bool)) :
    ∀ v, v < g.size →
      (g.idOf v ∈ (clonePhase3 g (g.traverseNodes (g.getRootNode c) g.dependentsOf)
        (fun i => shouldIncludeNode g pred (g.getRootNode c) i)).2.map Prod.fst ↔
       shouldIncludeNode g pred (g.getRootNode c) v = true) := by
  intro v hv
  obtain ⟨_, _, _, hkiff, _, _⟩ :=
    clonePhase3_main g (g.getRootNode c) (fun i => shouldIncludeNode g pred (g.getRootNode c) i)
  rw [hkiff]
  constructor
  · rintro ⟨i, hiord, hinc, hid⟩
    have hilt : i < g.size := (wf_order_mem g hwf c hc i).mp hiord
    have : i = v := idOf_inj g hwf.uniqueIds hilt hv hid
    subst this
    exact hinc
  · intro hinc
    exact ⟨v, (wf_order_mem g hwf c hc v).mpr hv, hinc, rfl⟩

/-- On a well-formed graph, the re-wiring pass always succeeds (every included
node and all of its dependencies have clones in the map). -/
theorem wf_phase4_ok (g : Graph) (hwf : g.WellFormed) (c : Nat) (hc : c < g.size)
    (pred : Option (NodeData → Bool)) :
    ∃ h', clonePhase4 g (fun i => shouldIncludeNode g pred (g.getRootNode c) i)
      (clonePhase3 g (g.traverseNodes (g.getRootNode c) g.dependentsOf)
        (fun i => shouldIncludeNode g pred (g.getRootNode c) i)).2
      (g.traverseNodes (g.getRootNode c) g.dependentsOf)
      (clonePhase3 g (g.traverseNodes (g.getRootNode c) g.dependentsOf)
        (fun i => shouldIncludeNode g pred (g.getRootNode c) i)).1
      = Except.ok h' := by
  apply clonePhase4_ok
  intro i hiord hinc
  have hilt : i < g.size := (wf_order_mem g hwf c hc i).mp hiord
  constructor
  · exact (wf_key_iff g hwf c hc pred i hilt).mpr hinc
  · intro d hd
    have hdlt : d < g.size := hwf.inRange i hilt d (List.mem_append_left _ hd)
    exact (wf_key_iff g hwf c hc pred d hdlt).mpr
      (wf_incl_closure g hwf c hc pred i hilt hinc d hd)

theorem cloneWithRelationships_ok_of (g : Graph) (c : Nat) (pred : Option (NodeData → Bool))
    (h' : Graph) (j : Nat)
    (hph4 : clonePhase4 g (fun i => shouldIncludeNode g pred (g.getRootNode c) i)
      (clonePhase3 g (g.traverseNodes (g.getRootNode c) g.dependentsOf)
        (fun i => shouldIncludeNode g pred (g.getRootNode c) i)).2
      (g.traverseNodes (g.getRootNode c) g.dependentsOf)
      (clonePhase3 g (g.traverseNodes (g.getRootNode c) g.dependentsOf)
        (fun i => shouldIncludeNode g pred (g.getRootNode c) i)).1 = Except.ok h')
    (hlk : lookupId (clonePhase3 g (g.traverseNodes (g.getRootNode c) g.dependentsOf)
      (fun i => shouldIncludeNode g pred (g.getRootNode c) i)).2 (g.idOf c) = some j) :
    g.cloneWithRelationships c pred = Except.ok ⟨h',
      (clonePhase3 g (g.traverseNodes (g.getRootNode c) g.dependentsOf)
        (fun i => shouldIncludeNode g pred (g.getRootNode c) i)).2, j⟩ := by
  unfold Graph.cloneWithRelationships
  simp only []
  rw [hph4, hlk]

theorem cloneWithRelationships_error_of (g : Graph) (c : Nat)
    (pred : Option (NodeData → Bool)) (h' : Graph)
    (hph4 : clonePhase4 g (fun i => shouldIncludeNode g pred (g.getRootNode c) i)
      (clonePhase3 g (g.traverseNodes (g.getRootNode c) g.dependentsOf)
        (fun i => shouldIncludeNode g pred (g.getRootNode c) i)).2
      (g.traverseNodes (g.getRootNode c) g.dependentsOf)
      (clonePhase3 g (g.traverseNodes (g.getRootNode c) g.dependentsOf)
        (fun i => shouldIncludeNode g pred (g.getRootNode c) i)).1 = Except.ok h')
    (hlk : lookupId (clonePhase3 g (g.traverseNodes (g.getRootNode c) g.dependentsOf)
      (fun i => shouldIncludeNode g pred (g.getRootNode c) i)).2 (g.idOf c) = none) :
    g.cloneWithRelationships c pred = Except.error "Cloned graph missing node" := by
  unfold Graph.cloneWithRelationships
  simp only []
  rw [hph4, hlk]

/-- Lift a size-bounded rank certificate to all arena indices (out-of-range
cells are the default node, which has no edges). -/
theorem rank_bound_lift (g : Graph) (rank : Nat → Nat)
    (h : ∀ b, b < g.size → ∀ a ∈ (g.nodeAt b).dependencies, rank a < rank b) :
    ∀ b, ∀ a ∈ (g.nodeAt b).dependencies, rank a < rank b := by
  intro b a ha
  by_cases hb : b < g.size
  · exact h b hb a ha
  · rw [nodeAt_oob g b hb] at ha
    exact absurd ha (List.not_mem_nil a)

/-- The 4-node chain is well formed (rank certificate: the index itself). -/
theorem chainGraph4_wf : (chainGraph 4).WellFormed := by
  refine ⟨?_, ?_, ?_, ?_, ?_, ?_⟩
  · decide
  · decide
  · decide
  · decide
  · exact acyclic_of_rank _ id (rank_bound_lift _ id (by decide))
  · exact ⟨0, isRoot_of_rank _ 0 id (by decide) (by decide) (by decide)
      (rank_bound_lift _ id (by decide)) (by decide)⟩

/-- **C6.** On a well-formed graph, `cloneWithRelationships` throws the fatal
`Cloned graph missing node` error exactly when the calling node's id is absent
from the clone map after filtering; with no predicate the error branch is
unreachable (the call succeeds); and every error the function can produce is
that very error, occurring only because a supplied predicate's inclusion set
excludes the calling node's id — never a silent partial result. -/
theorem claim_C6 (g : Graph) (hwf : g.WellFormed) (c : Nat) (hc : c < g.size)
    (pred : Option (NodeData → Bool)) :
    (g.cloneWithRelationships c pred = Except.error "Cloned graph missing node" ↔
      g.idOf c ∉ (clonePhase3 g (g.traverseNodes (g.getRootNode c) g.dependentsOf)
        (fun i => shouldIncludeNode g pred (g.getRootNode c) i)).2.map Prod.fst) ∧
    (pred = none → ∃ r, g.cloneWithRelationships c pred = Except.ok r) ∧
    (∀ e, g.cloneWithRelationships c pred = Except.error e →
      e = "Cloned graph missing node" ∧
      ∃ p, pred = some p ∧ g.idOf c ∉ idsToInclude g p (g.getRootNode c)) := by
  obtain ⟨h', hph4⟩ := wf_phase4_ok g hwf c hc pred
  have hkeyiff := wf_key_iff g hwf c hc pred c hc
  refine ⟨⟨?_, ?_⟩, ?_, ?_⟩
  · intro herr hkey
    obtain ⟨j, hlk⟩ := lookupId_isSome _ _ hkey
    have hok := cloneWithRelationships_ok_of g c pred h' j hph4 hlk
    rw [hok] at herr
    cases herr
  · intro hkey
    exact cloneWithRelationships_error_of g c pred h' hph4
      ((lookupId_eq_none_iff _ _).mpr hkey)
  · rintro rfl
    have hkey := hkeyiff.mpr rfl
    obtain ⟨j, hlk⟩ := lookupId_isSome _ _ hkey
    exact ⟨_, cloneWithRelationships_ok_of g c none h' j hph4 hlk⟩
  · intro e herr
    cases hlk : lookupId (clonePhase3 g (g.traverseNodes (g.getRootNode c) g.dependentsOf)
        (fun i => shouldIncludeNode g pred (g.getRootNode c) i)).2 (g.idOf c) with
    | some j =>
        have hok := cloneWithRelationships_ok_of g c pred h' j hph4 hlk
        rw [hok] at herr
        cases herr
    | none =>
        have herr2 := cloneWithRelationships_error_of g c pred h' hph4 hlk
        rw [herr2] at herr
        injection herr with he
        refine ⟨he.symm, ?_⟩
        have hkey : g.idOf c ∉ (clonePhase3 g
            (g.traverseNodes (g.getRootNode c) g.dependentsOf)
            (fun i => shouldIncludeNode g pred (g.getRootNode c) i)).2.map Prod.fst :=
          (lookupId_eq_none_iff _ _).mp hlk
        have hninc : ¬ shouldIncludeNode g pred (g.getRootNode c) c = true :=
          fun hi => hkey (hkeyiff.mpr hi)
        cases pred with
        | none => exact absurd rfl hninc
        | some p =>
            refine ⟨p, rfl, fun hmem => hninc ?_⟩
            show (idsToInclude g p (g.getRootNode c)).contains (g.idOf c) = true
            exact (contains_iff_memList _ _).mpr hmem

theorem claim_C6_witness :
    (chainGraph 4).WellFormed ∧ 3 < (chainGraph 4).size ∧
    (∃ r, (chainGraph 4).cloneWithRelationships 3 none = Except.ok r) ∧
    (chainGraph 4).cloneWithRelationships 3 (some (fun nd => nd.id == "0"))
      = Except.error "Cloned graph missing node" := by
  refine ⟨chainGraph4_wf, by decide, ?_, ?_⟩
  · exact (claim_C6 (chainGraph 4) chainGraph4_wf 3 (by decide) none).2.1 rfl
  · exact (claim_C6 (chainGraph 4) chainGraph4_wf 3 (by decide)
      (some (fun nd => nd.id == "0"))).1.mpr (by decide)

/-- **C5.** On a graph maintaining the documented model invariants, filtered
cloning retains every node backward-reachable along dependency edges from any
predicate-satisfying node, whether or not those nodes pass the predicate
themselves: the reached node's id lands in `idsToInclude`, and in the clone map
of every successful clone. -/
theorem claim_C5 (g : Graph) (hwf : g.WellFormed) (c : Nat) (hc : c < g.size)
    (p : NodeData → Bool) (X Y : Nat) (hX : X < g.size) (hpX : p (g.nodeAt X) = true)
    (hreach : Reaches g.dependenciesOf X Y) :
    g.idOf Y ∈ idsToInclude g p (g.getRootNode c) ∧
    ∀ r, g.cloneWithRelationships c (some p) = Except.ok r →
      g.idOf Y ∈ r.map.map Prod.fst := by
  have hXord : X ∈ g.traverseNodes (g.getRootNode c) g.dependentsOf :=
    (wf_order_mem g hwf c hc X).mpr hX
  have hYmem : Y ∈ g.traverseNodes X g.dependenciesOf :=
    traverse_complete g g.dependenciesOf X
      (wf_hdist g hwf.uniqueIds (wf_deps_range g hwf) hX) Y hreach
  have hincl : g.idOf Y ∈ idsToInclude g p (g.getRootNode c) :=
    (mem_idsToInclude g p (g.getRootNode c) (g.idOf Y)).mpr
      ⟨X, hXord, hpX, Y, hYmem, rfl⟩
  refine ⟨hincl, ?_⟩
  intro r hok
  have hYlt : Y < g.size := reaches_lt g (wf_deps_range g hwf) hX hreach
  obtain ⟨hmap, _, _⟩ := cloneWithRelationships_ok_parts g c (some p) r hok
  rw [hmap]
  apply (wf_key_iff g hwf c hc (some p) Y hYlt).mpr
  show (idsToInclude g p (g.getRootNode c)).contains (g.idOf Y) = true
  exact (contains_iff_memList _ _).mpr hincl

theorem claim_C5_witness :
    (chainGraph 4).WellFormed ∧ 3 < (chainGraph 4).size ∧
    (fun nd => nd.id == "3") ((chainGraph 4).nodeAt 3) = true ∧
    ((chainGraph 4).idOf 0 ∈ idsToInclude (chainGraph 4) (fun nd => nd.id == "3")
        ((chainGraph 4).getRootNode 3) ∧
      ∀ r, (chainGraph 4).cloneWithRelationships 3 (some (fun nd => nd.id == "3"))
          = Except.ok r →
        (chainGraph 4).idOf 0 ∈ r.map.map Prod.fst) := by
  refine ⟨chainGraph4_wf, by decide, by decide, ?_⟩
  have h3 : Reaches (chainGraph 4).dependenciesOf 3 3 := reaches_self _ 3
  have h2 : Reaches (chainGraph 4).dependenciesOf 3 2 := reaches_step h3 (by decide)
  have h1 : Reaches (chainGraph 4).dependenciesOf 3 1 := reaches_step h2 (by decide)
  have h0 : Reaches (chainGraph 4).dependenciesOf 3 0 := reaches_step h1 (by decide)
  exact claim_C5 (chainGraph 4) chainGraph4_wf 3 (by decide) (fun nd => nd.id == "3")
    3 0 (by decide) (by decide) h0

/-! ## Phase-4 wiring: full description of the clone's dependency lists -/

theorem addDependency_deps_self (g : Graph) (s t : Nat) (hs : s < g.size)
    (ht : t ∉ (g.nodeAt s).dependencies) :
    ((g.addDependency s t).nodeAt s).dependencies
      = (g.nodeAt s).dependencies ++ [t] := by
  unfold Graph.addDependency
  rw [if_neg (fun hc => ht ((contains_iff_memList _ _).mp hc))]
  simp only []
  rw [nodeAt_setNode_self _ _ _ (by rw [size_setNode]; exact hs)]
  by_cases hst : s = t
  · subst hst
    rw [nodeAt_setNode_self _ _ _ hs]
  · rw [nodeAt_setNode_ne _ _ _ _ hst]

theorem addDependency_deps_other (g : Graph) (s t v : Nat) (hv : v ≠ s) :
    ((g.addDependency s t).nodeAt v).dependencies = (g.nodeAt v).dependencies := by
  unfold Graph.addDependency
  split
  · rfl
  · simp only []
    rw [nodeAt_setNode_ne _ _ _ _ hv]
    by_cases hvt : v = t
    · subst hvt
      by_cases htl : v < g.size
      · rw [nodeAt_setNode_self _ _ _ htl]
      · rw [nodeAt_setNode_oob _ _ _ htl]
    · rw [nodeAt_setNode_ne _ _ _ _ hvt]

/-- Duplicate-free values make the value of a map entry determine the entry. -/
theorem values_nodup_entry_eq : ∀ (m : List (String × Nat)),
    ((m.map Prod.snd).Nodup) → ∀ e ∈ m, ∀ e2 ∈ m, e.2 = e2.2 → e = e2 := by
  intro m
  induction m with
  | nil => intro _ e he; cases he
  | cons e0 tl ih =>
      intro hnd e he e2 he2 hv
      rw [List.map_cons, List.nodup_cons] at hnd
      rcases List.mem_cons.mp he with he0 | he'
      · rcases List.mem_cons.mp he2 with he20 | he2'
        · rw [he0, he20]
        · exfalso
          apply hnd.1
          rw [← he0, hv]
          exact List.mem_map_of_mem Prod.snd he2'
      · rcases List.mem_cons.mp he2 with he20 | he2'
        · exfalso
          apply hnd.1
          rw [← he20, ← hv]
          exact List.mem_map_of_mem Prod.snd he'
        · exact ih hnd.2 e he' e2 he2' hv

/-- Duplicate-free keys make every map entry recoverable by lookup. -/
theorem lookupId_of_mem_nodup : ∀ (m : List (String × Nat)),
    ((m.map Prod.fst).Nodup) → ∀ e ∈ m, lookupId m e.1 = some e.2 := by
  intro m
  induction m with
  | nil => intro _ e he; cases he
  | cons e0 tl ih =>
      intro hnd e he
      rw [List.map_cons, List.nodup_cons] at hnd
      rcases List.mem_cons.mp he with rfl | he
      · unfold lookupId
        rw [List.find?_cons_of_pos _ (by simp)]
        rfl
      · unfold lookupId
        rw [List.find?_cons_of_neg]
        · exact ih hnd.2 e he
        · simp only [beq_iff_eq]
          intro hc
          apply hnd.1
          rw [hc]
          exact List.mem_map_of_mem Prod.fst he

theorem mem_ids_iff (g : Graph) (s : String) :
    s ∈ g.nodes.map (fun nd => nd.id) ↔ ∃ i, i < g.size ∧ g.idOf i = s := by
  rw [List.mem_map]
  constructor
  · rintro ⟨nd, hnd, rfl⟩
    obtain ⟨n, hn⟩ := List.mem_iff_get.mp hnd
    refine ⟨n.1, n.2, ?_⟩
    rw [Graph.idOf, nodeAt_eq_getElem g n.1 n.2, hn]
  · rintro ⟨i, hi, rfl⟩
    exact ⟨g.nodes.get ⟨i, hi⟩, List.get_mem g.nodes i hi,
      by rw [Graph.idOf, nodeAt_eq_getElem g i hi]⟩

/-- Full wiring result of `wireDeps`: with all lookups defined, pairwise
distinct images and images absent from the target's current list, every image
is appended in order and no other node's dependency list changes. -/
theorem wireDeps_wired (g : Graph) (m : List (String × Nat)) (j : Nat) :
    ∀ (ds : List Nat) (h : Graph), j < h.size →
      (∀ d ∈ ds, (lookupId m (g.idOf d)).isSome) →
      ((ds.map (fun d => (lookupId m (g.idOf d)).getD 0)).Nodup) →
      (∀ x ∈ ds.map (fun d => (lookupId m (g.idOf d)).getD 0),
        x ∉ (h.nodeAt j).dependencies) →
      ∃ h', wireDeps g m (some j) ds h = Except.ok h' ∧
        (h'.nodeAt j).dependencies
          = (h.nodeAt j).dependencies ++ ds.map (fun d => (lookupId m (g.idOf d)).getD 0) ∧
        (∀ v, v ≠ j → (h'.nodeAt v).dependencies = (h.nodeAt v).dependencies) ∧
        h'.size = h.size := by
  intro ds
  induction ds with
  | nil =>
      intro h hj _ _ _
      exact ⟨h, rfl, by simp, fun v _ => rfl, rfl⟩
  | cons d rest ih =>
      intro h hj hlk hnd hfresh
      have hsome := hlk d (List.mem_cons_self _ _)
      obtain ⟨jd, hjd⟩ := Option.isSome_iff_exists.mp hsome
      rw [List.map_cons] at hnd hfresh
      have hjdv : (lookupId m (g.idOf d)).getD 0 = jd := by rw [hjd]; rfl
      rw [List.nodup_cons] at hnd
      have hfr0 : jd ∉ (h.nodeAt j).dependencies := by
        have := hfresh _ (List.mem_cons_self _ _)
        rwa [hjdv] at this
      have hds : ((h.addDependency j jd).nodeAt j).dependencies
          = (h.nodeAt j).dependencies ++ [jd] := addDependency_deps_self h j jd hj hfr0
      obtain ⟨h', hw, hdj, hother, hsz⟩ := ih (h.addDependency j jd)
        (by rw [size_addDependency]; exact hj)
        (fun d2 hd2 => hlk d2 (List.mem_cons_of_mem _ hd2))
        hnd.2
        (by
          intro x hx
          rw [hds, List.mem_append, List.mem_singleton]
          rintro (hx1 | rfl)
          · exact hfresh x (List.mem_cons_of_mem _ hx) hx1
          · exact hnd.1 (by rw [← hjdv] at hx; exact hx))
      refine ⟨h', ?_, ?_, ?_, ?_⟩
      · rw [wireDeps_cons_eq, hjd]
        exact hw
      · rw [hdj, hds, List.map_cons, hjdv, List.append_assoc]
        rfl
      · intro v hv
        rw [hother v hv, addDependency_deps_other h j jd v hv]
      · rw [hsz, size_addDependency]

/-- Full wiring result of the re-wiring pass: with an everywhere-defined,
injective clone map and a duplicate-free order of included in-range nodes whose
clones start with empty dependency lists, the pass succeeds and wires each
clone with exactly the images of its original's dependencies, in order. -/
theorem clonePhase4_wired (g : Graph) (m : List (String × Nat)) (jOf : Nat → Nat)
    (incl : Nat → Bool)
    (hlk : ∀ i, i < g.size → lookupId m (g.idOf i) = some (jOf i))
    (hjinj : ∀ a, a < g.size → ∀ b, b < g.size → jOf a = jOf b → a = b)
    (hdeps_lt : ∀ i, i < g.size → ∀ d ∈ (g.nodeAt i).dependencies, d < g.size)
    (hdeps_nd : ∀ i, i < g.size → (g.nodeAt i).dependencies.Nodup) :
    ∀ (order : List Nat) (h : Graph),
      order.Nodup →
      (∀ i ∈ order, i < g.size ∧ incl i = true) →
      (∀ i ∈ order, jOf i < h.size) →
      (∀ i ∈ order, (h.nodeAt (jOf i)).dependencies = []) →
      ∃ h', clonePhase4 g incl m order h = Except.ok h' ∧
        (∀ i ∈ order, (h'.nodeAt (jOf i)).dependencies
          = (g.nodeAt i).dependencies.map jOf) ∧
        (∀ v, (∀ i ∈ order, v ≠ jOf i) →
          (h'.nodeAt v).dependencies = (h.nodeAt v).dependencies) ∧
        h'.size = h.size := by
  intro order
  induction order with
  | nil =>
      intro h _ _ _ _
      exact ⟨h, rfl, fun i hi => absurd hi (List.not_mem_nil i), fun v _ => rfl, rfl⟩
  | cons i rest ih =>
      intro h hnd hmem hjlt hempty
      rw [List.nodup_cons] at hnd
      obtain ⟨hi_lt, hi_incl⟩ := hmem i (List.mem_cons_self _ _)
      have himg : (g.nodeAt i).dependencies.map (fun d => (lookupId m (g.idOf d)).getD 0)
          = (g.nodeAt i).dependencies.map jOf := by
        apply List.map_congr_left
        intro d hd
        rw [hlk d (hdeps_lt i hi_lt d hd)]
        rfl
      obtain ⟨h1, hw, hd1, hother1, hsz1⟩ := wireDeps_wired g m (jOf i)
        (g.nodeAt i).dependencies h (hjlt i (List.mem_cons_self _ _))
        (fun d hd => by rw [hlk d (hdeps_lt i hi_lt d hd)]; rfl)
        (by
          rw [himg]
          exact List.Nodup.map_on
            (fun x hx y hy hxy => hjinj x (hdeps_lt i hi_lt x hx) y
              (hdeps_lt i hi_lt y hy) hxy)
            (hdeps_nd i hi_lt))
        (by
          intro x hx
          rw [hempty i (List.mem_cons_self _ _)]
          exact List.not_mem_nil x)
      have hwired_i : (h1.nodeAt (jOf i)).dependencies
          = (g.nodeAt i).dependencies.map jOf := by
        rw [hd1, hempty i (List.mem_cons_self _ _), himg, List.nil_append]
      obtain ⟨h', hrec, hrecw, hrecother, hrecsz⟩ := ih h1
        hnd.2
        (fun i2 hi2 => hmem i2 (List.mem_cons_of_mem _ hi2))
        (fun i2 hi2 => by rw [hsz1]; exact hjlt i2 (List.mem_cons_of_mem _ hi2))
        (fun i2 hi2 => by
          have hne : jOf i2 ≠ jOf i := by
            intro hcon
            have hee := hjinj i2 (hmem i2 (List.mem_cons_of_mem _ hi2)).1 i hi_lt hcon
            rw [hee] at hi2
            exact hnd.1 hi2
          rw [hother1 (jOf i2) hne]
          exact hempty i2 (List.mem_cons_of_mem _ hi2))
      refine ⟨h', ?_, ?_, ?_, ?_⟩
      · rw [clonePhase4_cons_eq, if_pos hi_incl, hlk i hi_lt, hw]
        exact hrec
      · intro i2 hi2
        rcases List.mem_cons.mp hi2 with he | hi2'
        · subst he
          have hne : ∀ i3 ∈ rest, jOf i2 ≠ jOf i3 := by
            intro i3 h3 hcon
            have hee := hjinj i2 hi_lt i3 (hmem i3 (List.mem_cons_of_mem _ h3)).1 hcon
            apply hnd.1
            rw [hee]
            exact h3
          rw [hrecother (jOf i2) hne]
          exact hwired_i
        · exact hrecw i2 hi2'
      · intro v hv
        rw [hrecother v (fun i3 h3 => hv i3 (List.mem_cons_of_mem _ h3)),
            hother1 v (hv i (List.mem_cons_self _ _))]
      · rw [hrecsz, hsz1]

theorem range_map_nodeAt (g : Graph) (f : NodeData → Nat) :
    (List.range g.size).map (fun i => f (g.nodeAt i)) = g.nodes.map f := by
  apply List.ext_getElem
  · rw [List.length_map, List.length_range, List.length_map]
    rfl
  · intro n h1 h2
    rw [List.getElem_map, List.getElem_map, List.getElem_range]
    have hn : n < g.size := by
      rw [List.length_map, List.length_range] at h1
      exact h1
    rw [nodeAt_eq_getElem g n hn]
    rfl

/-- **C4.** On a well-formed graph, `cloneWithRelationships` with no predicate
or an always-true predicate succeeds and returns a clone with the same node
count, the same id set, and the same total number of dependency edges as the
original, with every clone living at a fresh heap index (no shared node
identity with the original). -/
theorem claim_C4 (g : Graph) (hwf : g.WellFormed) (c : Nat) (hc : c < g.size)
    (pred : Option (NodeData → Bool))
    (hpred : pred = none ∨ pred = some (fun _ => true)) :
    ∃ r, g.cloneWithRelationships c pred = Except.ok r ∧
      r.map.length = g.size ∧
      (∀ s, s ∈ r.map.map Prod.fst ↔ s ∈ g.nodes.map (fun nd => nd.id)) ∧
      (r.map.map (fun e => ((r.heap.nodeAt e.2).dependencies).length)).sum
        = (g.nodes.map (fun nd => nd.dependencies.length)).sum ∧
      (∀ e ∈ r.map, g.size ≤ e.2 ∧ e.2 < r.heap.size) := by
  have hordiff := wf_order_mem g hwf c hc
  have hordnd : (g.traverseNodes (g.getRootNode c) g.dependentsOf).Nodup :=
    List.Nodup.of_map g.idOf (traverse_ids_nodup g (g.getRootNode c) g.dependentsOf)
  have hincl_true : ∀ i, i < g.size →
      shouldIncludeNode g pred (g.getRootNode c) i = true := by
    rcases hpred with rfl | rfl
    · intro i _
      rfl
    · intro i hi
      show (idsToInclude g (fun _ => true) (g.getRootNode c)).contains (g.idOf i) = true
      apply (contains_iff_memList _ _).mpr
      apply (mem_idsToInclude g _ (g.getRootNode c) (g.idOf i)).mpr
      exact ⟨i, (hordiff i).mpr hi, rfl, i,
        List.mem_map.mpr ⟨[i], traverse_start_mem g g.dependenciesOf i, rfl⟩, rfl⟩
  obtain ⟨⟨cl, hheap⟩, hbounds, hvalnd, hkiff, hcontents, hlen3⟩ :=
    clonePhase3_main g (g.getRootNode c)
      (fun i => shouldIncludeNode g pred (g.getRootNode c) i)
  have hknd : (((clonePhase3 g (g.traverseNodes (g.getRootNode c) g.dependentsOf)
      (fun i => shouldIncludeNode g pred (g.getRootNode c) i)).2).map Prod.fst).Nodup :=
    clonePhase3_keys_nodup g (fun i => shouldIncludeNode g pred (g.getRootNode c) i)
      (g.traverseNodes (g.getRootNode c) g.dependentsOf) g [] List.nodup_nil
  have hkey : ∀ i, i < g.size →
      g.idOf i ∈ ((clonePhase3 g (g.traverseNodes (g.getRootNode c) g.dependentsOf)
        (fun i => shouldIncludeNode g pred (g.getRootNode c) i)).2).map Prod.fst :=
    fun i hi => (wf_key_iff g hwf c hc pred i hi).mpr (hincl_true i hi)
  have hlk : ∀ i, i < g.size →
      lookupId (clonePhase3 g (g.traverseNodes (g.getRootNode c) g.dependentsOf)
        (fun i => shouldIncludeNode g pred (g.getRootNode c) i)).2 (g.idOf i)
      = some ((lookupId (clonePhase3 g (g.traverseNodes (g.getRootNode c) g.dependentsOf)
        (fun i => shouldIncludeNode g pred (g.getRootNode c) i)).2 (g.idOf i)).getD 0) := by
    intro i hi
    obtain ⟨j, hj⟩ := lookupId_isSome _ _ (hkey i hi)
    rw [hj]
    rfl
  have hentry : ∀ i, i < g.size →
      (g.idOf i, (lookupId (clonePhase3 g (g.traverseNodes (g.getRootNode c) g.dependentsOf)
        (fun i => shouldIncludeNode g pred (g.getRootNode c) i)).2 (g.idOf i)).getD 0)
      ∈ (clonePhase3 g (g.traverseNodes (g.getRootNode c) g.dependentsOf)
        (fun i => shouldIncludeNode g pred (g.getRootNode c) i)).2 :=
    fun i hi => (lookupId_mem _ (g.idOf i) _ (hlk i hi)).1
  have hjinj : ∀ a, a < g.size → ∀ b, b < g.size →
      (lookupId (clonePhase3 g (g.traverseNodes (g.getRootNode c) g.dependentsOf)
        (fun i => shouldIncludeNode g pred (g.getRootNode c) i)).2 (g.idOf a)).getD 0
      = (lookupId (clonePhase3 g (g.traverseNodes (g.getRootNode c) g.dependentsOf)
        (fun i => shouldIncludeNode g pred (g.getRootNode c) i)).2 (g.idOf b)).getD 0
      → a = b := by
    intro a ha b hb hab
    have hee := values_nodup_entry_eq _ hvalnd _ (hentry a ha) _ (hentry b hb) hab
    exact idOf_inj g hwf.uniqueIds ha hb (congrArg Prod.fst hee)
  have hempty : ∀ i ∈ g.traverseNodes (g.getRootNode c) g.dependentsOf,
      (((clonePhase3 g (g.traverseNodes (g.getRootNode c) g.dependentsOf)
        (fun i => shouldIncludeNode g pred (g.getRootNode c) i)).1).nodeAt
        ((lookupId (clonePhase3 g (g.traverseNodes (g.getRootNode c) g.dependentsOf)
          (fun i => shouldIncludeNode g pred (g.getRootNode c) i)).2 (g.idOf i)).getD 0)).dependencies
      = [] := by
    intro i hi
    obtain ⟨i', _, _, _, hcl2⟩ := hcontents _ (hentry i ((hordiff i).mp hi))
    rw [hcl2]
    rfl
  obtain ⟨h4, hph4, hwire, _, hsz4⟩ := clonePhase4_wired g
    (clonePhase3 g (g.traverseNodes (g.getRootNode c) g.dependentsOf)
      (fun i => shouldIncludeNode g pred (g.getRootNode c) i)).2
    (fun i => (lookupId (clonePhase3 g (g.traverseNodes (g.getRootNode c) g.dependentsOf)
      (fun i => shouldIncludeNode g pred (g.getRootNode c) i)).2 (g.idOf i)).getD 0)
    (fun i => shouldIncludeNode g pred (g.getRootNode c) i)
    hlk hjinj (fun i hi => wf_deps_range g hwf i hi)
    (fun i hi => (hwf.nodupEdges i hi).1)
    (g.traverseNodes (g.getRootNode c) g.dependentsOf)
    (clonePhase3 g (g.traverseNodes (g.getRootNode c) g.dependentsOf)
      (fun i => shouldIncludeNode g pred (g.getRootNode c) i)).1
    hordnd
    (fun i hi => ⟨(hordiff i).mp hi, hincl_true i ((hordiff i).mp hi)⟩)
    (fun i hi => (hbounds _ (hentry i ((hordiff i).mp hi))).2)
    hempty
  obtain ⟨jc, hjc⟩ := lookupId_isSome _ (g.idOf c) (hkey c hc)
  have hok := cloneWithRelationships_ok_of g c pred h4 jc hph4 hjc
  refine ⟨⟨h4, (clonePhase3 g (g.traverseNodes (g.getRootNode c) g.dependentsOf)
    (fun i => shouldIncludeNode g pred (g.getRootNode c) i)).2, jc⟩, hok, ?_, ?_, ?_, ?_⟩
  · show (clonePhase3 g (g.traverseNodes (g.getRootNode c) g.dependentsOf)
      (fun i => shouldIncludeNode g pred (g.getRootNode c) i)).2.length = g.size
    rw [hlen3,
      List.filter_eq_self.mpr (fun a ha => hincl_true a ((hordiff a).mp ha))]
    have h1 : (g.traverseNodes (g.getRootNode c) g.dependentsOf).toFinset
        = (List.range g.size).toFinset := by
      ext v
      simp only [List.mem_toFinset, List.mem_range]
      exact hordiff v
    have h2 := congrArg Finset.card h1
    rw [List.toFinset_card_of_nodup hordnd,
      List.toFinset_card_of_nodup (List.nodup_range _), List.length_range] at h2
    exact h2
  · intro s
    show s ∈ ((clonePhase3 g (g.traverseNodes (g.getRootNode c) g.dependentsOf)
      (fun i => shouldIncludeNode g pred (g.getRootNode c) i)).2).map Prod.fst ↔ _
    rw [hkiff s, mem_ids_iff g s]
    constructor
    · rintro ⟨i, hiord, _, rfl⟩
      exact ⟨i, (hordiff i).mp hiord, rfl⟩
    · rintro ⟨i, hi, rfl⟩
      exact ⟨i, (hordiff i).mpr hi, hincl_true i hi, rfl⟩
  · show (((clonePhase3 g (g.traverseNodes (g.getRootNode c) g.dependentsOf)
      (fun i => shouldIncludeNode g pred (g.getRootNode c) i)).2).map
        (fun e => ((h4.nodeAt e.2).dependencies).length)).sum
      = (g.nodes.map (fun nd => nd.dependencies.length)).sum
    have hmnd : ((clonePhase3 g (g.traverseNodes (g.getRootNode c) g.dependentsOf)
        (fun i => shouldIncludeNode g pred (g.getRootNode c) i)).2).Nodup :=
      List.Nodup.of_map Prod.fst hknd
    have hl2keys : (((List.range g.size).map (fun i => (g.idOf i,
        (lookupId (clonePhase3 g (g.traverseNodes (g.getRootNode c) g.dependentsOf)
          (fun i => shouldIncludeNode g pred (g.getRootNode c) i)).2 (g.idOf i)).getD 0))).map
        Prod.fst) = (List.range g.size).map g.idOf := by
      rw [List.map_map]
      rfl
    have hidsnd : ((List.range g.size).map g.idOf).Nodup :=
      List.Nodup.map_on (fun x hx y hy hxy => idOf_inj g hwf.uniqueIds
        (List.mem_range.mp hx) (List.mem_range.mp hy) hxy) (List.nodup_range _)
    have hl2nd : ((List.range g.size).map (fun i => (g.idOf i,
        (lookupId (clonePhase3 g (g.traverseNodes (g.getRootNode c) g.dependentsOf)
          (fun i => shouldIncludeNode g pred (g.getRootNode c) i)).2 (g.idOf i)).getD 0))).Nodup :=
      List.Nodup.of_map Prod.fst (by rw [hl2keys]; exact hidsnd)
    have hmemiff : ∀ e, e ∈ (clonePhase3 g (g.traverseNodes (g.getRootNode c) g.dependentsOf)
        (fun i => shouldIncludeNode g pred (g.getRootNode c) i)).2 ↔
        e ∈ (List.range g.size).map (fun i => (g.idOf i,
          (lookupId (clonePhase3 g (g.traverseNodes (g.getRootNode c) g.dependentsOf)
            (fun i => shouldIncludeNode g pred (g.getRootNode c) i)).2 (g.idOf i)).getD 0)) := by
      intro e
      constructor
      · intro he
        obtain ⟨i, hiord, _, hid⟩ :=
          (hkiff e.1).mp (List.mem_map_of_mem Prod.fst he)
        have hilt : i < g.size := (hordiff i).mp hiord
        have hlkup := lookupId_of_mem_nodup _ hknd e he
        have h1 : lookupId (clonePhase3 g (g.traverseNodes (g.getRootNode c) g.dependentsOf)
            (fun i => shouldIncludeNode g pred (g.getRootNode c) i)).2 (g.idOf i)
            = some e.2 := by
          rw [hid]
          exact hlkup
        apply List.mem_map.mpr
        refine ⟨i, List.mem_range.mpr hilt, ?_⟩
        rw [h1]
        show (g.idOf i, e.2) = e
        rw [hid]
      · intro he
        obtain ⟨i, hir, he2⟩ := List.mem_map.mp he
        rw [← he2]
        exact hentry i (List.mem_range.mp hir)
    have hperm := (List.perm_ext_iff_of_nodup hmnd hl2nd).mpr hmemiff
    rw [(hperm.map (fun e => ((h4.nodeAt e.2).dependencies).length)).sum_eq,
      List.map_map]
    have hcongr : (List.range g.size).map
        ((fun e => ((h4.nodeAt e.2).dependencies).length) ∘ (fun i => (g.idOf i,
          (lookupId (clonePhase3 g (g.traverseNodes (g.getRootNode c) g.dependentsOf)
            (fun i => shouldIncludeNode g pred (g.getRootNode c) i)).2 (g.idOf i)).getD 0)))
        = (List.range g.size).map (fun i => (g.nodeAt i).dependencies.length) := by
      apply List.map_congr_left
      intro i hir
      show ((h4.nodeAt ((lookupId (clonePhase3 g
        (g.traverseNodes (g.getRootNode c) g.dependentsOf)
        (fun i => shouldIncludeNode g pred (g.getRootNode c) i)).2
        (g.idOf i)).getD 0)).dependencies).length = _
      rw [hwire i ((hordiff i).mpr (List.mem_range.mp hir)), List.length_map]
    rw [hcongr]
    exact congrArg List.sum (range_map_nodeAt g (fun nd => nd.dependencies.length))
  · intro e he
    refine ⟨(hbounds e he).1, ?_⟩
    show e.2 < h4.size
    rw [hsz4]
    exact (hbounds e he).2

theorem claim_C4_witness :
    (chainGraph 4).WellFormed ∧ 0 < (chainGraph 4).size ∧
    (∃ r, (chainGraph 4).cloneWithRelationships 0 none = Except.ok r ∧
      r.map.length = (chainGraph 4).size ∧
      (∀ s, s ∈ r.map.map Prod.fst ↔ s ∈ (chainGraph 4).nodes.map (fun nd => nd.id)) ∧
      (r.map.map (fun e => ((r.heap.nodeAt e.2).dependencies).length)).sum
        = ((chainGraph 4).nodes.map (fun nd => nd.dependencies.length)).sum ∧
      (∀ e ∈ r.map, (chainGraph 4).size ≤ e.2 ∧ e.2 < r.heap.size)) :=
  ⟨chainGraph4_wf, by decide,
    claim_C4 (chainGraph 4) chainGraph4_wf 0 (by decide) none (Or.inl rfl)⟩

/-! ## Classifier lemmas (optimistic vs pessimistic first-paint graphs) -/

theorem mem_getScriptUrls (g : Graph) (idx : Nat) (filt : NodeData → Bool) (s : String) :
    s ∈ getScriptUrls g idx filt ↔
      ∃ i, i ∈ g.traverseNodes idx g.dependentsOf ∧
        (g.nodeAt i).typ = NodeType.network ∧ filt (g.nodeAt i) = true ∧
        (g.nodeAt i).url = s := by
  have main : ∀ (l : List Nat) (acc : List String),
      s ∈ l.foldl (fun acc i =>
        if (g.nodeAt i).typ = NodeType.network ∧ filt (g.nodeAt i) = true then
          insertElem acc (g.nodeAt i).url else acc) acc ↔
      s ∈ acc ∨ ∃ i, i ∈ l ∧ (g.nodeAt i).typ = NodeType.network ∧
        filt (g.nodeAt i) = true ∧ (g.nodeAt i).url = s := by
    intro l
    induction l with
    | nil =>
        intro acc
        simp
    | cons a rest ih =>
        intro acc
        rw [List.foldl_cons]
        by_cases hcond : (g.nodeAt a).typ = NodeType.network ∧ filt (g.nodeAt a) = true
        · rw [if_pos hcond, ih, mem_insertElem]
          constructor
          · rintro ((hs | rfl) | ⟨i, hi, hp⟩)
            · exact Or.inl hs
            · exact Or.inr ⟨a, List.mem_cons_self _ _, hcond.1, hcond.2, rfl⟩
            · exact Or.inr ⟨i, List.mem_cons_of_mem _ hi, hp⟩
          · rintro (hs | ⟨i, hi, hp⟩)
            · exact Or.inl (Or.inl hs)
            · rcases List.mem_cons.mp hi with rfl | hi'
              · exact Or.inl (Or.inr hp.2.2.symm)
              · exact Or.inr ⟨i, hi', hp⟩
        · rw [if_neg hcond, ih]
          constructor
          · rintro (hs | ⟨i, hi, hp⟩)
            · exact Or.inl hs
            · exact Or.inr ⟨i, List.mem_cons_of_mem _ hi, hp⟩
          · rintro (hs | ⟨i, hi, hp⟩)
            · exact Or.inl hs
            · rcases List.mem_cons.mp hi with rfl | hi'
              · exact absurd ⟨hp.1, hp.2.1⟩ hcond
              · exact Or.inr ⟨i, hi', hp⟩
  have hTot := main (g.traverseNodes idx g.dependentsOf) []
  constructor
  · intro hs
    rcases hTot.mp hs with h0 | h
    · cases h0
    · exact h
  · intro h
    exact hTot.mpr (Or.inr h)

theorem getBlockingCpuData_possibly (g : Graph) (idx : Nat) (fcp : Int)
    (netF : NodeData → Bool) (cpuF : Option (NodeData → Bool)) :
    (getBlockingCpuData g idx fcp netF cpuF).possiblyRenderBlockingScriptUrls
      = getScriptUrls g idx (fun nd => nd.endTime ≤ fcp && netF nd) := rfl

theorem getBlockingCpuData_actually (g : Graph) (idx : Nat) (fcp : Int)
    (netF : NodeData → Bool) (cpuF : Option (NodeData → Bool)) :
    (getBlockingCpuData g idx fcp netF cpuF).actuallyRenderBlockingScriptUrls
      = ((getScriptUrls g idx (fun nd => nd.endTime ≤ fcp && netF nd)).foldl
          (fun (acc : List String × List CpuSetElem) url =>
            match (((g.traverseNodes idx g.dependentsOf).filter
                (fun i => decide ((g.nodeAt i).typ = NodeType.cpu ∧
                  (g.nodeAt i).startTime ≤ fcp))).mergeSort
                (fun a b => (g.nodeAt a).startTime ≤ (g.nodeAt b).startTime)).find?
                (fun i => (g.nodeAt i).isEvaluateScriptFor [url]) with
            | some cpuNode => (insertElem acc.1 url, insertElem acc.2 (Sum.inl cpuNode))
            | none => acc)
          ([], [])).1 := rfl

theorem evalFold_mem (g : Graph) (cpus : List Nat) :
    ∀ (urls : List String) (acc : List String × List CpuSetElem) (u : String),
      u ∈ (urls.foldl
        (fun (acc : List String × List CpuSetElem) url =>
          match cpus.find? (fun i => (g.nodeAt i).isEvaluateScriptFor [url]) with
          | some cpuNode => (insertElem acc.1 url, insertElem acc.2 (Sum.inl cpuNode))
          | none => acc)
        acc).1 ↔
      u ∈ acc.1 ∨ (u ∈ urls ∧
        (cpus.find? (fun i => (g.nodeAt i).isEvaluateScriptFor [u])).isSome = true) := by
  intro urls
  induction urls with
  | nil =>
      intro acc u
      simp
  | cons url rest ih =>
      intro acc u
      rw [List.foldl_cons]
      cases hf : cpus.find? (fun i => (g.nodeAt i).isEvaluateScriptFor [url]) with
      | some j =>
          simp only [hf]
          rw [ih]
          show u ∈ insertElem acc.1 url ∨ _ ↔ _
          rw [mem_insertElem]
          constructor
          · rintro ((hs | rfl) | ⟨hr, hsome⟩)
            · exact Or.inl hs
            · exact Or.inr ⟨List.mem_cons_self _ _, by rw [hf]; rfl⟩
            · exact Or.inr ⟨List.mem_cons_of_mem _ hr, hsome⟩
          · rintro (hs | ⟨hmem, hsome⟩)
            · exact Or.inl (Or.inl hs)
            · rcases List.mem_cons.mp hmem with rfl | hr
              · exact Or.inl (Or.inr rfl)
              · exact Or.inr ⟨hr, hsome⟩
      | none =>
          simp only [hf]
          rw [ih]
          constructor
          · rintro (hs | ⟨hr, hsome⟩)
            · exact Or.inl hs
            · exact Or.inr ⟨List.mem_cons_of_mem _ hr, hsome⟩
          · rintro (hs | ⟨hmem, hsome⟩)
            · exact Or.inl hs
            · rcases List.mem_cons.mp hmem with rfl | hr
              · rw [hf] at hsome
                cases hsome
              · exact Or.inr ⟨hr, hsome⟩

theorem evalFold_inl (g : Graph) (cpus : List Nat) :
    ∀ (urls : List String) (acc : List String × List CpuSetElem),
      (∀ x ∈ acc.2, ∃ n, x = Sum.inl n) →
      ∀ x ∈ (urls.foldl
        (fun (acc : List String × List CpuSetElem) url =>
          match cpus.find? (fun i => (g.nodeAt i).isEvaluateScriptFor [url]) with
          | some cpuNode => (insertElem acc.1 url, insertElem acc.2 (Sum.inl cpuNode))
          | none => acc)
        acc).2, ∃ n, x = Sum.inl n := by
  intro urls
  induction urls with
  | nil =>
      intro acc hacc
      exact hacc
  | cons url rest ih =>
      intro acc hacc
      rw [List.foldl_cons]
      cases hf : cpus.find? (fun i => (g.nodeAt i).isEvaluateScriptFor [url]) with
      | some j =>
          simp only [hf]
          refine ih (insertElem acc.1 url, insertElem acc.2 ((Sum.inl j : CpuSetElem))) ?_
          intro x hx
          show ∃ n, x = Sum.inl n
          rcases (mem_insertElem acc.2 ((Sum.inl j : CpuSetElem)) x).mp hx with hx' | rfl
          · exact hacc x hx'
          · exact ⟨j, rfl⟩
      | none =>
          simp only [hf]
          exact ih acc hacc

/-- One `if (firstX) blockingCpuNodeIds.add(firstX.id)` step (pack.d.ts lines
73–78), as a membership equivalence. -/
theorem step_inr_iff (g : Graph) (o : Option Nat) (l : List CpuSetElem) (P : Prop)
    (s : String) (hl : (Sum.inr s : CpuSetElem) ∈ l ↔ P) :
    ((Sum.inr s : CpuSetElem) ∈ (match o with
      | some j => insertElem l (Sum.inr (g.idOf j))
      | none => l) ↔
      ((∃ j, o = some j ∧ g.idOf j = s) ∨ P)) := by
  cases o with
  | none =>
      simp only []
      rw [hl]
      constructor
      · exact Or.inr
      · rintro (⟨j, hj, _⟩ | hp)
        · cases hj
        · exact hp
  | some j =>
      simp only []
      rw [mem_insertElem, hl]
      constructor
      · rintro (hp | heq)
        · exact Or.inr hp
        · rw [Sum.inr.injEq] at heq
          exact Or.inl ⟨j, rfl, heq.symm⟩
      · rintro (⟨j2, hj2, hid⟩ | hp)
        · injection hj2 with hjj
          subst hjj
          exact Or.inr (by rw [Sum.inr.injEq]; exact hid.symm)
        · exact Or.inl hp

theorem getScriptUrls_mono (g : Graph) (idx : Nat) (d1 d2 : NodeData → Bool)
    (himp : ∀ nd, d1 nd = true → d2 nd = true) :
    ∀ s ∈ getScriptUrls g idx d1, s ∈ getScriptUrls g idx d2 := by
  intro s hs
  rw [mem_getScriptUrls] at hs ⊢
  obtain ⟨i, h1, h2, h3, h4⟩ := hs
  exact ⟨i, h1, h2, himp _ h3, h4⟩

/-- A url is *actually* render blocking iff it is possibly render blocking and
some CPU node of the sorted pre-FCP list carries its EvaluateScript task. -/
theorem mem_actually_iff (g : Graph) (idx : Nat) (fcp : Int) (netF : NodeData → Bool)
    (cpuF : Option (NodeData → Bool)) (u : String) :
    u ∈ (getBlockingCpuData g idx fcp netF cpuF).actuallyRenderBlockingScriptUrls ↔
      u ∈ (getBlockingCpuData g idx fcp netF cpuF).possiblyRenderBlockingScriptUrls ∧
      ((((g.traverseNodes idx g.dependentsOf).filter
          (fun i => decide ((g.nodeAt i).typ = NodeType.cpu ∧
            (g.nodeAt i).startTime ≤ fcp))).mergeSort
          (fun a b => (g.nodeAt a).startTime ≤ (g.nodeAt b).startTime)).find?
          (fun i => (g.nodeAt i).isEvaluateScriptFor [u])).isSome = true := by
  have h := evalFold_mem g
    (((g.traverseNodes idx g.dependentsOf).filter
      (fun i => decide ((g.nodeAt i).typ = NodeType.cpu ∧
        (g.nodeAt i).startTime ≤ fcp))).mergeSort
      (fun a b => (g.nodeAt a).startTime ≤ (g.nodeAt b).startTime))
    (getScriptUrls g idx (fun nd => nd.endTime ≤ fcp && netF nd)) ([], []) u
  constructor
  · intro hu
    rcases h.mp hu with h0 | hp
    · cases h0
    · exact hp
  · intro hp
    exact h.mpr (Or.inr hp)

/-- The id-string members of `blockingCpuNodeIds` do not depend on the network
filter: the object inserted on pack.d.ts line 67 is never an id string, and the
three id insertions (first layout/Paint/ParseHTML) are filter-independent. -/
theorem blocking_inr_filter_indep (g : Graph) (idx : Nat) (fcp : Int)
    (f1 f2 : NodeData → Bool) (s : String) :
    ((Sum.inr s : CpuSetElem) ∈ (getBlockingCpuData g idx fcp f1 none).blockingCpuNodeIds ↔
     (Sum.inr s : CpuSetElem) ∈ (getBlockingCpuData g idx fcp f2 none).blockingCpuNodeIds) := by
  have h0a : ((Sum.inr s : CpuSetElem) ∈
      ((getScriptUrls g idx (fun nd => nd.endTime ≤ fcp && f1 nd)).foldl
        (fun (acc : List String × List CpuSetElem) url =>
          match (((g.traverseNodes idx g.dependentsOf).filter
              (fun i => decide ((g.nodeAt i).typ = NodeType.cpu ∧
                (g.nodeAt i).startTime ≤ fcp))).mergeSort
              (fun a b => (g.nodeAt a).startTime ≤ (g.nodeAt b).startTime)).find?
              (fun i => (g.nodeAt i).isEvaluateScriptFor [url]) with
          | some cpuNode => (insertElem acc.1 url, insertElem acc.2 (Sum.inl cpuNode))
          | none => acc)
        ([], [])).2 ↔ False) := by
    constructor
    · intro h
      obtain ⟨n, hn⟩ := evalFold_inl g _ _ ([], [])
        (fun x hx => absurd hx (List.not_mem_nil x)) _ h
      cases hn
    · exact False.elim
  have h0b : ((Sum.inr s : CpuSetElem) ∈
      ((getScriptUrls g idx (fun nd => nd.endTime ≤ fcp && f2 nd)).foldl
        (fun (acc : List String × List CpuSetElem) url =>
          match (((g.traverseNodes idx g.dependentsOf).filter
              (fun i => decide ((g.nodeAt i).typ = NodeType.cpu ∧
                (g.nodeAt i).startTime ≤ fcp))).mergeSort
              (fun a b => (g.nodeAt a).startTime ≤ (g.nodeAt b).startTime)).find?
              (fun i => (g.nodeAt i).isEvaluateScriptFor [url]) with
          | some cpuNode => (insertElem acc.1 url, insertElem acc.2 (Sum.inl cpuNode))
          | none => acc)
        ([], [])).2 ↔ False) := by
    constructor
    · intro h
      obtain ⟨n, hn⟩ := evalFold_inl g _ _ ([], [])
        (fun x hx => absurd hx (List.not_mem_nil x)) _ h
      cases hn
    · exact False.elim
  have h1a := step_inr_iff g ((((g.traverseNodes idx g.dependentsOf).filter
      (fun i => decide ((g.nodeAt i).typ = NodeType.cpu ∧
        (g.nodeAt i).startTime ≤ fcp))).mergeSort
      (fun a b => (g.nodeAt a).startTime ≤ (g.nodeAt b).startTime)).find?
      (fun i => (g.nodeAt i).didPerformLayout)) _ _ s h0a
  have h2a := step_inr_iff g ((((g.traverseNodes idx g.dependentsOf).filter
      (fun i => decide ((g.nodeAt i).typ = NodeType.cpu ∧
        (g.nodeAt i).startTime ≤ fcp))).mergeSort
      (fun a b => (g.nodeAt a).startTime ≤ (g.nodeAt b).startTime)).find?
      (fun i => (g.nodeAt i).childEvents.contains "Paint")) _ _ s h1a
  have h3a := step_inr_iff g ((((g.traverseNodes idx g.dependentsOf).filter
      (fun i => decide ((g.nodeAt i).typ = NodeType.cpu ∧
        (g.nodeAt i).startTime ≤ fcp))).mergeSort
      (fun a b => (g.nodeAt a).startTime ≤ (g.nodeAt b).startTime)).find?
      (fun i => (g.nodeAt i).childEvents.contains "ParseHTML")) _ _ s h2a
  have h1b := step_inr_iff g ((((g.traverseNodes idx g.dependentsOf).filter
      (fun i => decide ((g.nodeAt i).typ = NodeType.cpu ∧
        (g.nodeAt i).startTime ≤ fcp))).mergeSort
      (fun a b => (g.nodeAt a).startTime ≤ (g.nodeAt b).startTime)).find?
      (fun i => (g.nodeAt i).didPerformLayout)) _ _ s h0b
  have h2b := step_inr_iff g ((((g.traverseNodes idx g.dependentsOf).filter
      (fun i => decide ((g.nodeAt i).typ = NodeType.cpu ∧
        (g.nodeAt i).startTime ≤ fcp))).mergeSort
      (fun a b => (g.nodeAt a).startTime ≤ (g.nodeAt b).startTime)).find?
      (fun i => (g.nodeAt i).childEvents.contains "Paint")) _ _ s h1b
  have h3b := step_inr_iff g ((((g.traverseNodes idx g.dependentsOf).filter
      (fun i => decide ((g.nodeAt i).typ = NodeType.cpu ∧
        (g.nodeAt i).startTime ≤ fcp))).mergeSort
      (fun a b => (g.nodeAt a).startTime ≤ (g.nodeAt b).startTime)).find?
      (fun i => (g.nodeAt i).childEvents.contains "ParseHTML")) _ _ s h2b
  exact h3a.trans h3b.symm

/-- When every pessimistically possibly-render-blocking url is actually render
blocking, the optimistic inclusion predicate implies the pessimistic one. -/
theorem fpPredicate_opt_imp_pess (g : Graph) (idx : Nat) (fcp : Int)
    (hmatch : ∀ u ∈ (getBlockingCpuData g idx fcp
        (fun nd => nd.hasRenderBlockingPriority) none).possiblyRenderBlockingScriptUrls,
      u ∈ (getBlockingCpuData g idx fcp
        (fun nd => nd.hasRenderBlockingPriority) none).actuallyRenderBlockingScriptUrls) :
    ∀ nd, fpPredicate (getBlockingCpuData g idx fcp
        (fun nd => nd.hasRenderBlockingPriority && nd.initiatorType != "script") none)
        fcp nd = true →
      fpPredicate (getBlockingCpuData g idx fcp
        (fun nd => nd.hasRenderBlockingPriority) none) fcp nd = true := by
  intro nd hopt
  by_cases hnet : nd.typ = NodeType.network
  · rw [fpPredicate, if_pos hnet] at hopt ⊢
    by_cases hend : nd.endTime > fcp ∧ nd.isMainDocument = false
    · rw [if_pos hend] at hopt
      cases hopt
    · rw [if_neg hend] at hopt ⊢
      by_cases hpos : ((getBlockingCpuData g idx fcp
          (fun nd => nd.hasRenderBlockingPriority && nd.initiatorType != "script")
          none).possiblyRenderBlockingScriptUrls).contains nd.url = true
      · rw [if_pos hpos] at hopt
        have hmem := (contains_iff_memList _ _).mp hopt
        obtain ⟨hp_opt, hfind⟩ := (mem_actually_iff g idx fcp _ none nd.url).mp hmem
        have hp_pess : nd.url ∈ (getBlockingCpuData g idx fcp
            (fun nd => nd.hasRenderBlockingPriority) none).possiblyRenderBlockingScriptUrls :=
          getScriptUrls_mono g idx
            (fun nd => nd.endTime ≤ fcp &&
              (nd.hasRenderBlockingPriority && nd.initiatorType != "script"))
            (fun nd => nd.endTime ≤ fcp && nd.hasRenderBlockingPriority)
            (fun nd2 h => by
              simp only [Bool.and_eq_true] at h ⊢
              exact ⟨h.1, h.2.1⟩) nd.url hp_opt
        rw [if_pos ((contains_iff_memList _ _).mpr hp_pess)]
        exact (contains_iff_memList _ _).mpr
          ((mem_actually_iff g idx fcp _ none nd.url).mpr ⟨hp_pess, hfind⟩)
      · rw [if_neg hpos] at hopt
        by_cases hpos2 : ((getBlockingCpuData g idx fcp
            (fun nd => nd.hasRenderBlockingPriority)
            none).possiblyRenderBlockingScriptUrls).contains nd.url = true
        · rw [if_pos hpos2]
          exact (contains_iff_memList _ _).mpr
            (hmatch nd.url ((contains_iff_memList _ _).mp hpos2))
        · rw [if_neg hpos2]
          exact hopt
  · rw [fpPredicate, if_neg hnet] at hopt ⊢
    exact (contains_iff_memList _ _).mpr
      ((blocking_inr_filter_indep g idx fcp _ _ nd.id).mp
        ((contains_iff_memList _ _).mp hopt))

/-- **C2 (counterexample).** `scriptInitGraph` contains a render-blocking,
script-initiated network node; both estimate builds succeed at `fcpTs = 150`,
yet the optimistic graph has *more* nodes than the pessimistic one: the
optimistic network filter keeps the script-initiated url out of the
possibly-render-blocking set, so its node survives via its render-blocking
priority, while the pessimistic classifier demotes it (no EvaluateScript CPU
task matches the url). -/
theorem claim_C2_counterexample :
    (∃ i, i < scriptInitGraph.size ∧ (scriptInitGraph.nodeAt i).typ = NodeType.network ∧
      (scriptInitGraph.nodeAt i).hasRenderBlockingPriority = true ∧
      (scriptInitGraph.nodeAt i).initiatorType = "script") ∧
    (getOptimisticGraph scriptInitGraph 0 150).isOk = true ∧
    (getPessimisticGraph scriptInitGraph 0 150).isOk = true ∧
    ((getPessimisticGraph scriptInitGraph 0 150).toOption.map
        (fun r => r.map.length)).getD 0
      < ((getOptimisticGraph scriptInitGraph 0 150).toOption.map
        (fun r => r.map.length)).getD 0 := by
  refine ⟨⟨1, ?_, ?_, ?_, ?_⟩, ?_, ?_, ?_⟩ <;> decide

/-- **C2 (amended).** On a well-formed graph, when every pessimistically
possibly-render-blocking url is actually render blocking, any successful
optimistic build is matched by a successful pessimistic build with at least as
many nodes. -/
theorem claim_C2_amended (g : Graph) (hwf : g.WellFormed) (c : Nat) (hc : c < g.size)
    (fcpTs : Int)
    (hscript : ∃ i, i < g.size ∧ (g.nodeAt i).typ = NodeType.network ∧
      (g.nodeAt i).hasRenderBlockingPriority = true ∧
      (g.nodeAt i).initiatorType = "script")
    (hmatch : ∀ u ∈ (getBlockingCpuData g c fcpTs
        (fun nd => nd.hasRenderBlockingPriority) none).possiblyRenderBlockingScriptUrls,
      u ∈ (getBlockingCpuData g c fcpTs
        (fun nd => nd.hasRenderBlockingPriority) none).actuallyRenderBlockingScriptUrls)
    (ro : CloneResult) (ho : getOptimisticGraph g c fcpTs = Except.ok ro) :
    ∃ rp, getPessimisticGraph g c fcpTs = Except.ok rp ∧
      ro.map.length ≤ rp.map.length := by
  have hpredimp := fpPredicate_opt_imp_pess g c fcpTs hmatch
  obtain ⟨hmapo, hph4o, hlko⟩ := cloneWithRelationships_ok_parts g c
    (some (fpPredicate (getBlockingCpuData g c fcpTs
      (fun nd => nd.hasRenderBlockingPriority && nd.initiatorType != "script") none) fcpTs))
    ro ho
  have hincl_imp : ∀ i, shouldIncludeNode g
      (some (fpPredicate (getBlockingCpuData g c fcpTs
        (fun nd => nd.hasRenderBlockingPriority && nd.initiatorType != "script") none)
        fcpTs)) (g.getRootNode c) i = true →
      shouldIncludeNode g
      (some (fpPredicate (getBlockingCpuData g c fcpTs
        (fun nd => nd.hasRenderBlockingPriority) none) fcpTs)) (g.getRootNode c) i = true := by
    intro i hi
    have hi2 : (idsToInclude g (fpPredicate (getBlockingCpuData g c fcpTs
        (fun nd => nd.hasRenderBlockingPriority && nd.initiatorType != "script") none)
        fcpTs) (g.getRootNode c)).contains (g.idOf i) = true := hi
    show (idsToInclude g (fpPredicate (getBlockingCpuData g c fcpTs
        (fun nd => nd.hasRenderBlockingPriority) none) fcpTs)
      (g.getRootNode c)).contains (g.idOf i) = true
    apply (contains_iff_memList _ _).mpr
    have hmem := (contains_iff_memList _ _).mp hi2
    rw [mem_idsToInclude] at hmem ⊢
    obtain ⟨v, hvord, hpv, w, hw, hwid⟩ := hmem
    exact ⟨v, hvord, hpredimp _ hpv, w, hw, hwid⟩
  obtain ⟨_, _, _, hkiffo, _, _⟩ := clonePhase3_main g (g.getRootNode c)
    (fun i => shouldIncludeNode g (some (fpPredicate (getBlockingCpuData g c fcpTs
      (fun nd => nd.hasRenderBlockingPriority && nd.initiatorType != "script") none)
      fcpTs)) (g.getRootNode c) i)
  obtain ⟨_, _, _, hkiffp, _, _⟩ := clonePhase3_main g (g.getRootNode c)
    (fun i => shouldIncludeNode g (some (fpPredicate (getBlockingCpuData g c fcpTs
      (fun nd => nd.hasRenderBlockingPriority) none) fcpTs)) (g.getRootNode c) i)
  have hsub : ∀ s ∈ (clonePhase3 g (g.traverseNodes (g.getRootNode c) g.dependentsOf)
      (fun i => shouldIncludeNode g (some (fpPredicate (getBlockingCpuData g c fcpTs
        (fun nd => nd.hasRenderBlockingPriority && nd.initiatorType != "script") none)
        fcpTs)) (g.getRootNode c) i)).2.map Prod.fst,
      s ∈ (clonePhase3 g (g.traverseNodes (g.getRootNode c) g.dependentsOf)
      (fun i => shouldIncludeNode g (some (fpPredicate (getBlockingCpuData g c fcpTs
        (fun nd => nd.hasRenderBlockingPriority) none) fcpTs)) (g.getRootNode c) i)).2.map
        Prod.fst := by
    intro s hs
    obtain ⟨i, hiord, hinc, hid⟩ := (hkiffo s).mp hs
    exact (hkiffp s).mpr ⟨i, hiord, hincl_imp i hinc, hid⟩
  have hkndo : (((clonePhase3 g (g.traverseNodes (g.getRootNode c) g.dependentsOf)
      (fun i => shouldIncludeNode g (some (fpPredicate (getBlockingCpuData g c fcpTs
        (fun nd => nd.hasRenderBlockingPriority && nd.initiatorType != "script") none)
        fcpTs)) (g.getRootNode c) i)).2).map Prod.fst).Nodup :=
    clonePhase3_keys_nodup g
      (fun i => shouldIncludeNode g (some (fpPredicate (getBlockingCpuData g c fcpTs
        (fun nd => nd.hasRenderBlockingPriority && nd.initiatorType != "script") none)
        fcpTs)) (g.getRootNode c) i)
      (g.traverseNodes (g.getRootNode c) g.dependentsOf) g [] List.nodup_nil
  have hkndp : (((clonePhase3 g (g.traverseNodes (g.getRootNode c) g.dependentsOf)
      (fun i => shouldIncludeNode g (some (fpPredicate (getBlockingCpuData g c fcpTs
        (fun nd => nd.hasRenderBlockingPriority) none) fcpTs)) (g.getRootNode c) i)).2).map
      Prod.fst).Nodup :=
    clonePhase3_keys_nodup g
      (fun i => shouldIncludeNode g (some (fpPredicate (getBlockingCpuData g c fcpTs
        (fun nd => nd.hasRenderBlockingPriority) none) fcpTs)) (g.getRootNode c) i)
      (g.traverseNodes (g.getRootNode c) g.dependentsOf) g [] List.nodup_nil
  have hlen : (clonePhase3 g (g.traverseNodes (g.getRootNode c) g.dependentsOf)
      (fun i => shouldIncludeNode g (some (fpPredicate (getBlockingCpuData g c fcpTs
        (fun nd => nd.hasRenderBlockingPriority && nd.initiatorType != "script") none)
        fcpTs)) (g.getRootNode c) i)).2.length ≤
      (clonePhase3 g (g.traverseNodes (g.getRootNode c) g.dependentsOf)
      (fun i => shouldIncludeNode g (some (fpPredicate (getBlockingCpuData g c fcpTs
        (fun nd => nd.hasRenderBlockingPriority) none) fcpTs)) (g.getRootNode c) i)).2.length := by
    have h1 := Finset.card_le_card (fun s hs =>
      List.mem_toFinset.mpr (hsub s (List.mem_toFinset.mp hs)))
    rw [List.toFinset_card_of_nodup hkndo, List.toFinset_card_of_nodup hkndp] at h1
    simpa [List.length_map] using h1
  have hkeymemo : g.idOf c ∈ (clonePhase3 g (g.traverseNodes (g.getRootNode c) g.dependentsOf)
      (fun i => shouldIncludeNode g (some (fpPredicate (getBlockingCpuData g c fcpTs
        (fun nd => nd.hasRenderBlockingPriority && nd.initiatorType != "script") none)
        fcpTs)) (g.getRootNode c) i)).2.map Prod.fst :=
    (lookupId_mem _ _ _ hlko).2
  obtain ⟨h', hph4p⟩ := wf_phase4_ok g hwf c hc
    (some (fpPredicate (getBlockingCpuData g c fcpTs
      (fun nd => nd.hasRenderBlockingPriority) none) fcpTs))
  obtain ⟨j, hj⟩ := lookupId_isSome _ (g.idOf c) (hsub _ hkeymemo)
  have hokp := cloneWithRelationships_ok_of g c
    (some (fpPredicate (getBlockingCpuData g c fcpTs
      (fun nd => nd.hasRenderBlockingPriority) none) fcpTs)) h' j hph4p hj
  refine ⟨⟨h', (clonePhase3 g (g.traverseNodes (g.getRootNode c) g.dependentsOf)
    (fun i => shouldIncludeNode g (some (fpPredicate (getBlockingCpuData g c fcpTs
      (fun nd => nd.hasRenderBlockingPriority) none) fcpTs)) (g.getRootNode c) i)).2, j⟩,
    hokp, ?_⟩
  rw [hmapo]
  exact hlen

/-- The 3-node script-evaluation graph is well formed. -/
theorem evalMatchGraph_wf : evalMatchGraph.WellFormed := by
  refine ⟨?_, ?_, ?_, ?_, ?_, ?_⟩
  · decide
  · decide
  · decide
  · decide
  · exact acyclic_of_rank _ id (rank_bound_lift _ id (by decide))
  · exact ⟨0, isRoot_of_rank _ 0 id (by decide) (by decide) (by decide)
      (rank_bound_lift _ id (by decide)) (by decide)⟩

theorem claim_C2_witness :
    evalMatchGraph.WellFormed ∧ 0 < evalMatchGraph.size ∧
    (∃ i, i < evalMatchGraph.size ∧ (evalMatchGraph.nodeAt i).typ = NodeType.network ∧
      (evalMatchGraph.nodeAt i).hasRenderBlockingPriority = true ∧
      (evalMatchGraph.nodeAt i).initiatorType = "script") ∧
    (∀ u ∈ (getBlockingCpuData evalMatchGraph 0 150
        (fun nd => nd.hasRenderBlockingPriority) none).possiblyRenderBlockingScriptUrls,
      u ∈ (getBlockingCpuData evalMatchGraph 0 150
        (fun nd => nd.hasRenderBlockingPriority) none).actuallyRenderBlockingScriptUrls) ∧
    (∃ ro, getOptimisticGraph evalMatchGraph 0 150 = Except.ok ro ∧
      ∃ rp, getPessimisticGraph evalMatchGraph 0 150 = Except.ok rp ∧
        ro.map.length ≤ rp.map.length) := by
  refine ⟨evalMatchGraph_wf, by decide,
    ⟨1, by decide, by decide, by decide, by decide⟩, by decide, ?_⟩
  cases hc2 : getOptimisticGraph evalMatchGraph 0 150 with
  | error e =>
      have hok : (getOptimisticGraph evalMatchGraph 0 150).isOk = true := by decide
      rw [hc2] at hok
      cases hok
  | ok ro =>
      exact ⟨ro, rfl, claim_C2_amended evalMatchGraph evalMatchGraph_wf 0 (by decide) 150
        ⟨1, by decide, by decide, by decide, by decide⟩ (by decide) ro hc2⟩

/-! ## BFS shortest paths and visit order -/

theorem pairwise_le_of_const (c : Nat) : ∀ (l : List Nat), (∀ x ∈ l, x = c) →
    l.Pairwise (· ≤ ·) := by
  intro l
  induction l with
  | nil =>
      intro _
      exact List.Pairwise.nil
  | cons a t ih =>
      intro h
      refine List.Pairwise.cons ?_ (ih fun x hx => h x (List.mem_cons_of_mem _ hx))
      intro b hb
      rw [h a (List.mem_cons_self _ _), h b (List.mem_cons_of_mem _ hb)]

/-- Any node with a witness path no longer than every queued path is already
visited (the BFS frontier never skips a level). -/
theorem visited_of_short (g : Graph) (nextF : Nat → List Nat) (start : Nat)
    (queue : List (List Nat)) (visited : List String)
    (hB : ∀ p ∈ queue, OkPath nextF start p)
    (hI2 : ∀ p ∈ queue, ∀ q, OkPath nextF start q → q.headD 0 = p.headD 0 →
      p.length ≤ q.length)
    (hI9 : g.idOf start ∈ visited)
    (hI8 : ∀ w, Reaches nextF start w → g.idOf w ∈ visited →
      (∃ p ∈ queue, p.headD 0 = w) ∨ ∀ x ∈ nextF w, g.idOf x ∈ visited) :
    ∀ q, OkPath nextF start q → (∀ p ∈ queue, q.length ≤ p.length) →
      g.idOf (q.headD 0) ∈ visited := by
  have main : ∀ n q, OkPath nextF start q → q.length ≤ n →
      (∀ p ∈ queue, q.length ≤ p.length) → g.idOf (q.headD 0) ∈ visited := by
    intro n
    induction n with
    | zero =>
        intro q hq hlen _
        cases q with
        | nil => exact absurd rfl (okPath_ne_nil hq)
        | cons a t => simp at hlen
    | succ n ih =>
        intro q hq hlen hbound
        cases hq with
        | single => exact hI9
        | cons a b rest2 hmem hq1 =>
            have hq1len : (b :: rest2).length ≤ n := by
              simp only [List.length_cons] at hlen ⊢
              omega
            have hq1bound : ∀ p ∈ queue, (b :: rest2).length ≤ p.length := by
              intro p hp
              have := hbound p hp
              simp only [List.length_cons] at this ⊢
              omega
            have hu' : g.idOf ((b :: rest2).headD 0) ∈ visited :=
              ih (b :: rest2) hq1 hq1len hq1bound
            have hreach : Reaches nextF start b := reaches_head hq1
            rcases hI8 b hreach hu' with ⟨pq, hpq, hhd⟩ | hexp
            · exfalso
              have hmin := hI2 pq hpq (b :: rest2) hq1 hhd.symm
              have hb2 := hbound pq hpq
              simp only [List.length_cons] at hmin hb2
              omega
            · exact hexp a hmem
  intro q hq hbound
  exact main q.length q hq le_rfl hbound

/-- BFS output correctness: starting from a sorted queue of minimal paths with
the queued-or-expanded invariant, every recorded path is a shortest path to its
head, recorded lengths are bounded below by any bound on the queue, and they
come out in non-decreasing (breadth-first) order. -/
theorem traverseAux_bfs (g : Graph) (nextF : Nat → List Nat) (start : Nat)
    (hdist : ∀ u w, Reaches nextF start u → Reaches nextF start w →
      g.idOf u = g.idOf w → u = w) :
    ∀ (fuel : Nat) (queue : List (List Nat)) (visited : List String),
      (∀ p ∈ queue, OkPath nextF start p) →
      (∀ p ∈ queue, ∀ q, OkPath nextF start q → q.headD 0 = p.headD 0 →
        p.length ≤ q.length) →
      ((queue.map List.length).Pairwise (· ≤ ·)) →
      (∀ p ∈ queue, ∀ q ∈ queue, p.length ≤ q.length + 1) →
      (g.idOf start ∈ visited) →
      (∀ w, Reaches nextF start w → g.idOf w ∈ visited →
        (∃ p ∈ queue, p.headD 0 = w) ∨ ∀ x ∈ nextF w, g.idOf x ∈ visited) →
      (∀ p ∈ traverseAux g nextF fuel queue visited,
        ∀ q, OkPath nextF start q → q.headD 0 = p.headD 0 → p.length ≤ q.length) ∧
      (∀ p ∈ traverseAux g nextF fuel queue visited,
        ∀ b : Nat, (∀ p0 ∈ queue, b ≤ p0.length) → b ≤ p.length) ∧
      ((traverseAux g nextF fuel queue visited).Pairwise
        (fun p q => p.length ≤ q.length)) := by
  intro fuel
  induction fuel with
  | zero =>
      intro queue visited _ _ _ _ _ _
      exact ⟨fun p hp => absurd hp (List.not_mem_nil p),
        fun p hp => absurd hp (List.not_mem_nil p), List.Pairwise.nil⟩
  | succ fuel ih =>
      intro queue visited hB hI2 hI3a hI3b hI9 hI8
      cases queue with
      | nil =>
          exact ⟨fun p hp => absurd hp (List.not_mem_nil p),
            fun p hp => absurd hp (List.not_mem_nil p), List.Pairwise.nil⟩
      | cons p rest =>
          obtain ⟨eq, ev, hps, hidseq, hevnd, hevnew, hmembers, hcover⟩ :=
            pushNexts_spec g p (nextF (p.headD 0)) rest visited
          have hout : traverseAux g nextF (fuel + 1) (p :: rest) visited
              = p :: traverseAux g nextF fuel (rest ++ eq) (visited ++ ev) := by
            show p :: traverseAux g nextF fuel
                (pushNexts g p (nextF (p.headD 0)) rest visited).1
                (pushNexts g p (nextF (p.headD 0)) rest visited).2
              = p :: traverseAux g nextF fuel (rest ++ eq) (visited ++ ev)
            rw [hps]
          have hpok : OkPath nextF start p := hB p (List.mem_cons_self _ _)
          have hLrest : ∀ p0 ∈ rest, p.length ≤ p0.length := by
            rw [List.map_cons, List.pairwise_cons] at hI3a
            intro p0 hp0
            exact hI3a.1 _ (List.mem_map_of_mem _ hp0)
          have hlen_eq : ∀ q' ∈ eq, q'.length = p.length + 1 := by
            intro q' hq'
            obtain ⟨nx, _, rfl, _⟩ := hmembers q' hq'
            simp
          have hBeq : ∀ q' ∈ eq, OkPath nextF start q' := by
            intro q' hq'
            obtain ⟨nx, hnx1, rfl, _⟩ := hmembers q' hq'
            exact okPath_extend hpok hnx1
          have hI2eq : ∀ q' ∈ eq, ∀ q, OkPath nextF start q →
              q.headD 0 = q'.headD 0 → q'.length ≤ q.length := by
            intro q' hq' q hq hhd
            obtain ⟨nx, hnx1, rfl, hnx3⟩ := hmembers q' hq'
            simp only [List.length_cons]
            by_cases hql : q.length ≤ p.length
            · exfalso
              have hboundq : ∀ p0 ∈ p :: rest, q.length ≤ p0.length := by
                intro p0 hp0
                rcases List.mem_cons.mp hp0 with he | h
                · rw [he]
                  exact hql
                · exact le_trans hql (hLrest p0 h)
              have hvis := visited_of_short g nextF start (p :: rest) visited
                hB hI2 hI9 hI8 q hq hboundq
              rw [hhd] at hvis
              exact absurd hvis hnx3
            · omega
          have hB' : ∀ q' ∈ rest ++ eq, OkPath nextF start q' := by
            intro q' hq'
            rcases List.mem_append.mp hq' with h | h
            · exact hB q' (List.mem_cons_of_mem _ h)
            · exact hBeq q' h
          have hI2' : ∀ p0 ∈ rest ++ eq, ∀ q, OkPath nextF start q →
              q.headD 0 = p0.headD 0 → p0.length ≤ q.length := by
            intro p0 hp0 q hq hhd
            rcases List.mem_append.mp hp0 with h | h
            · exact hI2 p0 (List.mem_cons_of_mem _ h) q hq hhd
            · exact hI2eq p0 h q hq hhd
          have hpw_eq : (eq.map List.length).Pairwise (· ≤ ·) := by
            apply pairwise_le_of_const (p.length + 1)
            intro x hx
            obtain ⟨q', hq', rfl⟩ := List.mem_map.mp hx
            exact hlen_eq q' hq'
          have hI3a' : ((rest ++ eq).map List.length).Pairwise (· ≤ ·) := by
            rw [List.map_append]
            apply List.pairwise_append.mpr
            refine ⟨?_, hpw_eq, ?_⟩
            · rw [List.map_cons, List.pairwise_cons] at hI3a
              exact hI3a.2
            · intro a ha b hb
              obtain ⟨p0, hp0, rfl⟩ := List.mem_map.mp ha
              obtain ⟨q', hq', rfl⟩ := List.mem_map.mp hb
              have h1 := hI3b p0 (List.mem_cons_of_mem _ hp0) p (List.mem_cons_self _ _)
              rw [hlen_eq q' hq']
              omega
          have hI3b' : ∀ a ∈ rest ++ eq, ∀ b ∈ rest ++ eq,
              a.length ≤ b.length + 1 := by
            intro a ha b hb
            rcases List.mem_append.mp ha with ha' | ha' <;>
              rcases List.mem_append.mp hb with hb' | hb'
            · exact hI3b a (List.mem_cons_of_mem _ ha') b (List.mem_cons_of_mem _ hb')
            · have h1 := hI3b a (List.mem_cons_of_mem _ ha') p (List.mem_cons_self _ _)
              rw [hlen_eq b hb']
              omega
            · rw [hlen_eq a ha']
              have := hLrest b hb'
              omega
            · rw [hlen_eq a ha', hlen_eq b hb']
              omega
          have hI9' : g.idOf start ∈ visited ++ ev := List.mem_append_left _ hI9
          have hI8' : ∀ w, Reaches nextF start w → g.idOf w ∈ visited ++ ev →
              (∃ p0 ∈ rest ++ eq, p0.headD 0 = w) ∨
              ∀ x ∈ nextF w, g.idOf x ∈ visited ++ ev := by
            intro w hw hwid
            rcases List.mem_append.mp hwid with hwv | hwev
            · rcases hI8 w hw hwv with ⟨pq, hpq, hhd⟩ | hexp
              · rcases List.mem_cons.mp hpq with he | hrest2
                · right
                  intro x hx
                  rw [← hhd, he] at hx
                  exact hcover x hx
                · left
                  exact ⟨pq, List.mem_append_left _ hrest2, hhd⟩
              · right
                intro x hx
                exact List.mem_append_left _ (hexp x hx)
            · have hmm : g.idOf w ∈ eq.map (fun q => g.idOf (q.headD 0)) := by
                rw [hidseq]
                exact hwev
              obtain ⟨q', hq', hqid⟩ := List.mem_map.mp hmm
              obtain ⟨nx, hnx1, rfl, _⟩ := hmembers q' hq'
              have hnxreach : Reaches nextF start nx :=
                reaches_step (reaches_head hpok) hnx1
              have hwnx : w = nx := hdist w nx hw hnxreach (by exact hqid.symm)
              left
              refine ⟨nx :: p, List.mem_append_right _ hq', ?_⟩
              show nx = w
              rw [hwnx]
          obtain ⟨ihO1, ihO3, ihO2⟩ := ih (rest ++ eq) (visited ++ ev)
            hB' hI2' hI3a' hI3b' hI9' hI8'
          refine ⟨?_, ?_, ?_⟩
          · intro p' hp' q hq hhd
            rw [hout] at hp'
            rcases List.mem_cons.mp hp' with he | hp''
            · rw [he]
              refine hI2 p (List.mem_cons_self _ _) q hq ?_
              rw [hhd, he]
            · exact ihO1 p' hp'' q hq hhd
          · intro p' hp' b hb
            rw [hout] at hp'
            rcases List.mem_cons.mp hp' with he | hp''
            · rw [he]
              exact hb p (List.mem_cons_self _ _)
            · refine ihO3 p' hp'' b ?_
              intro p0 hp0
              rcases List.mem_append.mp hp0 with h | h
              · exact hb p0 (List.mem_cons_of_mem _ h)
              · have := hb p (List.mem_cons_self _ _)
                rw [hlen_eq p0 h]
                omega
          · rw [hout]
            refine List.Pairwise.cons ?_ ihO2
            intro p' hp'
            refine ihO3 p' hp' p.length ?_
            intro p0 hp0
            rcases List.mem_append.mp hp0 with h | h
            · exact hLrest p0 h
            · rw [hlen_eq p0 h]
              omega

/-- **C7.** On any graph whose nodes reachable from `start` via `nextF` have
pairwise-distinct ids, `traverse` records exactly the reachable nodes, each
exactly once (regardless of shape); every recorded `traversalPath` is a valid
walk with the visited node first and `start` last, and is a *shortest* path to
that node; and the paths come out in breadth-first (non-decreasing length)
order.  `traverse` is a pure function of the graph's edge lists, so the result
is deterministic for a fixed edge insertion order. -/
theorem claim_C7 (g : Graph) (nextF : Nat → List Nat) (start : Nat)
    (hdist : ∀ u w, Reaches nextF start u → Reaches nextF start w →
      g.idOf u = g.idOf w → u = w) :
    (∀ v, Reaches nextF start v ↔ v ∈ g.traverseNodes start nextF) ∧
    ((g.traverseNodes start nextF).Nodup) ∧
    (∀ p ∈ g.traverse start nextF, OkPath nextF start p ∧
      p.getLast? = some start) ∧
    (∀ p ∈ g.traverse start nextF, ∀ q, OkPath nextF start q →
      q.headD 0 = p.headD 0 → p.length ≤ q.length) ∧
    ((g.traverse start nextF).Pairwise (fun p q => p.length ≤ q.length)) := by
  have hinit_B : ∀ p ∈ [[start]], OkPath nextF start p := by
    intro p hp
    rw [List.mem_singleton] at hp
    rw [hp]
    exact OkPath.single
  have hinit_I2 : ∀ p ∈ [[start]], ∀ q, OkPath nextF start q →
      q.headD 0 = p.headD 0 → p.length ≤ q.length := by
    intro p hp q hq _
    rw [List.mem_singleton] at hp
    rw [hp]
    cases q with
    | nil => exact absurd rfl (okPath_ne_nil hq)
    | cons a t => simp
  have hinit_I8 : ∀ w, Reaches nextF start w → g.idOf w ∈ [g.idOf start] →
      (∃ p ∈ [[start]], p.headD 0 = w) ∨
      ∀ x ∈ nextF w, g.idOf x ∈ [g.idOf start] := by
    intro w hw hwid
    rw [List.mem_singleton] at hwid
    have hws : w = start := hdist w start hw (reaches_self _ _) hwid
    left
    exact ⟨[start], List.mem_singleton_self _, hws.symm⟩
  obtain ⟨hO1, _, hO2⟩ := traverseAux_bfs g nextF start hdist (g.size + 2)
    [[start]] [g.idOf start] hinit_B hinit_I2
    (by simp)
    (by
      intro p hp q hq
      rw [List.mem_singleton] at hp hq
      rw [hp, hq]
      simp)
    (List.mem_singleton_self _) hinit_I8
  refine ⟨?_, ?_, ?_, ?_, ?_⟩
  · intro v
    constructor
    · exact traverse_complete g nextF start hdist v
    · exact traverse_sound g nextF start v
  · exact List.Nodup.of_map g.idOf (traverse_ids_nodup g start nextF)
  · intro p hp
    have hok := traverse_okPath g nextF start p hp
    exact ⟨hok, okPath_getLast hok⟩
  · exact hO1
  · exact hO2

theorem claim_C7_witness :
    (∀ u w, Reaches diamondGraph.dependentsOf 0 u →
      Reaches diamondGraph.dependentsOf 0 w →
      diamondGraph.idOf u = diamondGraph.idOf w → u = w) ∧
    ((∀ v, Reaches diamondGraph.dependentsOf 0 v ↔
        v ∈ diamondGraph.traverseNodes 0 diamondGraph.dependentsOf) ∧
      ((diamondGraph.traverseNodes 0 diamondGraph.dependentsOf).Nodup) ∧
      (∀ p ∈ diamondGraph.traverse 0 diamondGraph.dependentsOf,
        OkPath diamondGraph.dependentsOf 0 p ∧ p.getLast? = some 0) ∧
      (∀ p ∈ diamondGraph.traverse 0 diamondGraph.dependentsOf,
        ∀ q, OkPath diamondGraph.dependentsOf 0 q →
          q.headD 0 = p.headD 0 → p.length ≤ q.length) ∧
      ((diamondGraph.traverse 0 diamondGraph.dependentsOf).Pairwise
        (fun p q => p.length ≤ q.length))) := by
  have hdist : ∀ u w, Reaches diamondGraph.dependentsOf 0 u →
      Reaches diamondGraph.dependentsOf 0 w →
      diamondGraph.idOf u = diamondGraph.idOf w → u = w :=
    wf_hdist diamondGraph (by decide) (by decide) (by decide)
  exact ⟨hdist, claim_C7 diamondGraph diamondGraph.dependentsOf 0 hdist⟩

end Lighthouse
